import Mathlib

/-!
# nr5g spectrum core (src/native/spectrum.cpp): a verification development

The source functions are embedded twice.

The exact model (namespace nr5g). A C++ double is a rational number:
arithmetic is exact, and every value is finite. The two infinities that
computeBounds uses as loop seeds are kept apart in the type Ext. The 32-bit
float of the coordinate buffer is a rational as well. This model is what the
statements that speak of exact arithmetic or of finite samples are proved on
(C8, C12, C15, C20), and those whose content does not depend on rounding
(C1, C3, C9, C10, C16, C18, C19). It says nothing about rounding, overflow,
NaN or the narrowing to float.

The double-precision model (namespace nr5g.ieee). A double is NaN, an
infinity or a finite rational, and every operation rounds to nearest, ties
to even, as IEEE 754 prescribes; the coordinates are narrowed to 32-bit
floats. The statements about the values that computeNoiseFloor, buildCoords,
generateSpectrumTrace, nearestPoint and computeBounds return on arbitrary
doubles are proved on this model (C2, C4, C5, C6, C7, C11, C13, C14, C17).

Conventions common to both.

* A C++ int is an integer; where the theorems need the 32-bit range it is a
  hypothesis. A size_t is a natural number, and the conversion of an int to
  size_t wraps modulo 2^64.
* A uint32_t is a natural number reduced modulo 2^32 after every operation.
* A std::vector is a list. std::sort is insertion sort, for the relation
  "the comparator does not put b before a"; the order it leaves among
  equivalent elements is not used by any theorem.
* std::exp is a parameter of the trace generator.
-/

namespace nr5g

/-! ## Data model (spectrum.h) -/

/-- One trace sample: frequency in hertz and amplitude. -/
structure SpectrumPoint where
  frequency : ℚ
  amplitude : ℚ
deriving DecidableEq

/-- The frequency and amplitude envelope of a trace. -/
structure Bounds where
  freqMin : ℚ
  freqMax : ℚ
  ampMin : ℚ
  ampMax : ℚ
deriving DecidableEq

/-! ## Doubles that may be infinite (the accumulators of computeBounds) -/

/-- A double that is finite or one of the two infinities. -/
inductive Ext where
  | negInf : Ext
  | fin : ℚ → Ext
  | posInf : Ext
deriving DecidableEq

/-- The comparison a < b of two doubles. -/
def Ext.lt : Ext → Ext → Bool
  | Ext.negInf, Ext.negInf => false
  | Ext.negInf, _ => true
  | Ext.fin _, Ext.negInf => false
  | Ext.fin a, Ext.fin b => decide (a < b)
  | Ext.fin _, Ext.posInf => true
  | Ext.posInf, _ => false

/-- The library function std::min(a, b): b when b < a, otherwise a. -/
def Ext.min (a b : Ext) : Ext := if Ext.lt b a then b else a

/-- The library function std::max(a, b): b when a < b, otherwise a. -/
def Ext.max (a b : Ext) : Ext := if Ext.lt a b then b else a

/-- The library predicate std::isfinite. -/
def Ext.isFinite : Ext → Bool
  | Ext.fin _ => true
  | _ => false

/-- The value of a finite double (0 for an infinity, never used there). -/
def Ext.val : Ext → ℚ
  | Ext.fin q => q
  | _ => 0

/-- The Bounds record while the loop of computeBounds runs. -/
structure ExtBounds where
  freqMin : Ext
  freqMax : Ext
  ampMin : Ext
  ampMax : Ext
deriving DecidableEq

/-! ## computeBounds (spectrum.cpp 10-44) -/

/-- The body of the loop over the points (lines 25-28). -/
def boundsStep (bounds : ExtBounds) (point : SpectrumPoint) : ExtBounds :=
  { freqMin := Ext.min bounds.freqMin (Ext.fin point.frequency)
    freqMax := Ext.max bounds.freqMax (Ext.fin point.frequency)
    ampMin := Ext.min bounds.ampMin (Ext.fin point.amplitude)
    ampMax := Ext.max bounds.ampMax (Ext.fin point.amplitude) }

/-- The function computeBounds on finite samples: defaults on empty input,
otherwise a single pass from infinite seeds, then the two non-finite
fallbacks. With finite samples the fallbacks are never taken; the embedding
that takes NaN and infinite samples is ieee.computeBounds. -/
def computeBounds (points : List SpectrumPoint) : Bounds :=
  if points.isEmpty then
    { freqMin := 0, freqMax := 1, ampMin := -200, ampMax := 0 }
  else
    let bounds := points.foldl boundsStep
      { freqMin := Ext.posInf, freqMax := Ext.negInf, ampMin := Ext.posInf, ampMax := Ext.negInf }
    let freqBad := !bounds.freqMin.isFinite || !bounds.freqMax.isFinite
    let ampBad := !bounds.ampMin.isFinite || !bounds.ampMax.isFinite
    { freqMin := if freqBad then 0 else bounds.freqMin.val
      freqMax := if freqBad then 1 else bounds.freqMax.val
      ampMin := if ampBad then -200 else bounds.ampMin.val
      ampMax := if ampBad then 0 else bounds.ampMax.val }

/-! ## computeNoiseFloor (spectrum.cpp 46-74) -/

/-- The library function std::round: nearest integer, halves away from zero. -/
def cround (x : ℚ) : ℤ := if 0 ≤ x then ⌊x + 1 / 2⌋ else ⌈x - 1 / 2⌉

/-- The conversion static_cast<size_t> of a non-negative double: the
fractional part is discarded. -/
def truncToSize (x : ℚ) : ℕ := Int.toNat ⌊x⌋

/-- The number of low samples averaged (lines 65-66), for n amplitudes. The
literal 0.2 is the rational 2/10: the double product n * 0.2 is n/5 times
(1 + 2^-54) rounded to a double, whose integer part is that of n/5 for every
n below 2^50. -/
def sampleSize (n : ℕ) : ℕ := min (max 5 (truncToSize ((n : ℚ) * (2 / 10)))) n

/-- The function computeNoiseFloor in exact arithmetic: the sum, the mean and
the scaling by 10 are not rounded. The double computation is
ieee.computeNoiseFloor. -/
def computeNoiseFloor (points : List SpectrumPoint) : ℚ :=
  if points.isEmpty then -200
  else
    let amplitudes := points.map (fun point => point.amplitude)
    let sorted := amplitudes.insertionSort (fun a b => a ≤ b)
    let size := sampleSize sorted.length
    let sum := (sorted.take size).foldl (fun acc a => acc + a) 0
    let noise := sum / (size : ℚ)
    (cround (noise * 10) : ℚ) / 10

/-! ## buildCoords (spectrum.cpp 76-105) -/

/-- The loop of buildCoords in exact arithmetic: two coordinates per point, in
input order, neither rounded nor narrowed to float. The double computation
with the narrowing is ieee.coordLoop. -/
def coordLoop (width height : ℤ) (bounds : Bounds) (freqSpan ampSpan : ℚ) :
    List SpectrumPoint → List ℚ
  | [] => []
  | point :: rest =>
    ((point.frequency - bounds.freqMin) / freqSpan) * (width : ℚ) ::
      ((height : ℚ) - ((point.amplitude - bounds.ampMin) / ampSpan) * (height : ℚ)) ::
        coordLoop width height bounds freqSpan ampSpan rest

/-- The function buildCoords: spans that are not positive are replaced by 1. -/
def buildCoords (points : List SpectrumPoint) (width height : ℤ) (bounds : Bounds) : List ℚ :=
  let freqSpan := bounds.freqMax - bounds.freqMin
  let ampSpan := bounds.ampMax - bounds.ampMin
  let freqSpan := if freqSpan ≤ 0 then 1 else freqSpan
  let ampSpan := if ampSpan ≤ 0 then 1 else ampSpan
  coordLoop width height bounds freqSpan ampSpan points

/-! ## SeededRandom and generateSpectrumTrace (spectrum.cpp 107-162) -/

/-- The generator: its 32-bit state. -/
structure SeededRandom where
  state : ℕ
deriving DecidableEq

/-- The largest uint32_t, the constant UINT32_MAX. -/
def UINT32_MAX : ℕ := 4294967295

/-- The method next: the unsigned product and the unsigned sum each wrap
modulo 2^32; the result is the new state divided by UINT32_MAX. -/
def SeededRandom.next (rng : SeededRandom) : ℚ × SeededRandom :=
  let state : ℕ := ((1664525 * rng.state) % 2 ^ 32 + 1013904223) % 2 ^ 32
  ((state : ℚ) / (UINT32_MAX : ℚ), { state := state })

/-- The body of the generation loop at index i, where u is the value that
rng.next() returned for this index. -/
def tracePoint (exp : ℚ → ℚ) (startFreq step : ℚ) (numPoints : ℤ) (i : ℤ) (u : ℚ) :
    SpectrumPoint :=
  let frequency := (startFreq + step * (i : ℚ)) * 1000000000
  let noise := -120 + (u * 4 - 2)
  let idx_normalized := ((i - Int.tdiv numPoints 2 : ℤ) : ℚ) / ((numPoints : ℚ) / 10)
  let signalPeak := -20 * exp (-idx_normalized * idx_normalized) + 5
  let spur1_idx := ((i : ℚ) - (numPoints : ℚ) * (3 / 10)) / ((numPoints : ℚ) / 25)
  let spur1 := -45 * exp (-spur1_idx * spur1_idx)
  let spur2_idx := ((i : ℚ) - (numPoints : ℚ) * (7 / 10)) / ((numPoints : ℚ) / 28)
  let spur2 := -52 * exp (-spur2_idx * spur2_idx)
  { frequency := frequency, amplitude := noise + signalPeak + spur1 + spur2 }

/-- The generation loop: remaining iterations, current index, generator. -/
def traceLoop (exp : ℚ → ℚ) (startFreq step : ℚ) (numPoints : ℤ) :
    ℕ → ℕ → SeededRandom → List SpectrumPoint
  | 0, _, _ => []
  | remaining + 1, i, rng =>
    tracePoint exp startFreq step numPoints (i : ℤ) (rng.next).1 ::
      traceLoop exp startFreq step numPoints remaining (i + 1) (rng.next).2

/-- The function generateSpectrumTrace. The result is none when the call
trace.reserve(numPoints) throws std::length_error, which it does for every
negative numPoints (the int converts to a size_t above max_size). There is
no other check of numPoints. At numPoints = 1 the source divides by zero
(a non-finite step, hence a non-finite frequency); rational division gives
0 there, so at numPoints = 1 the frequency of this definition is not the
source's, and no theorem below speaks about it. The arithmetic is exact; the
double computation, NaN at numPoints = 1 included, is
ieee.generateSpectrumTrace. -/
def generateSpectrumTrace (exp : ℚ → ℚ) (centerFreqGHz spanGHz : ℚ) (numPoints : ℤ)
    (seed : ℕ) : Option (List SpectrumPoint) :=
  if numPoints < 0 then none
  else
    let startFreq := centerFreqGHz - spanGHz / 2
    let step := spanGHz / ((numPoints - 1 : ℤ) : ℚ)
    some (traceLoop exp startFreq step numPoints numPoints.toNat 0 { state := seed })

/-- The noise term of the loop body (line 142) for the generator value u:
baseline + (u * 4.0 - 2.0) with baseline = -120. -/
def noiseTerm (u : ℚ) : ℚ := -120 + (u * 4 - 2)

/-- The normalized index of the main signal (line 145) at index i: the
numerator i - numPoints / 2 is an int expression (truncating division), the
denominator numPoints / 10.0 a double division. -/
def idxNormalized (numPoints : ℤ) (i : ℤ) : ℚ :=
  ((i - Int.tdiv numPoints 2 : ℤ) : ℚ) / ((numPoints : ℚ) / 10)

/-- The main signal term of the loop body (line 146) at index i. -/
def signalPeakTerm (exp : ℚ → ℚ) (numPoints : ℤ) (i : ℤ) : ℚ :=
  -20 * exp (-idxNormalized numPoints i * idxNormalized numPoints i) + 5

/-- The normalized index of the first spur (line 149) at index i. -/
def spur1Idx (numPoints : ℤ) (i : ℤ) : ℚ :=
  ((i : ℚ) - (numPoints : ℚ) * (3 / 10)) / ((numPoints : ℚ) / 25)

/-- The first spur term of the loop body (line 150) at index i. -/
def spur1Term (exp : ℚ → ℚ) (numPoints : ℤ) (i : ℤ) : ℚ :=
  -45 * exp (-spur1Idx numPoints i * spur1Idx numPoints i)

/-- The normalized index of the second spur (line 153) at index i. -/
def spur2Idx (numPoints : ℤ) (i : ℤ) : ℚ :=
  ((i : ℚ) - (numPoints : ℚ) * (7 / 10)) / ((numPoints : ℚ) / 28)

/-- The second spur term of the loop body (line 154) at index i. -/
def spur2Term (exp : ℚ → ℚ) (numPoints : ℤ) (i : ℤ) : ℚ :=
  -52 * exp (-spur2Idx numPoints i * spur2Idx numPoints i)

/-- The generator as it stands before the iteration of index i: i calls of
next after construction from the seed. -/
def rngAt (seed : ℕ) : ℕ → SeededRandom
  | 0 => { state := seed }
  | i + 1 => ((rngAt seed i).next).2

/-! ## findPeaks (spectrum.cpp 164-186) -/

/-- The conversion static_cast<size_t> of an int: wraps modulo 2^64. -/
def castSizeT (k : ℤ) : ℕ := Int.toNat (k % 2 ^ 64)

/-- The order in which std::sort with the comparator a.amplitude > b.amplitude
leaves two elements a before b: b does not compare before a. -/
def ampOrder (a b : SpectrumPoint) : Prop := ¬ (b.amplitude > a.amplitude)

instance ampOrder_decidable : DecidableRel ampOrder :=
  fun a b => inferInstanceAs (Decidable (¬ (b.amplitude > a.amplitude)))

/-- The function findPeaks. -/
def findPeaks (points : List SpectrumPoint) (maxPeaks : ℤ) : List SpectrumPoint :=
  if points.isEmpty then []
  else
    let sorted := points.insertionSort ampOrder
    let numPeaks := min (castSizeT maxPeaks) sorted.length
    sorted.take numPeaks

/-! ## nearestPoint (spectrum.cpp 188-211) -/

/-- The scan of nearestPoint over the points after the first, with exact
distances: the nearest point so far, its distance, and the points still to
visit. The scan over the rounded double distances is ieee.nearestLoop. -/
def nearestLoop (frequencyHz : ℚ) : SpectrumPoint → ℚ → List SpectrumPoint → SpectrumPoint
  | nearest, _, [] => nearest
  | nearest, bestDistance, point :: rest =>
    if |point.frequency - frequencyHz| < bestDistance then
      nearestLoop frequencyHz point |point.frequency - frequencyHz| rest
    else
      nearestLoop frequencyHz nearest bestDistance rest

/-- The function nearestPoint: a sentinel on empty input, otherwise the scan
started at the first point. -/
def nearestPoint (points : List SpectrumPoint) (frequencyHz : ℚ) : SpectrumPoint :=
  match points with
  | [] => { frequency := 0, amplitude := -200 }
  | first :: rest => nearestLoop frequencyHz first |first.frequency - frequencyHz| rest

/-! ## processSpectrum (addon.cpp 196-239), the numeric part -/

/-- The record that processSpectrum returns: bounds, noise floor, and the
coordinates when they were asked for. -/
structure ProcessResult where
  bounds : Bounds
  noiseFloor : ℚ
  coords : Option (List ℚ)

/-- The function ProcessSpectrum on an options object with the given points:
width and height are none when the option is absent. The coordinates are
computed with the bounds just computed (line 226). -/
def processSpectrum (points : List SpectrumPoint) (width height : Option ℤ)
    (computeCoords : Bool) : ProcessResult :=
  let bounds := computeBounds points
  let noiseFloor := computeNoiseFloor points
  match width, height, computeCoords with
  | some w, some h, true =>
    { bounds := bounds, noiseFloor := noiseFloor, coords := some (buildCoords points w h bounds) }
  | _, _, _ => { bounds := bounds, noiseFloor := noiseFloor, coords := none }

/-! ## The sample size in the words of the specification, and sample inputs -/

/-- The sample size as the specification words it: n × 0.2 rounded to the
nearest integer, at least 5, at most n. -/
def sampleSizeRounded (n : ℕ) : ℕ := min n (max 5 (Int.toNat (cround ((n : ℚ) * (2 / 10)))))

/-- The noise floor as the specification words it: the mean of the
sampleSizeRounded lowest amplitudes, rounded to the nearest tenth. -/
def noiseFloorRounded (points : List SpectrumPoint) : ℚ :=
  let sorted := (points.map (fun point => point.amplitude)).insertionSort (fun a b => a ≤ b)
  let low := sorted.take (sampleSizeRounded points.length)
  (cround (low.sum / (low.length : ℚ) * 10) : ℚ) / 10

/-- The input with the constant c added to every amplitude. -/
def shiftAmplitudes (c : ℚ) (points : List SpectrumPoint) : List SpectrumPoint :=
  points.map (fun point => { frequency := point.frequency, amplitude := point.amplitude + c })

/-- A rational function put in the place of std::exp to run the generator on
concrete inputs: the constant 1, the value of exp at 0. The length and the
frequencies of a trace do not depend on it. -/
def expOne : ℚ → ℚ := fun _ => 1

/-- The three samples of the example scenarios of the specification. -/
def trace3 : List SpectrumPoint :=
  [⟨1000000000, -80⟩, ⟨2000000000, -10⟩, ⟨3000000000, -90⟩]

/-- Six samples with amplitudes -100, -99, -98, -97, -96 and -10. -/
def trace6 : List SpectrumPoint :=
  [⟨1, -100⟩, ⟨2, -99⟩, ⟨3, -98⟩, ⟨4, -97⟩, ⟨5, -96⟩, ⟨6, -10⟩]

/-- Twenty-eight samples: five at amplitude -100 and twenty-three at -40. -/
def trace28 : List SpectrumPoint :=
  List.replicate 5 ⟨0, -100⟩ ++ List.replicate 23 ⟨0, -40⟩

instance ampOrder_total : IsTotal SpectrumPoint ampOrder :=
  ⟨fun a b => by
    unfold ampOrder
    rcases le_total a.amplitude b.amplitude with h | h
    · exact Or.inr (not_lt.mpr h)
    · exact Or.inl (not_lt.mpr h)⟩

instance ampOrder_trans : IsTrans SpectrumPoint ampOrder :=
  ⟨fun a b c hab hbc => by
    unfold ampOrder at *
    exact not_lt.mpr (le_trans (not_lt.mp hbc) (not_lt.mp hab))⟩

/-! ## The double-precision model

The definitions above compute in exact rational arithmetic; they are what the
claims that speak of exact arithmetic or of finite samples are settled on.
The namespace ieee embeds the same source functions in IEEE 754 arithmetic:
every operation on doubles rounds to nearest, ties to even, overflows to an
infinity and propagates NaN, and the coordinates are narrowed to 32-bit
floats. The two zeros are one value: the only zero the source divides by is
the converted int 0, which is +0.0. -/

namespace ieee

/-! ### Rounding -/

/-- Nearest integer, a tie going to the even integer. -/
def roundHalfEven (s : ℚ) : ℤ :=
  if s - ⌊s⌋ < 1 / 2 then ⌊s⌋
  else if 1 / 2 < s - ⌊s⌋ then ⌊s⌋ + 1
  else if ⌊s⌋ % 2 = 0 then ⌊s⌋ else ⌊s⌋ + 1

/-- The exponent of the unit in the last place of q in a binary format with
prec significand bits whose smallest positive number is 2 ^ kmin. -/
def ulpExp (prec : ℕ) (kmin : ℤ) (q : ℚ) : ℤ := max (Int.log 2 |q| - ((prec : ℤ) - 1)) kmin

/-- Round to nearest, ties to even, in a binary format with prec significand
bits and smallest positive number 2 ^ kmin; the exponent is not bounded
above (overflow is decided by roundDbl and roundF32). -/
def roundQ (prec : ℕ) (kmin : ℤ) (q : ℚ) : ℚ :=
  if q = 0 then 0
  else (roundHalfEven (q / 2 ^ ulpExp prec kmin q) : ℚ) * 2 ^ ulpExp prec kmin q

/-- The numbers of the format: an integer below 2 ^ prec in magnitude times a
power of two that is at least 2 ^ kmin. -/
def IsRep (prec : ℕ) (kmin : ℤ) (y : ℚ) : Prop :=
  ∃ n j : ℤ, |n| < 2 ^ prec ∧ kmin ≤ j ∧ y = (n : ℚ) * 2 ^ j

/-- A floating-point value: NaN, an infinity or a finite number. -/
inductive Fp where
  | nan : Fp
  | negInf : Fp
  | posInf : Fp
  | fin : ℚ → Fp
deriving DecidableEq

/-- The double nearest to q: 53 significand bits, smallest positive number
2 ^ -1074, an infinity when the rounded magnitude reaches 2 ^ 1024. -/
def roundDbl (q : ℚ) : Fp :=
  if 2 ^ 1024 ≤ roundQ 53 (-1074) q then Fp.posInf
  else if roundQ 53 (-1074) q ≤ -2 ^ 1024 then Fp.negInf
  else Fp.fin (roundQ 53 (-1074) q)

/-- The 32-bit float nearest to q: 24 significand bits, smallest positive
number 2 ^ -149, an infinity when the rounded magnitude reaches 2 ^ 128. -/
def roundF32 (q : ℚ) : Fp :=
  if 2 ^ 128 ≤ roundQ 24 (-149) q then Fp.posInf
  else if roundQ 24 (-149) q ≤ -2 ^ 128 then Fp.negInf
  else Fp.fin (roundQ 24 (-149) q)

/-- The finite rational q is a double. -/
def IsDouble (q : ℚ) : Prop := roundDbl q = Fp.fin q

/-! ### Operations on doubles -/

/-- Unary minus. -/
def Fp.neg : Fp → Fp
  | Fp.nan => Fp.nan
  | Fp.negInf => Fp.posInf
  | Fp.posInf => Fp.negInf
  | Fp.fin a => Fp.fin (-a)

/-- Addition of doubles. -/
def Fp.add : Fp → Fp → Fp
  | Fp.nan, _ => Fp.nan
  | _, Fp.nan => Fp.nan
  | Fp.posInf, Fp.negInf => Fp.nan
  | Fp.negInf, Fp.posInf => Fp.nan
  | Fp.posInf, _ => Fp.posInf
  | _, Fp.posInf => Fp.posInf
  | Fp.negInf, _ => Fp.negInf
  | _, Fp.negInf => Fp.negInf
  | Fp.fin a, Fp.fin b => roundDbl (a + b)

/-- Subtraction of doubles. -/
def Fp.sub (a b : Fp) : Fp := Fp.add a (Fp.neg b)

/-- An infinity with the sign of the infinity a times the sign of the finite
b, NaN when b is zero. -/
def Fp.infTimes (aPositive : Bool) (b : ℚ) : Fp :=
  if b = 0 then Fp.nan
  else if (decide (0 < b)) = aPositive then Fp.posInf else Fp.negInf

/-- Multiplication of doubles. -/
def Fp.mul : Fp → Fp → Fp
  | Fp.nan, _ => Fp.nan
  | _, Fp.nan => Fp.nan
  | Fp.posInf, Fp.posInf => Fp.posInf
  | Fp.posInf, Fp.negInf => Fp.negInf
  | Fp.negInf, Fp.posInf => Fp.negInf
  | Fp.negInf, Fp.negInf => Fp.posInf
  | Fp.posInf, Fp.fin b => Fp.infTimes true b
  | Fp.negInf, Fp.fin b => Fp.infTimes false b
  | Fp.fin a, Fp.posInf => Fp.infTimes true a
  | Fp.fin a, Fp.negInf => Fp.infTimes false a
  | Fp.fin a, Fp.fin b => roundDbl (a * b)

/-- Division of doubles; a zero divisor is +0.0. -/
def Fp.div : Fp → Fp → Fp
  | Fp.nan, _ => Fp.nan
  | _, Fp.nan => Fp.nan
  | Fp.posInf, Fp.posInf => Fp.nan
  | Fp.posInf, Fp.negInf => Fp.nan
  | Fp.negInf, Fp.posInf => Fp.nan
  | Fp.negInf, Fp.negInf => Fp.nan
  | Fp.posInf, Fp.fin b => if 0 ≤ b then Fp.posInf else Fp.negInf
  | Fp.negInf, Fp.fin b => if 0 ≤ b then Fp.negInf else Fp.posInf
  | Fp.fin _, Fp.posInf => Fp.fin 0
  | Fp.fin _, Fp.negInf => Fp.fin 0
  | Fp.fin a, Fp.fin b =>
    if b = 0 then (if a = 0 then Fp.nan else if 0 < a then Fp.posInf else Fp.negInf)
    else roundDbl (a / b)

instance : Neg Fp := ⟨Fp.neg⟩
instance : Add Fp := ⟨Fp.add⟩
instance : Sub Fp := ⟨Fp.sub⟩
instance : Mul Fp := ⟨Fp.mul⟩
instance : Div Fp := ⟨Fp.div⟩

/-- The comparison a < b of doubles: false when either is NaN. -/
def Fp.lt : Fp → Fp → Bool
  | Fp.nan, _ => false
  | _, Fp.nan => false
  | Fp.negInf, Fp.negInf => false
  | Fp.negInf, _ => true
  | Fp.fin _, Fp.negInf => false
  | Fp.fin a, Fp.fin b => decide (a < b)
  | Fp.fin _, Fp.posInf => true
  | Fp.posInf, _ => false

/-- The comparison a <= b of doubles: false when either is NaN. -/
def Fp.le : Fp → Fp → Bool
  | Fp.nan, _ => false
  | _, Fp.nan => false
  | Fp.negInf, _ => true
  | Fp.fin _, Fp.negInf => false
  | Fp.fin a, Fp.fin b => decide (a ≤ b)
  | Fp.fin _, Fp.posInf => true
  | Fp.posInf, Fp.posInf => true
  | Fp.posInf, _ => false

/-- The library function std::abs on a double. -/
def Fp.abs : Fp → Fp
  | Fp.nan => Fp.nan
  | Fp.negInf => Fp.posInf
  | Fp.posInf => Fp.posInf
  | Fp.fin a => Fp.fin |a|

/-- The library function std::round on a double: nearest integer, halves
away from zero (exact: a double of magnitude 2 ^ 52 or more is an integer). -/
def Fp.round : Fp → Fp
  | Fp.fin a => Fp.fin (cround a)
  | x => x

/-- The library predicate std::isfinite. -/
def Fp.isFinite : Fp → Bool
  | Fp.fin _ => true
  | _ => false

/-- The library function std::min(a, b): b when b < a, otherwise a. -/
def stdMin (a b : Fp) : Fp := if Fp.lt b a then b else a

/-- The library function std::max(a, b): b when a < b, otherwise a. -/
def stdMax (a b : Fp) : Fp := if Fp.lt a b then b else a

/-- The conversion of an int to double, exact for every 32-bit int. -/
def Fp.ofInt (z : ℤ) : Fp := Fp.fin (z : ℚ)

/-- The conversion of a size_t to double, which rounds. -/
def Fp.ofNat (n : ℕ) : Fp := roundDbl (n : ℚ)

/-- The double that a decimal literal of value q denotes. -/
def Fp.lit (q : ℚ) : Fp := roundDbl q

/-- The conversion static_cast<float> of a double. -/
def toFloat32 : Fp → Fp
  | Fp.fin a => roundF32 a
  | x => x

/-- The conversion static_cast<size_t> of a finite non-negative double: the
fractional part is discarded (0 stands for the undefined other cases). -/
def truncToSize : Fp → ℕ
  | Fp.fin a => Int.toNat ⌊a⌋
  | _ => 0

/-! ### Data model -/

/-- One trace sample whose fields are doubles. -/
structure SpectrumPoint where
  frequency : Fp
  amplitude : Fp
deriving DecidableEq

/-- The bounds record with double fields. -/
structure Bounds where
  freqMin : Fp
  freqMax : Fp
  ampMin : Fp
  ampMax : Fp
deriving DecidableEq

/-- A sample with finite rational fields, as a sample of doubles. -/
def ofExact (p : nr5g.SpectrumPoint) : SpectrumPoint :=
  { frequency := Fp.fin p.frequency, amplitude := Fp.fin p.amplitude }

/-! ### computeBounds (spectrum.cpp 10-44) -/

/-- The body of the loop over the points (lines 25-28). -/
def boundsStep (bounds : Bounds) (point : SpectrumPoint) : Bounds :=
  { freqMin := stdMin bounds.freqMin point.frequency
    freqMax := stdMax bounds.freqMax point.frequency
    ampMin := stdMin bounds.ampMin point.amplitude
    ampMax := stdMax bounds.ampMax point.amplitude }

/-- The two fallbacks after the loop (lines 31-41). -/
def boundsFallback (bounds : Bounds) : Bounds :=
  let freqBad := !bounds.freqMin.isFinite || !bounds.freqMax.isFinite
  let ampBad := !bounds.ampMin.isFinite || !bounds.ampMax.isFinite
  { freqMin := if freqBad then Fp.fin 0 else bounds.freqMin
    freqMax := if freqBad then Fp.fin 1 else bounds.freqMax
    ampMin := if ampBad then Fp.fin (-200) else bounds.ampMin
    ampMax := if ampBad then Fp.fin 0 else bounds.ampMax }

/-- The function computeBounds on samples of doubles, which may be NaN or
infinite. -/
def computeBounds (points : List SpectrumPoint) : Bounds :=
  if points.isEmpty then
    { freqMin := Fp.fin 0, freqMax := Fp.fin 1, ampMin := Fp.fin (-200), ampMax := Fp.fin 0 }
  else
    boundsFallback (points.foldl boundsStep
      { freqMin := Fp.posInf, freqMax := Fp.negInf, ampMin := Fp.posInf, ampMax := Fp.negInf })

/-! ### computeNoiseFloor (spectrum.cpp 46-74) -/

/-- The order in which std::sort with operator< leaves two doubles a before
b: b is not below a. With a NaN among the values operator< is not a strict
weak order and the behaviour of std::sort is undefined; the theorems about
computeNoiseFloor take finite samples. -/
def ascOrder (a b : Fp) : Prop := Fp.lt b a = false

instance ascOrder_decidable : DecidableRel ascOrder :=
  fun a b => inferInstanceAs (Decidable (Fp.lt b a = false))

/-- The number of low samples averaged (lines 65-66): the size converted to
double, times the double 0.2, truncated, then at least 5 and at most n. -/
def sampleSize (n : ℕ) : ℕ := min (max 5 (truncToSize (Fp.ofNat n * Fp.lit (2 / 10)))) n

/-- The function computeNoiseFloor in double arithmetic: std::accumulate adds
from 0.0 in ascending order. -/
def computeNoiseFloor (points : List SpectrumPoint) : Fp :=
  if points.isEmpty then Fp.fin (-200)
  else
    let amplitudes := points.map (fun point => point.amplitude)
    let sorted := amplitudes.insertionSort ascOrder
    let size := sampleSize sorted.length
    let sum := (sorted.take size).foldl (fun acc a => acc + a) (Fp.fin 0)
    let noise := sum / Fp.ofNat size
    Fp.round (noise * Fp.fin 10) / Fp.fin 10

/-! ### buildCoords (spectrum.cpp 76-105) -/

/-- The loop of buildCoords: two 32-bit floats per point, in input order. -/
def coordLoop (width height : ℤ) (bounds : Bounds) (freqSpan ampSpan : Fp) :
    List SpectrumPoint → List Fp
  | [] => []
  | point :: rest =>
    toFloat32 (((point.frequency - bounds.freqMin) / freqSpan) * Fp.ofInt width) ::
      toFloat32 (Fp.ofInt height
          - ((point.amplitude - bounds.ampMin) / ampSpan) * Fp.ofInt height) ::
        coordLoop width height bounds freqSpan ampSpan rest

/-- The guard of lines 89-92: a span that compares <= 0.0 becomes 1.0 (a NaN
span does not compare and stays). -/
def guardSpan (span : Fp) : Fp := if Fp.le span (Fp.fin 0) then Fp.fin 1 else span

/-- The function buildCoords in double arithmetic. -/
def buildCoords (points : List SpectrumPoint) (width height : ℤ) (bounds : Bounds) : List Fp :=
  coordLoop width height bounds (guardSpan (bounds.freqMax - bounds.freqMin))
    (guardSpan (bounds.ampMax - bounds.ampMin)) points

/-! ### SeededRandom and generateSpectrumTrace (spectrum.cpp 107-162) -/

/-- The method next in double arithmetic: the new 32-bit state and
UINT32_MAX convert exactly, the quotient rounds. -/
def next (rng : SeededRandom) : Fp × SeededRandom :=
  let state : ℕ := ((1664525 * rng.state) % 2 ^ 32 + 1013904223) % 2 ^ 32
  (Fp.fin (state : ℚ) / Fp.fin (UINT32_MAX : ℚ), { state := state })

/-- The body of the generation loop at index i in double arithmetic, where u
is the value that rng.next() returned for this index. -/
def tracePoint (exp : Fp → Fp) (startFreq step : Fp) (numPoints : ℤ) (i : ℤ) (u : Fp) :
    SpectrumPoint :=
  let frequency := (startFreq + step * Fp.ofInt i) * Fp.fin 1000000000
  let noise := Fp.fin (-120) + (u * Fp.fin 4 - Fp.fin 2)
  let idx_normalized := Fp.ofInt (i - Int.tdiv numPoints 2) / (Fp.ofInt numPoints / Fp.fin 10)
  let signalPeak := Fp.fin (-20) * exp (-idx_normalized * idx_normalized) + Fp.fin 5
  let spur1_idx := (Fp.ofInt i - Fp.ofInt numPoints * Fp.lit (3 / 10))
    / (Fp.ofInt numPoints / Fp.fin 25)
  let spur1 := Fp.fin (-45) * exp (-spur1_idx * spur1_idx)
  let spur2_idx := (Fp.ofInt i - Fp.ofInt numPoints * Fp.lit (7 / 10))
    / (Fp.ofInt numPoints / Fp.fin 28)
  let spur2 := Fp.fin (-52) * exp (-spur2_idx * spur2_idx)
  { frequency := frequency, amplitude := noise + signalPeak + spur1 + spur2 }

/-- The generation loop: remaining iterations, current index, generator. -/
def traceLoop (exp : Fp → Fp) (startFreq step : Fp) (numPoints : ℤ) :
    ℕ → ℕ → SeededRandom → List SpectrumPoint
  | 0, _, _ => []
  | remaining + 1, i, rng =>
    tracePoint exp startFreq step numPoints (i : ℤ) (next rng).1 ::
      traceLoop exp startFreq step numPoints remaining (i + 1) (next rng).2

/-- The function generateSpectrumTrace in double arithmetic. The result is
none when trace.reserve(numPoints) throws std::length_error, which it does
for every negative numPoints; there is no other check of numPoints. With
numPoints = 1 the step is a division by the double 0.0. -/
def generateSpectrumTrace (exp : Fp → Fp) (centerFreqGHz spanGHz : Fp) (numPoints : ℤ)
    (seed : ℕ) : Option (List SpectrumPoint) :=
  if numPoints < 0 then none
  else
    let startFreq := centerFreqGHz - spanGHz / Fp.fin 2
    let step := spanGHz / Fp.ofInt (numPoints - 1)
    some (traceLoop exp startFreq step numPoints numPoints.toNat 0 { state := seed })

/-- A stand-in for std::exp on doubles to run the generator on concrete
inputs: the constant 1.0. -/
def expOne : Fp → Fp := fun _ => Fp.fin 1

/-! ### nearestPoint (spectrum.cpp 188-211) -/

/-- The distance that nearestPoint computes for a sample: the double
std::abs(frequency - frequencyHz). -/
def distanceTo (frequencyHz : Fp) (point : SpectrumPoint) : Fp :=
  Fp.abs (point.frequency - frequencyHz)

/-- The scan of nearestPoint over the points after the first. -/
def nearestLoop (frequencyHz : Fp) : SpectrumPoint → Fp → List SpectrumPoint → SpectrumPoint
  | nearest, _, [] => nearest
  | nearest, bestDistance, point :: rest =>
    if Fp.lt (distanceTo frequencyHz point) bestDistance then
      nearestLoop frequencyHz point (distanceTo frequencyHz point) rest
    else
      nearestLoop frequencyHz nearest bestDistance rest

/-- The function nearestPoint in double arithmetic. -/
def nearestPoint (points : List SpectrumPoint) (frequencyHz : Fp) : SpectrumPoint :=
  match points with
  | [] => { frequency := Fp.fin 0, amplitude := Fp.fin (-200) }
  | first :: rest => nearestLoop frequencyHz first (distanceTo frequencyHz first) rest

/-! ### Sample sequences and sums used in the statements -/

/-- The double sum of std::accumulate (line 69) over a list of finite values:
the additions start from 0.0 and go through the list in order, each one
rounded. -/
def sumDbl (l : List ℚ) : Fp := l.foldl (fun acc a => acc + Fp.fin a) (Fp.fin 0)

/-- The sample sequence {2^60, 0}, {1, 1}. -/
def farPair : List nr5g.SpectrumPoint :=
  [{ frequency := 2 ^ 60, amplitude := 0 }, { frequency := 1, amplitude := 1 }]

/-- Three samples with amplitudes -1e16, 1 and 1e16: in double arithmetic
the 1 is absorbed by -1e16. -/
def cancelTrace : List nr5g.SpectrumPoint :=
  [{ frequency := 1, amplitude := -10000000000000000 }, { frequency := 2, amplitude := 1 },
    { frequency := 3, amplitude := 10000000000000000 }]

/-- One sample whose amplitude is the double nearest to 0.15, which is below
0.15. -/
def tenthTrace : List nr5g.SpectrumPoint :=
  [{ frequency := 1, amplitude := 5404319552844595 / 36028797018963968 }]

end ieee

/-! ## findPeaks: lemmas -/

/-- Claim C1 fails on the code: with the negative maxPeaks = -1 and three
samples, findPeaks returns all three samples (sorted by descending
amplitude) instead of the empty sequence, so the length 3 exceeds maxPeaks. -/
theorem findPeaks_negative_maxPeaks_returns_all :
    findPeaks trace3 (-1) = [⟨2000000000, -10⟩, ⟨1000000000, -80⟩, ⟨3000000000, -90⟩] ∧
      findPeaks trace3 (-1) ≠ [] ∧
      ¬ (((findPeaks trace3 (-1)).length : ℤ) ≤ -1) := by
  have h : findPeaks trace3 (-1) =
      [⟨2000000000, -10⟩, ⟨1000000000, -80⟩, ⟨3000000000, -90⟩] := by decide
  rw [h]
  exact ⟨rfl, by simp, by simp⟩

/-! ## computeNoiseFloor: lemmas -/

theorem truncToSize_fifth (n : ℕ) : truncToSize ((n : ℚ) * (2 / 10)) = n / 5 := by
  unfold truncToSize
  have h : (n : ℚ) * (2 / 10) = ((n : ℤ) : ℚ) / ((5 : ℕ) : ℚ) := by
    push_cast
    ring
  rw [h, Rat.floor_intCast_div_natCast]
  omega

theorem sampleSize_eq (n : ℕ) : sampleSize n = min n (max 5 (n / 5)) := by
  unfold sampleSize
  rw [truncToSize_fifth, min_comm]

theorem foldl_add_eq_sum (l : List ℚ) (init : ℚ) :
    l.foldl (fun acc a => acc + a) init = init + l.sum := by
  induction l generalizing init with
  | nil => simp
  | cons a l ih => simp [ih, add_assoc]

theorem cround_near (x : ℚ) : |(cround x : ℚ) - x| ≤ 1 / 2 := by
  unfold cround
  split
  · have h1 := Int.floor_le (x + 1 / 2)
    have h2 := Int.lt_floor_add_one (x + 1 / 2)
    rw [abs_le]
    constructor <;> linarith
  · have h1 := Int.le_ceil (x - 1 / 2)
    have h2 := Int.ceil_lt_add_one (x - 1 / 2)
    rw [abs_le]
    constructor <;> linarith

theorem cround_intCast (z : ℤ) : cround (z : ℚ) = z := by
  unfold cround
  split
  · rw [Int.floor_eq_iff]
    constructor <;> linarith
  · rw [Int.ceil_eq_iff]
    constructor <;> linarith

theorem sampleSizeRounded_28 : sampleSizeRounded 28 = 6 := by
  have h : cround (((28 : ℕ) : ℚ) * (2 / 10)) = 6 := by
    unfold cround
    rw [if_pos (by norm_num), Int.floor_eq_iff]
    norm_num
  unfold sampleSizeRounded
  rw [h]
  decide

theorem computeNoiseFloor_eq (points : List SpectrumPoint) (h : points ≠ []) :
    computeNoiseFloor points =
      (cround ((((points.map (fun point => point.amplitude)).insertionSort
        (fun a b => a ≤ b)).take (sampleSize points.length)).sum
          / (sampleSize points.length : ℚ) * 10) : ℚ) / 10 := by
  unfold computeNoiseFloor
  cases points with
  | nil => exact absurd rfl h
  | cons p ps =>
    simp only [List.isEmpty_cons, Bool.false_eq_true, if_false, List.length_insertionSort,
      List.length_map, foldl_add_eq_sum, zero_add]

theorem noiseFloorRounded_trace28 : noiseFloorRounded trace28 = -90 := by
  unfold noiseFloorRounded
  have hl : trace28.length = 28 := by decide
  rw [hl, sampleSizeRounded_28]
  dsimp only
  have h : ((List.map (fun point => point.amplitude) trace28).insertionSort
      (fun a b => a ≤ b)).take 6
      = [-100, -100, -100, -100, -100, -40] := by decide
  rw [h]
  have h2 : ([-100, -100, -100, -100, -100, -40] : List ℚ).sum
      / ((([-100, -100, -100, -100, -100, -40] : List ℚ).length : ℕ) : ℚ) * 10
      = ((-900 : ℤ) : ℚ) := by norm_num
  rw [h2, cround_intCast]
  norm_num

/-! ## SeededRandom: lemmas -/

theorem next_state_eq (s : ℕ) :
    (SeededRandom.next { state := s }).2.state = (1664525 * s + 1013904223) % 2 ^ 32 := by
  simp only [SeededRandom.next]
  omega

theorem next_value_eq (s : ℕ) :
    (SeededRandom.next { state := s }).1 =
      (((SeededRandom.next { state := s }).2.state : ℕ) : ℚ) / (2 ^ 32 - 1) := by
  simp only [SeededRandom.next, UINT32_MAX]
  norm_num

/-! ## Claim C3 -/

/-- Claim C3 as stated is false: from the 32-bit state 653637408 the new
state is 2^32 - 1 and next() returns exactly 1, which is outside [0, 1). -/
theorem next_returns_one :
    653637408 < 2 ^ 32 ∧
      (SeededRandom.next { state := 653637408 }).2.state = 2 ^ 32 - 1 ∧
      (SeededRandom.next { state := 653637408 }).1 = 1 ∧
      ¬ ((SeededRandom.next { state := 653637408 }).1 < 1) := by
  have h : (SeededRandom.next { state := 653637408 }).1 = 1 := by
    simp only [SeededRandom.next, UINT32_MAX]
    norm_num
  refine ⟨by norm_num, ?_, h, ?_⟩
  · simp only [SeededRandom.next]
    norm_num
  · rw [h]
    exact lt_irrefl 1

/-- Claim C3, amended: for every state s, next() sets
state' = (1664525 × s + 1013904223) mod 2^32 and returns state' / (2^32 - 1)
(the divisor is UINT32_MAX, not 2^32), so every returned value lies in the
closed interval [0, 1]. -/
theorem next_lcg_closed_unit_interval (s : ℕ) :
    (SeededRandom.next { state := s }).2.state = (1664525 * s + 1013904223) % 2 ^ 32 ∧
    (SeededRandom.next { state := s }).1 =
      (((SeededRandom.next { state := s }).2.state : ℕ) : ℚ) / (2 ^ 32 - 1) ∧
    0 ≤ (SeededRandom.next { state := s }).1 ∧ (SeededRandom.next { state := s }).1 ≤ 1 := by
  refine ⟨next_state_eq s, next_value_eq s, ?_, ?_⟩
  · rw [next_value_eq]
    positivity
  · rw [next_value_eq, next_state_eq]
    have h : (1664525 * s + 1013904223) % 2 ^ 32 ≤ 2 ^ 32 - 1 := by omega
    have h2 : (((1664525 * s + 1013904223) % 2 ^ 32 : ℕ) : ℚ) ≤ 2 ^ 32 - 1 := by
      have := (Nat.cast_le (α := ℚ)).mpr h
      norm_num at this ⊢
      exact this
    rw [div_le_one (by norm_num)]
    exact h2

/-! ## generateSpectrumTrace: lemmas -/

theorem traceLoop_length (exp : ℚ → ℚ) (startFreq step : ℚ) (numPoints : ℤ) :
    ∀ (remaining i : ℕ) (rng : SeededRandom),
      (traceLoop exp startFreq step numPoints remaining i rng).length = remaining
  | 0, _, _ => rfl
  | remaining + 1, i, rng => by
    simp [traceLoop, traceLoop_length exp startFreq step numPoints remaining]

theorem traceLoop_frequency (exp : ℚ → ℚ) (startFreq step : ℚ) (numPoints : ℤ) :
    ∀ (remaining i : ℕ) (rng : SeededRandom),
      (traceLoop exp startFreq step numPoints remaining i rng).map (fun p => p.frequency) =
        (List.range' i remaining).map
          (fun k : ℕ => (startFreq + step * (k : ℚ)) * 1000000000)
  | 0, _, _ => rfl
  | remaining + 1, i, rng => by
    simp [traceLoop, tracePoint, List.range'_succ,
      traceLoop_frequency exp startFreq step numPoints remaining]

/-! ## computeBounds: lemmas -/

theorem extMin_fin (a x : ℚ) : Ext.min (Ext.fin a) (Ext.fin x) = Ext.fin (min a x) := by
  unfold Ext.min Ext.lt
  by_cases h : x < a
  · simp [h, min_eq_right (le_of_lt h)]
  · simp [h, min_eq_left (not_lt.mp h)]

theorem extMax_fin (a x : ℚ) : Ext.max (Ext.fin a) (Ext.fin x) = Ext.fin (max a x) := by
  unfold Ext.max Ext.lt
  by_cases h : a < x
  · simp [h, max_eq_right (le_of_lt h)]
  · simp [h, max_eq_left (not_lt.mp h)]

theorem boundsStep_fin (a b c d : ℚ) (p : SpectrumPoint) :
    boundsStep ⟨Ext.fin a, Ext.fin b, Ext.fin c, Ext.fin d⟩ p =
      ⟨Ext.fin (min a p.frequency), Ext.fin (max b p.frequency),
        Ext.fin (min c p.amplitude), Ext.fin (max d p.amplitude)⟩ := by
  simp [boundsStep, extMin_fin, extMax_fin]

theorem boundsStep_seed (p : SpectrumPoint) :
    boundsStep ⟨Ext.posInf, Ext.negInf, Ext.posInf, Ext.negInf⟩ p =
      ⟨Ext.fin p.frequency, Ext.fin p.frequency, Ext.fin p.amplitude, Ext.fin p.amplitude⟩ := by
  simp [boundsStep, Ext.min, Ext.max, Ext.lt]

/-- The loop of computeBounds from a finite state: the state stays finite, each
bound moves outwards only, encloses every point seen, and is the initial
value or the value of a point seen. -/
theorem foldl_boundsStep_fin (l : List SpectrumPoint) :
    ∀ a b c d : ℚ, ∃ a1 b1 c1 d1 : ℚ,
      l.foldl boundsStep ⟨Ext.fin a, Ext.fin b, Ext.fin c, Ext.fin d⟩ =
        ⟨Ext.fin a1, Ext.fin b1, Ext.fin c1, Ext.fin d1⟩ ∧
      (a1 ≤ a ∧ b ≤ b1 ∧ c1 ≤ c ∧ d ≤ d1) ∧
      (∀ p ∈ l, a1 ≤ p.frequency ∧ p.frequency ≤ b1 ∧ c1 ≤ p.amplitude ∧ p.amplitude ≤ d1) ∧
      (a1 = a ∨ ∃ p ∈ l, p.frequency = a1) ∧ (b1 = b ∨ ∃ p ∈ l, p.frequency = b1) ∧
      (c1 = c ∨ ∃ p ∈ l, p.amplitude = c1) ∧ (d1 = d ∨ ∃ p ∈ l, p.amplitude = d1) := by
  induction l with
  | nil =>
    intro a b c d
    exact ⟨a, b, c, d, rfl, ⟨le_refl _, le_refl _, le_refl _, le_refl _⟩,
      fun p hp => absurd hp (List.not_mem_nil p), Or.inl rfl, Or.inl rfl, Or.inl rfl, Or.inl rfl⟩
  | cons q l ih =>
    intro a b c d
    obtain ⟨a1, b1, c1, d1, heq, ⟨ha, hb, hc, hd⟩, hall, ea, eb, ec, ed⟩ :=
      ih (min a q.frequency) (max b q.frequency) (min c q.amplitude) (max d q.amplitude)
    refine ⟨a1, b1, c1, d1, ?_, ⟨?_, ?_, ?_, ?_⟩, ?_, ?_, ?_, ?_, ?_⟩
    · rw [List.foldl_cons, boundsStep_fin, heq]
    · exact le_trans ha (min_le_left _ _)
    · exact le_trans (le_max_left _ _) hb
    · exact le_trans hc (min_le_left _ _)
    · exact le_trans (le_max_left _ _) hd
    · intro p hp
      rcases List.mem_cons.mp hp with rfl | hp
      · exact ⟨le_trans ha (min_le_right _ _), le_trans (le_max_right _ _) hb,
          le_trans hc (min_le_right _ _), le_trans (le_max_right _ _) hd⟩
      · exact hall p hp
    · rcases ea with h | ⟨p, hp, h⟩
      · rcases min_choice a q.frequency with h2 | h2
        · exact Or.inl (h.trans h2)
        · exact Or.inr ⟨q, List.mem_cons_self _ _, (h.trans h2).symm⟩
      · exact Or.inr ⟨p, List.mem_cons_of_mem _ hp, h⟩
    · rcases eb with h | ⟨p, hp, h⟩
      · rcases max_choice b q.frequency with h2 | h2
        · exact Or.inl (h.trans h2)
        · exact Or.inr ⟨q, List.mem_cons_self _ _, (h.trans h2).symm⟩
      · exact Or.inr ⟨p, List.mem_cons_of_mem _ hp, h⟩
    · rcases ec with h | ⟨p, hp, h⟩
      · rcases min_choice c q.amplitude with h2 | h2
        · exact Or.inl (h.trans h2)
        · exact Or.inr ⟨q, List.mem_cons_self _ _, (h.trans h2).symm⟩
      · exact Or.inr ⟨p, List.mem_cons_of_mem _ hp, h⟩
    · rcases ed with h | ⟨p, hp, h⟩
      · rcases max_choice d q.amplitude with h2 | h2
        · exact Or.inl (h.trans h2)
        · exact Or.inr ⟨q, List.mem_cons_self _ _, (h.trans h2).symm⟩
      · exact Or.inr ⟨p, List.mem_cons_of_mem _ hp, h⟩

/-- On a non-empty input computeBounds returns the four values that the loop
reaches from the first point. -/
theorem computeBounds_cons (q : SpectrumPoint) (l : List SpectrumPoint) :
    ∃ a1 b1 c1 d1 : ℚ, computeBounds (q :: l) = ⟨a1, b1, c1, d1⟩ ∧
      (a1 ≤ q.frequency ∧ q.frequency ≤ b1 ∧ c1 ≤ q.amplitude ∧ q.amplitude ≤ d1) ∧
      (∀ p ∈ l, a1 ≤ p.frequency ∧ p.frequency ≤ b1 ∧ c1 ≤ p.amplitude ∧ p.amplitude ≤ d1) ∧
      (a1 = q.frequency ∨ ∃ p ∈ l, p.frequency = a1) ∧
      (b1 = q.frequency ∨ ∃ p ∈ l, p.frequency = b1) ∧
      (c1 = q.amplitude ∨ ∃ p ∈ l, p.amplitude = c1) ∧
      (d1 = q.amplitude ∨ ∃ p ∈ l, p.amplitude = d1) := by
  obtain ⟨a1, b1, c1, d1, heq, hle, hall, ea, eb, ec, ed⟩ :=
    foldl_boundsStep_fin l q.frequency q.frequency q.amplitude q.amplitude
  refine ⟨a1, b1, c1, d1, ?_, hle, hall, ea, eb, ec, ed⟩
  simp [computeBounds, boundsStep_seed, heq, Ext.isFinite, Ext.val]

/-! ## Claim C8 -/

/-- Claim C8: for every non-empty sample sequence computeBounds returns the
true extrema: every sample has freqMin ≤ frequency ≤ freqMax and
ampMin ≤ amplitude ≤ ampMax, and each of the four bounds is the value of
some sample. -/
theorem computeBounds_true_extrema (points : List SpectrumPoint) (h : points ≠ []) :
    (∀ p ∈ points,
      (computeBounds points).freqMin ≤ p.frequency ∧
      p.frequency ≤ (computeBounds points).freqMax ∧
      (computeBounds points).ampMin ≤ p.amplitude ∧
      p.amplitude ≤ (computeBounds points).ampMax) ∧
    (∃ p ∈ points, p.frequency = (computeBounds points).freqMin) ∧
    (∃ p ∈ points, p.frequency = (computeBounds points).freqMax) ∧
    (∃ p ∈ points, p.amplitude = (computeBounds points).ampMin) ∧
    (∃ p ∈ points, p.amplitude = (computeBounds points).ampMax) := by
  cases points with
  | nil => exact absurd rfl h
  | cons q l =>
    obtain ⟨a1, b1, c1, d1, heq, hq, hall, ea, eb, ec, ed⟩ := computeBounds_cons q l
    rw [heq]
    refine ⟨?_, ?_, ?_, ?_, ?_⟩
    · intro p hp
      rcases List.mem_cons.mp hp with rfl | hp
      · exact hq
      · exact hall p hp
    · rcases ea with h1 | ⟨p, hp, h1⟩
      · exact ⟨q, List.mem_cons_self _ _, h1.symm⟩
      · exact ⟨p, List.mem_cons_of_mem _ hp, h1⟩
    · rcases eb with h1 | ⟨p, hp, h1⟩
      · exact ⟨q, List.mem_cons_self _ _, h1.symm⟩
      · exact ⟨p, List.mem_cons_of_mem _ hp, h1⟩
    · rcases ec with h1 | ⟨p, hp, h1⟩
      · exact ⟨q, List.mem_cons_self _ _, h1.symm⟩
      · exact ⟨p, List.mem_cons_of_mem _ hp, h1⟩
    · rcases ed with h1 | ⟨p, hp, h1⟩
      · exact ⟨q, List.mem_cons_self _ _, h1.symm⟩
      · exact ⟨p, List.mem_cons_of_mem _ hp, h1⟩

/-- Claim C8 at the three-sample trace of the specification, with the bounds
it names: {1e9, 3e9, -90, -10}. -/
theorem computeBounds_true_extrema_witness :
    trace3 ≠ [] ∧
    ((∀ p ∈ trace3,
      (computeBounds trace3).freqMin ≤ p.frequency ∧
      p.frequency ≤ (computeBounds trace3).freqMax ∧
      (computeBounds trace3).ampMin ≤ p.amplitude ∧
      p.amplitude ≤ (computeBounds trace3).ampMax) ∧
    (∃ p ∈ trace3, p.frequency = (computeBounds trace3).freqMin) ∧
    (∃ p ∈ trace3, p.frequency = (computeBounds trace3).freqMax) ∧
    (∃ p ∈ trace3, p.amplitude = (computeBounds trace3).ampMin) ∧
    (∃ p ∈ trace3, p.amplitude = (computeBounds trace3).ampMax)) ∧
    computeBounds trace3 = ⟨1000000000, 3000000000, -90, -10⟩ :=
  ⟨by decide, computeBounds_true_extrema trace3 (by decide), by decide⟩

/-! ## Claims C9 and C10 -/

theorem sampleSize_pos (n : ℕ) (h : 0 < n) : 0 < sampleSize n := by
  rw [sampleSize_eq]
  omega

theorem sampleSize_le (n : ℕ) : sampleSize n ≤ n := by
  rw [sampleSize_eq]
  exact min_le_left _ _

theorem cround_half_away (x : ℚ) (h : |(cround x : ℚ) - x| = 1 / 2) : |x| < |(cround x : ℚ)| := by
  unfold cround at h ⊢
  split at h
  · rename_i hx
    rw [if_pos hx]
    have h2 := Int.lt_floor_add_one (x + 1 / 2)
    rcases abs_eq (by norm_num : (0 : ℚ) ≤ 1 / 2) |>.mp h with h3 | h3
    · rw [abs_of_nonneg hx, abs_of_nonneg (by linarith)]
      linarith
    · exfalso
      linarith
  · rename_i hx
    rw [if_neg hx]
    have hx2 : x < 0 := not_le.mp hx
    have h2 := Int.ceil_lt_add_one (x - 1 / 2)
    rcases abs_eq (by norm_num : (0 : ℚ) ≤ 1 / 2) |>.mp h with h3 | h3
    · exfalso
      linarith
    · rw [abs_of_neg hx2, abs_of_neg (by linarith)]
      linarith

theorem sum_map_add_const (c : ℚ) (l : List ℚ) :
    (l.map (fun a => a + c)).sum = l.sum + (l.length : ℚ) * c := by
  induction l with
  | nil => simp
  | cons a l ih =>
    simp only [List.map_cons, List.sum_cons, List.length_cons, ih]
    push_cast
    ring

theorem insertionSort_map_add_const (c : ℚ) (l : List ℚ) :
    (l.map (fun a => a + c)).insertionSort (fun a b => a ≤ b) =
      (l.insertionSort (fun a b => a ≤ b)).map (fun a => a + c) := by
  symm
  apply List.map_insertionSort
  intro a _ b _
  constructor <;> intro hab <;> linarith

theorem computeNoiseFloor_shift_eq (c : ℚ) (points : List SpectrumPoint) (h : points ≠ []) :
    computeNoiseFloor (shiftAmplitudes c points) =
      (cround (((((points.map (fun point => point.amplitude)).insertionSort
        (fun a b => a ≤ b)).take (sampleSize points.length)).sum
          / (sampleSize points.length : ℚ) + c) * 10) : ℚ) / 10 := by
  have hne : shiftAmplitudes c points ≠ [] := by
    unfold shiftAmplitudes
    simpa using h
  have hlen : (shiftAmplitudes c points).length = points.length := by
    simp [shiftAmplitudes]
  have hmap : (shiftAmplitudes c points).map (fun point => point.amplitude) =
      (points.map (fun point => point.amplitude)).map (fun a => a + c) := by
    simp [shiftAmplitudes, Function.comp_def]
  have hk : (sampleSize points.length : ℚ) ≠ 0 := by
    have := sampleSize_pos points.length (List.length_pos.mpr h)
    exact_mod_cast this.ne'
  have htake : (((points.map (fun point => point.amplitude)).insertionSort
      (fun a b => a ≤ b)).take (sampleSize points.length)).length = sampleSize points.length := by
    rw [List.length_take, List.length_insertionSort, List.length_map,
      min_eq_left (sampleSize_le _)]
  rw [computeNoiseFloor_eq _ hne, hlen, hmap, insertionSort_map_add_const, ← List.map_take,
    sum_map_add_const, htake]
  congr 3
  field_simp
  ring

/-! ## Claim C12 -/

/-- Claim C12: for every non-empty sample sequence and every constant c, adding
c to every amplitude shifts computeNoiseFloor by c up to the rounding step:
the new noise floor differs from the old one plus c by at most 0.1. -/
theorem computeNoiseFloor_shift (c : ℚ) (points : List SpectrumPoint) (h : points ≠ []) :
    |computeNoiseFloor (shiftAmplitudes c points) - (computeNoiseFloor points + c)| ≤ 1 / 10 := by
  rw [computeNoiseFloor_shift_eq c points h, computeNoiseFloor_eq points h]
  set m := (((points.map (fun point => point.amplitude)).insertionSort
        (fun a b => a ≤ b)).take (sampleSize points.length)).sum
          / (sampleSize points.length : ℚ) with hm
  have h1 := cround_near ((m + c) * 10)
  have h2 := cround_near (m * 10)
  rw [abs_le] at h1 h2 ⊢
  constructor <;> linarith [h1.1, h1.2, h2.1, h2.2]

/-- Claim C12 at the six-sample trace and c = 7/3. -/
theorem computeNoiseFloor_shift_witness :
    trace6 ≠ [] ∧
      |computeNoiseFloor (shiftAmplitudes (7 / 3) trace6) - (computeNoiseFloor trace6 + 7 / 3)|
        ≤ 1 / 10 :=
  ⟨by decide, computeNoiseFloor_shift (7 / 3) trace6 (by decide)⟩

/-! ## buildCoords: lemmas -/

theorem coordLoop_length (w h : ℤ) (b : Bounds) (fs as : ℚ) :
    ∀ l : List SpectrumPoint, (coordLoop w h b fs as l).length = 2 * l.length
  | [] => rfl
  | p :: l => by
    simp only [coordLoop, List.length_cons, coordLoop_length w h b fs as l]
    omega

theorem coordLoop_getElem (w h : ℤ) (b : Bounds) (fs as : ℚ) :
    ∀ (l : List SpectrumPoint) (i : ℕ) (p : SpectrumPoint), l[i]? = some p →
      (coordLoop w h b fs as l)[2 * i]? = some (((p.frequency - b.freqMin) / fs) * (w : ℚ)) ∧
      (coordLoop w h b fs as l)[2 * i + 1]? =
        some ((h : ℚ) - ((p.amplitude - b.ampMin) / as) * (h : ℚ))
  | [], i, p, hp => by simp at hp
  | q :: l, 0, p, hp => by
    simp only [List.getElem?_cons_zero, Option.some.injEq] at hp
    subst hp
    simp [coordLoop]
  | q :: l, i + 1, p, hp => by
    simp only [List.getElem?_cons_succ] at hp
    have ih := coordLoop_getElem w h b fs as l i p hp
    have e1 : 2 * (i + 1) = (2 * i + 1) + 1 := by omega
    rw [e1]
    simp only [coordLoop, List.getElem?_cons_succ]
    exact ih

/-! ## generateSpectrumTrace: further lemmas -/

theorem tracePoint_eq (exp : ℚ → ℚ) (startFreq step : ℚ) (numPoints i : ℤ) (u : ℚ) :
    tracePoint exp startFreq step numPoints i u =
      { frequency := (startFreq + step * (i : ℚ)) * 1000000000
        amplitude := noiseTerm u + signalPeakTerm exp numPoints i + spur1Term exp numPoints i
          + spur2Term exp numPoints i } := rfl

/-- The sample at position j of the loop started at index i with the
generator of index i is the loop body at index i + j, run with the value
the generator of that index returns. -/
theorem traceLoop_getElem (exp : ℚ → ℚ) (startFreq step : ℚ) (numPoints : ℤ) (seed : ℕ) :
    ∀ (remaining i j : ℕ), j < remaining →
      (traceLoop exp startFreq step numPoints remaining i (rngAt seed i))[j]? =
        some (tracePoint exp startFreq step numPoints ((i + j : ℕ) : ℤ)
          ((rngAt seed (i + j)).next).1)
  | 0, _, _, hj => absurd hj (Nat.not_lt_zero _)
  | remaining + 1, i, 0, _ => by
    simp [traceLoop]
  | remaining + 1, i, j + 1, hj => by
    have ih := traceLoop_getElem exp startFreq step numPoints seed remaining (i + 1) j
      (by omega)
    have e : i + 1 + j = i + (j + 1) := by omega
    rw [e] at ih
    simp only [traceLoop, List.getElem?_cons_succ]
    exact ih

theorem next_value_range (rng : SeededRandom) : 0 ≤ (rng.next).1 ∧ (rng.next).1 ≤ 1 := by
  cases rng with
  | mk s =>
    constructor
    · rw [next_value_eq]
      positivity
    · rw [next_value_eq, next_state_eq]
      have h : (1664525 * s + 1013904223) % 2 ^ 32 ≤ 2 ^ 32 - 1 := by omega
      have h2 : (((1664525 * s + 1013904223) % 2 ^ 32 : ℕ) : ℚ) ≤ 2 ^ 32 - 1 := by
        have := (Nat.cast_le (α := ℚ)).mpr h
        norm_num at this ⊢
        exact this
      rw [div_le_one (by norm_num)]
      exact h2

theorem generateSpectrumTrace_eq (exp : ℚ → ℚ) (c span : ℚ) (numPoints : ℤ) (seed : ℕ)
    (h : 0 ≤ numPoints) :
    generateSpectrumTrace exp c span numPoints seed =
      some (traceLoop exp (c - span / 2) (span / ((numPoints - 1 : ℤ) : ℚ)) numPoints
        numPoints.toNat 0 (rngAt seed 0)) := by
  have hneg : ¬ (numPoints < 0) := by omega
  simp only [generateSpectrumTrace, if_neg hneg, rngAt]

/-! ## Claim C15 -/

/-- Claim C15: for every centerFreqGHz, spanGHz, seed and every numPoints > 1,
generateSpectrumTrace returns exactly numPoints samples, the sample at index
i has frequency (startFreq + step × i) × 1e9 with
startFreq = centerFreqGHz - spanGHz / 2 and step = spanGHz / (numPoints - 1),
the first sample is at (centerFreqGHz - spanGHz / 2) × 1e9 and the last at
(centerFreqGHz + spanGHz / 2) × 1e9. -/
theorem generateSpectrumTrace_frequencies (exp : ℚ → ℚ) (c span : ℚ) (numPoints : ℤ)
    (seed : ℕ) (hn : 1 < numPoints) :
    ∃ out : List SpectrumPoint,
      generateSpectrumTrace exp c span numPoints seed = some out ∧
      out.length = numPoints.toNat ∧
      (∀ (i : ℕ) (p : SpectrumPoint), out[i]? = some p →
        p.frequency = (c - span / 2 + span / ((numPoints : ℚ) - 1) * (i : ℚ)) * 1000000000) ∧
      out.head?.map (fun p => p.frequency) = some ((c - span / 2) * 1000000000) ∧
      out.getLast?.map (fun p => p.frequency) = some ((c + span / 2) * 1000000000) := by
  have hlen := traceLoop_length exp (c - span / 2) (span / ((numPoints - 1 : ℤ) : ℚ)) numPoints
    numPoints.toNat 0 (rngAt seed 0)
  have hget := traceLoop_getElem exp (c - span / 2) (span / ((numPoints - 1 : ℤ) : ℚ))
    numPoints seed numPoints.toNat 0
  have hcast : ((numPoints - 1 : ℤ) : ℚ) = (numPoints : ℚ) - 1 := by push_cast; ring
  have hpos : 0 < numPoints.toNat := by omega
  refine ⟨_, generateSpectrumTrace_eq exp c span numPoints seed (by omega), hlen, ?_, ?_, ?_⟩
  · intro i p hp
    have hi : i < numPoints.toNat := by
      rw [← hlen]
      exact (List.getElem?_eq_some_iff.mp hp).1
    rw [hget i hi, Option.some.injEq] at hp
    rw [← hp, tracePoint_eq, hcast]
    simp
  · rw [List.head?_eq_getElem?, hget 0 hpos]
    simp [tracePoint_eq]
  · rw [List.getLast?_eq_getElem?, hlen, hget (numPoints.toNat - 1) (by omega)]
    simp only [tracePoint_eq, Option.map_some', Option.some.injEq, zero_add]
    have hc2 : (((numPoints.toNat - 1 : ℕ) : ℤ) : ℚ) = (numPoints : ℚ) - 1 := by
      have : ((numPoints.toNat - 1 : ℕ) : ℤ) = numPoints - 1 := by omega
      rw [this]
      push_cast
      ring
    rw [hc2, hcast]
    have hne : (numPoints : ℚ) - 1 ≠ 0 := by
      have : (1 : ℚ) < (numPoints : ℚ) := by exact_mod_cast hn
      linarith
    field_simp
    ring

/-- Claim C15 at centerFreqGHz = 2, spanGHz = 1, numPoints = 3. -/
theorem generateSpectrumTrace_frequencies_witness :
    (1 : ℤ) < 3 ∧
    ∃ out : List SpectrumPoint,
      generateSpectrumTrace expOne 2 1 3 5 = some out ∧
      out.length = (3 : ℤ).toNat ∧
      (∀ (i : ℕ) (p : SpectrumPoint), out[i]? = some p →
        p.frequency = (2 - 1 / 2 + 1 / (((3 : ℤ) : ℚ) - 1) * (i : ℚ)) * 1000000000) ∧
      out.head?.map (fun p => p.frequency) = some ((2 - 1 / 2) * 1000000000) ∧
      out.getLast?.map (fun p => p.frequency) = some ((2 + 1 / 2) * 1000000000) :=
  ⟨by decide, generateSpectrumTrace_frequencies expOne 2 1 3 5 (by decide)⟩

/-! ## Claim C16 -/

/-- Claim C16: on the empty sample sequence computeBounds returns
{freqMin 0, freqMax 1, ampMin -200, ampMax 0}, computeNoiseFloor returns -200
and nearestPoint returns {frequency 0, amplitude -200} for every target. -/
theorem empty_input_sentinels :
    computeBounds [] = { freqMin := 0, freqMax := 1, ampMin := -200, ampMax := 0 } ∧
    computeNoiseFloor [] = -200 ∧
    ∀ f : ℚ, nearestPoint [] f = { frequency := 0, amplitude := -200 } :=
  ⟨rfl, rfl, fun _ => rfl⟩

/-! ## Claim C18 -/

/-- Claim C18: for every seed and every index i of a generated trace, the
amplitude of the sample at index i is the sum of the noise term, the main
signal term and the two spur terms, and the noise term
-120 + (rng.next() × 4 - 2), with the value the generator returns at index i,
lies in the closed interval [-122, -118]. -/
theorem noise_term_in_range (exp : ℚ → ℚ) (c span : ℚ) (numPoints : ℤ) (seed i : ℕ)
    (hi : (i : ℤ) < numPoints) :
    ∃ (out : List SpectrumPoint) (p : SpectrumPoint),
      generateSpectrumTrace exp c span numPoints seed = some out ∧
      out[i]? = some p ∧
      p.amplitude = noiseTerm ((rngAt seed i).next).1 + signalPeakTerm exp numPoints i
        + spur1Term exp numPoints i + spur2Term exp numPoints i ∧
      -122 ≤ noiseTerm ((rngAt seed i).next).1 ∧ noiseTerm ((rngAt seed i).next).1 ≤ -118 := by
  have hget := traceLoop_getElem exp (c - span / 2) (span / ((numPoints - 1 : ℤ) : ℚ))
    numPoints seed numPoints.toNat 0 i (by omega)
  rw [zero_add] at hget
  have hr := next_value_range (rngAt seed i)
  refine ⟨_, _, generateSpectrumTrace_eq exp c span numPoints seed (by omega), hget, ?_, ?_, ?_⟩
  · rw [tracePoint_eq]
  · unfold noiseTerm
    linarith [hr.1]
  · unfold noiseTerm
    linarith [hr.2]

/-- Claim C18 at index 2 of a five-sample trace with seed 9. -/
theorem noise_term_in_range_witness :
    (((2 : ℕ) : ℤ) < 5) ∧
    ∃ (out : List SpectrumPoint) (p : SpectrumPoint),
      generateSpectrumTrace expOne 2 1 5 9 = some out ∧
      out[2]? = some p ∧
      p.amplitude = noiseTerm ((rngAt 9 2).next).1 + signalPeakTerm expOne 5 ((2 : ℕ) : ℤ)
        + spur1Term expOne 5 ((2 : ℕ) : ℤ) + spur2Term expOne 5 ((2 : ℕ) : ℤ) ∧
      -122 ≤ noiseTerm ((rngAt 9 2).next).1 ∧ noiseTerm ((rngAt 9 2).next).1 ≤ -118 :=
  ⟨by decide, noise_term_in_range expOne 2 1 5 9 2 (by decide)⟩

/-! ## Claim C19 -/

/-- Claim C19: the main signal term at index i is -20 × exp(-t1²) + 5 with
t1 = (i - q) / (numPoints / 10), q the integer quotient of numPoints by 2 and
numPoints / 10 an exact division; so, exp(0) being 1, for every
numPoints ≥ 1 the term at index i = q is exactly -15. -/
theorem signalPeak_at_midpoint (exp : ℚ → ℚ) (numPoints : ℤ) (hexp : exp 0 = 1)
    (hn : 1 ≤ numPoints) :
    (∀ i : ℤ, signalPeakTerm exp numPoints i =
      -20 * exp (-((((i - numPoints / 2 : ℤ) : ℚ) / ((numPoints : ℚ) / 10)) ^ 2)) + 5) ∧
    signalPeakTerm exp numPoints (numPoints / 2) = -15 := by
  have hq : Int.tdiv numPoints 2 = numPoints / 2 :=
    Int.tdiv_eq_ediv (by omega) (by decide)
  constructor
  · intro i
    unfold signalPeakTerm idxNormalized
    rw [hq]
    congr 3
    ring
  · unfold signalPeakTerm idxNormalized
    rw [hq]
    simp only [sub_self, Int.cast_zero, zero_div, neg_zero, mul_zero, hexp]
    norm_num

/-- Claim C19 at numPoints = 7, which is odd and smaller than 10. -/
theorem signalPeak_at_midpoint_witness :
    (expOne 0 = 1 ∧ (1 : ℤ) ≤ 7) ∧
    (∀ i : ℤ, signalPeakTerm expOne 7 i =
      -20 * expOne (-((((i - 7 / 2 : ℤ) : ℚ) / (((7 : ℤ) : ℚ) / 10)) ^ 2)) + 5) ∧
    signalPeakTerm expOne 7 (7 / 2) = -15 :=
  ⟨⟨rfl, by decide⟩, signalPeak_at_midpoint expOne 7 rfl (by decide)⟩

/-! ## processSpectrum: lemmas -/

theorem computeBounds_encloses (points : List SpectrumPoint) :
    ∀ p ∈ points,
      (computeBounds points).freqMin ≤ p.frequency ∧
      p.frequency ≤ (computeBounds points).freqMax ∧
      (computeBounds points).ampMin ≤ p.amplitude ∧
      p.amplitude ≤ (computeBounds points).ampMax := by
  cases points with
  | nil =>
    intro p hp
    exact absurd hp (List.not_mem_nil p)
  | cons q l =>
    obtain ⟨a1, b1, c1, d1, heq, hq, hall, _⟩ := computeBounds_cons q l
    rw [heq]
    intro p hp
    rcases List.mem_cons.mp hp with rfl | hp
    · exact hq
    · exact hall p hp

/-- A value between lo and hi, normalized by the guarded span, lies in [0, 1]. -/
theorem normalized_in_unit (lo hi v : ℚ) (h1 : lo ≤ v) (h2 : v ≤ hi) :
    0 ≤ (v - lo) / (if hi - lo ≤ 0 then 1 else hi - lo) ∧
      (v - lo) / (if hi - lo ≤ 0 then 1 else hi - lo) ≤ 1 := by
  split
  · rename_i hs
    have hv : v - lo = 0 := by linarith
    rw [hv]
    norm_num
  · rename_i hs
    have hpos : 0 < hi - lo := not_le.mp hs
    constructor
    · exact div_nonneg (by linarith) (le_of_lt hpos)
    · rw [div_le_one hpos]
      linarith

/-! ## Claim C20 -/

/-- Claim C20: for every sample sequence and every width ≥ 0 and height ≥ 0,
the coordinates that processSpectrum returns are those of buildCoords with
the bounds of computeBounds, two per sample, and the pair (x, y) of every
sample satisfies 0 ≤ x ≤ width and 0 ≤ y ≤ height, also when all frequencies
or all amplitudes are equal and the span falls back to 1. -/
theorem processSpectrum_coords_in_range (points : List SpectrumPoint) (w h : ℤ)
    (hw : 0 ≤ w) (hh : 0 ≤ h) :
    ∃ coords : List ℚ,
      (processSpectrum points (some w) (some h) true).coords = some coords ∧
      coords = buildCoords points w h (computeBounds points) ∧
      coords.length = 2 * points.length ∧
      ∀ (i : ℕ) (p : SpectrumPoint), points[i]? = some p →
        ∃ x y : ℚ, coords[2 * i]? = some x ∧ coords[2 * i + 1]? = some y ∧
          0 ≤ x ∧ x ≤ (w : ℚ) ∧ 0 ≤ y ∧ y ≤ (h : ℚ) := by
  refine ⟨buildCoords points w h (computeBounds points), rfl, rfl,
    coordLoop_length _ _ _ _ _ _, ?_⟩
  intro i p hp
  have hmem : p ∈ points := List.getElem?_mem hp
  obtain ⟨e1, e2, e3, e4⟩ := computeBounds_encloses points p hmem
  have hx := normalized_in_unit _ _ _ e1 e2
  have hy := normalized_in_unit _ _ _ e3 e4
  have hget := coordLoop_getElem w h (computeBounds points)
    (if (computeBounds points).freqMax - (computeBounds points).freqMin ≤ 0 then 1
      else (computeBounds points).freqMax - (computeBounds points).freqMin)
    (if (computeBounds points).ampMax - (computeBounds points).ampMin ≤ 0 then 1
      else (computeBounds points).ampMax - (computeBounds points).ampMin) points i p hp
  have hw2 : (0 : ℚ) ≤ (w : ℚ) := by exact_mod_cast hw
  have hh2 : (0 : ℚ) ≤ (h : ℚ) := by exact_mod_cast hh
  refine ⟨_, _, hget.1, hget.2, ?_, ?_, ?_, ?_⟩
  · exact mul_nonneg hx.1 hw2
  · exact mul_le_of_le_one_left hw2 hx.2
  · have := mul_le_of_le_one_left hh2 hy.2
    linarith
  · have := mul_nonneg hy.1 hh2
    linarith

/-- Claim C20 at the three-sample trace, width 800 and height 600. -/
theorem processSpectrum_coords_in_range_witness :
    ((0 : ℤ) ≤ 800 ∧ (0 : ℤ) ≤ 600) ∧
    ∃ coords : List ℚ,
      (processSpectrum trace3 (some 800) (some 600) true).coords = some coords ∧
      coords = buildCoords trace3 800 600 (computeBounds trace3) ∧
      coords.length = 2 * trace3.length ∧
      ∀ (i : ℕ) (p : SpectrumPoint), trace3[i]? = some p →
        ∃ x y : ℚ, coords[2 * i]? = some x ∧ coords[2 * i + 1]? = some y ∧
          0 ≤ x ∧ x ≤ ((800 : ℤ) : ℚ) ∧ 0 ≤ y ∧ y ≤ ((600 : ℤ) : ℚ) :=
  ⟨⟨by decide, by decide⟩,
    processSpectrum_coords_in_range trace3 800 600 (by decide) (by decide)⟩

/-! # The double-precision model: lemmas and claims -/

namespace ieee

/-! ### Rounding: lemmas -/

theorem roundHalfEven_nearest (s : ℚ) (m : ℤ) :
    |(roundHalfEven s : ℚ) - s| ≤ |(m : ℚ) - s| := by
  have h1 := Int.floor_le s
  have h2 := Int.lt_floor_add_one s
  have hm : |(m : ℚ) - s| ≥ min (s - ⌊s⌋) (⌊s⌋ + 1 - s) := by
    rcases le_or_lt m ⌊s⌋ with h | h
    · have : (m : ℚ) ≤ (⌊s⌋ : ℚ) := by exact_mod_cast h
      rw [abs_of_nonpos (by linarith)]
      exact le_trans (min_le_left _ _) (by linarith)
    · have : (⌊s⌋ : ℚ) + 1 ≤ (m : ℚ) := by exact_mod_cast h
      rw [abs_of_nonneg (by linarith)]
      exact le_trans (min_le_right _ _) (by linarith)
  unfold roundHalfEven
  split_ifs with c1 c2 c3
  · rw [abs_of_nonpos (by linarith)]
    have : min (s - ⌊s⌋) (⌊s⌋ + 1 - s) = s - ⌊s⌋ := min_eq_left (by linarith)
    linarith
  · push_cast
    rw [abs_of_nonneg (by linarith)]
    have : min (s - ⌊s⌋) (⌊s⌋ + 1 - s) = ⌊s⌋ + 1 - s := min_eq_right (by linarith)
    linarith
  · rw [abs_of_nonpos (by linarith)]
    have : min (s - ⌊s⌋) (⌊s⌋ + 1 - s) = s - ⌊s⌋ := min_eq_left (by linarith)
    linarith
  · push_cast
    rw [abs_of_nonneg (by linarith)]
    have : min (s - ⌊s⌋) (⌊s⌋ + 1 - s) = ⌊s⌋ + 1 - s := min_eq_right (by linarith)
    linarith

theorem roundHalfEven_intCast (z : ℤ) : roundHalfEven (z : ℚ) = z := by
  have h := roundHalfEven_nearest (z : ℚ) z
  rw [sub_self, abs_zero] at h
  have h0 : (roundHalfEven (z : ℚ) : ℚ) - z = 0 := abs_eq_zero.mp (le_antisymm h (abs_nonneg _))
  have : (roundHalfEven (z : ℚ) : ℚ) = (z : ℚ) := by linarith
  exact_mod_cast this

/-- Scaling by a power of two: the rounded multiple of 2 ^ k is at least as
near to q as every other multiple of 2 ^ k. -/
theorem scaled_nearest (q : ℚ) (k : ℤ) (m : ℤ) :
    |(roundHalfEven (q / 2 ^ k) : ℚ) * 2 ^ k - q| ≤ |(m : ℚ) * 2 ^ k - q| := by
  have hP : (0 : ℚ) < 2 ^ k := zpow_pos (by norm_num) k
  have e1 : (roundHalfEven (q / 2 ^ k) : ℚ) * 2 ^ k - q =
      ((roundHalfEven (q / 2 ^ k) : ℚ) - q / 2 ^ k) * 2 ^ k := by
    field_simp
  have e2 : (m : ℚ) * 2 ^ k - q = ((m : ℚ) - q / 2 ^ k) * 2 ^ k := by
    field_simp
  rw [e1, e2, abs_mul, abs_mul]
  exact mul_le_mul_of_nonneg_right (roundHalfEven_nearest _ m) (abs_nonneg _)

theorem two_zpow_pos (k : ℤ) : (0 : ℚ) < 2 ^ k := zpow_pos (by norm_num) k

theorem two_zpow_le_abs (q : ℚ) (hq : q ≠ 0) : (2 : ℚ) ^ Int.log 2 |q| ≤ |q| := by
  have h := Int.zpow_log_le_self (b := 2) (r := |q|) (by norm_num) (abs_pos.mpr hq)
  simpa using h

theorem abs_lt_two_zpow (q : ℚ) : |q| < (2 : ℚ) ^ (Int.log 2 |q| + 1) := by
  have h := Int.lt_zpow_succ_log_self (b := 2) (by norm_num) |q|
  simpa using h

/-- A multiple of 2 ^ j with j ≥ k is a multiple of 2 ^ k. -/
theorem multiple_of_coarser (n j k : ℤ) (h : k ≤ j) :
    ∃ m : ℤ, (n : ℚ) * 2 ^ j = (m : ℚ) * 2 ^ k := by
  refine ⟨n * 2 ^ (j - k).toNat, ?_⟩
  have hj : j = k + ((j - k).toNat : ℤ) := by omega
  have h2 : (2 : ℚ) ≠ 0 := by norm_num
  conv_lhs => rw [hj, zpow_add₀ h2, zpow_natCast]
  push_cast
  ring

/-- The rounded value is at least as near to q as every number of the format. -/
theorem roundQ_nearest (prec : ℕ) (kmin : ℤ) (hp : 1 ≤ prec) (q y : ℚ)
    (hy : IsRep prec kmin y) : |roundQ prec kmin q - q| ≤ |y - q| := by
  unfold roundQ
  split_ifs with hq
  · rw [hq, sub_self, abs_zero]
    exact abs_nonneg _
  · obtain ⟨n, j, hn, hj, rfl⟩ := hy
    rcases le_or_lt (ulpExp prec kmin q) j with hkj | hkj
    · obtain ⟨m, hm⟩ := multiple_of_coarser n j (ulpExp prec kmin q) hkj
      rw [hm]
      exact scaled_nearest q _ m
    · -- the format number is below the binade of q
      have hk : ulpExp prec kmin q = Int.log 2 |q| - ((prec : ℤ) - 1) := by
        unfold ulpExp at hkj ⊢
        rcases max_cases (Int.log 2 |q| - ((prec : ℤ) - 1)) kmin with ⟨h1, _⟩ | ⟨h1, _⟩
        · exact h1
        · omega
      have h2 : (2 : ℚ) ≠ 0 := by norm_num
      have hn' : |(n : ℚ)| < 2 ^ (prec : ℤ) := by
        have : ((|n| : ℤ) : ℚ) < ((2 ^ prec : ℤ) : ℚ) := by exact_mod_cast hn
        rw [zpow_natCast]
        simpa using this
      have hylt : |(n : ℚ) * 2 ^ j| < 2 ^ Int.log 2 |q| := by
        rw [abs_mul, abs_of_pos (two_zpow_pos j)]
        have hj1 : j ≤ Int.log 2 |q| - (prec : ℤ) := by omega
        have hpow : (2 : ℚ) ^ j ≤ 2 ^ (Int.log 2 |q| - (prec : ℤ)) :=
          zpow_le_zpow_right₀ (by norm_num) hj1
        calc |(n : ℚ)| * 2 ^ j ≤ |(n : ℚ)| * 2 ^ (Int.log 2 |q| - (prec : ℤ)) :=
              mul_le_mul_of_nonneg_left hpow (abs_nonneg _)
          _ < 2 ^ (prec : ℤ) * 2 ^ (Int.log 2 |q| - (prec : ℤ)) :=
              mul_lt_mul_of_pos_right hn' (two_zpow_pos _)
          _ = 2 ^ Int.log 2 |q| := by
              rw [← zpow_add₀ h2]
              congr 1
              ring
      have hle := two_zpow_le_abs q hq
      -- the power 2 ^ e is a multiple of the unit in the last place
      have hpw : (2 : ℚ) ^ Int.log 2 |q| =
          ((2 ^ (prec - 1) : ℤ) : ℚ) * 2 ^ ulpExp prec kmin q := by
        rw [hk]
        push_cast
        rw [← zpow_natCast, ← zpow_add₀ h2]
        congr 1
        have : ((prec - 1 : ℕ) : ℤ) = (prec : ℤ) - 1 := by omega
        rw [this]
        ring
      generalize hE : (2 : ℚ) ^ Int.log 2 |q| = E at hylt hle hpw
      generalize hY : (n : ℚ) * 2 ^ j = Y at hylt
      have hy1 := abs_lt.mp hylt
      rcases lt_or_gt_of_ne hq with hneg | hpos
      · have hs := scaled_nearest q (ulpExp prec kmin q) (-(2 ^ (prec - 1)))
        have hpw2 : ((-(2 ^ (prec - 1)) : ℤ) : ℚ) * 2 ^ ulpExp prec kmin q = -E := by
          rw [hpw]
          push_cast
          ring
        rw [hpw2] at hs
        refine le_trans hs ?_
        rw [abs_of_neg hneg] at hle
        have g1 : 0 ≤ -E - q := by linarith
        have g2 : 0 ≤ Y - q := by linarith [hy1.1]
        rw [abs_of_nonneg g1, abs_of_nonneg g2]
        linarith [hy1.1]
      · have hs := scaled_nearest q (ulpExp prec kmin q) (2 ^ (prec - 1))
        rw [← hpw] at hs
        refine le_trans hs ?_
        rw [abs_of_pos hpos] at hle
        have g1 : E - q ≤ 0 := by linarith
        have g2 : Y - q ≤ 0 := by linarith [hy1.2]
        rw [abs_of_nonpos g1, abs_of_nonpos g2]
        linarith [hy1.2]

/-- A number of the format is its own rounding. -/
theorem roundQ_of_isRep (prec : ℕ) (kmin : ℤ) (hp : 1 ≤ prec) (y : ℚ)
    (hy : IsRep prec kmin y) : roundQ prec kmin y = y := by
  have h := roundQ_nearest prec kmin hp y y hy
  rw [sub_self, abs_zero] at h
  have := abs_eq_zero.mp (le_antisymm h (abs_nonneg _))
  linarith

theorem roundHalfEven_abs_le (s : ℚ) (B : ℤ) (hB : |s| ≤ (B : ℚ)) :
    |roundHalfEven s| ≤ B := by
  have h1 := roundHalfEven_nearest s B
  have h2 := roundHalfEven_nearest s (-B)
  have hs := abs_le.mp hB
  have e1 : |(B : ℚ) - s| = (B : ℚ) - s := abs_of_nonneg (by linarith)
  have e2 : |((-B : ℤ) : ℚ) - s| = -(((-B : ℤ) : ℚ) - s) :=
    abs_of_nonpos (by push_cast; linarith)
  rw [e1] at h1
  rw [e2] at h2
  push_cast at h2
  have h1' := (abs_le.mp h1).2
  have h2' := (abs_le.mp h2).1
  rw [abs_le]
  constructor
  · have : ((-B : ℤ) : ℚ) ≤ (roundHalfEven s : ℚ) := by push_cast; linarith
    exact_mod_cast this
  · have : (roundHalfEven s : ℚ) ≤ (B : ℚ) := by linarith
    exact_mod_cast this

/-- The rounded value is a number of the format. -/
theorem isRep_roundQ (prec : ℕ) (kmin : ℤ) (hp : 1 ≤ prec) (q : ℚ) :
    IsRep prec kmin (roundQ prec kmin q) := by
  unfold roundQ
  split_ifs with hq
  · exact ⟨0, kmin, by positivity, le_refl _, by simp⟩
  · have h2 : (2 : ℚ) ≠ 0 := by norm_num
    have hk1 : Int.log 2 |q| - ((prec : ℤ) - 1) ≤ ulpExp prec kmin q := le_max_left _ _
    have hk2 : kmin ≤ ulpExp prec kmin q := le_max_right _ _
    have hs : |q / 2 ^ ulpExp prec kmin q| ≤ ((2 ^ prec : ℤ) : ℚ) := by
      rw [abs_div, abs_of_pos (two_zpow_pos _), div_le_iff₀ (two_zpow_pos _)]
      push_cast
      rw [← zpow_natCast, ← zpow_add₀ h2]
      refine le_trans (le_of_lt (abs_lt_two_zpow q)) ?_
      exact zpow_le_zpow_right₀ (by norm_num) (by omega)
    have hn := roundHalfEven_abs_le _ _ hs
    rcases lt_or_eq_of_le hn with hlt | heq
    · exact ⟨_, _, hlt, hk2, rfl⟩
    · -- the significand is 2 ^ prec in magnitude: use the next exponent
      rcases abs_eq (by positivity : (0 : ℤ) ≤ 2 ^ prec) |>.mp heq with h1 | h1
      · refine ⟨2 ^ (prec - 1), ulpExp prec kmin q + 1, ?_, by omega, ?_⟩
        · rw [abs_of_nonneg (by positivity)]
          exact pow_lt_pow_right₀ (by norm_num) (by omega)
        · rw [h1, zpow_add₀ h2]
          push_cast
          have : (2 : ℚ) ^ prec = 2 ^ (prec - 1) * 2 := by
            rw [← pow_succ]
            congr 1
            omega
          rw [this]
          ring
      · refine ⟨-(2 ^ (prec - 1)), ulpExp prec kmin q + 1, ?_, by omega, ?_⟩
        · rw [abs_neg, abs_of_nonneg (by positivity)]
          exact pow_lt_pow_right₀ (by norm_num) (by omega)
        · rw [h1, zpow_add₀ h2]
          push_cast
          have : (2 : ℚ) ^ prec = 2 ^ (prec - 1) * 2 := by
            rw [← pow_succ]
            congr 1
            omega
          rw [this]
          ring

/-- Rounding never reverses an order. -/
theorem roundQ_mono (prec : ℕ) (kmin : ℤ) (hp : 1 ≤ prec) (a b : ℚ) (hab : a ≤ b) :
    roundQ prec kmin a ≤ roundQ prec kmin b := by
  by_contra hlt
  push_neg at hlt
  have h1 := roundQ_nearest prec kmin hp a _ (isRep_roundQ prec kmin hp b)
  have h2 := roundQ_nearest prec kmin hp b _ (isRep_roundQ prec kmin hp a)
  rw [← sq_le_sq] at h1 h2
  have hab2 : a = b := by nlinarith
  rw [hab2] at hlt
  exact lt_irrefl _ hlt

theorem roundQ_zero (prec : ℕ) (kmin : ℤ) : roundQ prec kmin 0 = 0 := by
  simp [roundQ]

/-- A multiple n × 2 ^ j is its own rounding when |n| < 2 ^ prec and kmin ≤ j. -/
theorem roundQ_multiple (prec : ℕ) (kmin : ℤ) (hp : 1 ≤ prec) (n j : ℤ)
    (hn : |n| < 2 ^ prec) (hj : kmin ≤ j) :
    roundQ prec kmin ((n : ℚ) * 2 ^ j) = (n : ℚ) * 2 ^ j :=
  roundQ_of_isRep prec kmin hp _ ⟨n, j, hn, hj, rfl⟩

/-- An integer below 2 ^ prec in magnitude is its own rounding. -/
theorem roundQ_intCast (prec : ℕ) (kmin : ℤ) (hp : 1 ≤ prec) (hk : kmin ≤ 0) (z : ℤ)
    (hz : |z| < 2 ^ prec) : roundQ prec kmin (z : ℚ) = (z : ℚ) := by
  have := roundQ_multiple prec kmin hp z 0 hz hk
  simpa using this

theorem log_two_eq (q : ℚ) (e : ℤ) (h1 : (2 : ℚ) ^ e ≤ |q|) (h2 : |q| < 2 ^ (e + 1)) :
    Int.log 2 |q| = e := by
  have hq : q ≠ 0 := by
    intro h
    rw [h, abs_zero] at h1
    exact absurd h1 (not_le.mpr (two_zpow_pos e))
  have a1 := two_zpow_le_abs q hq
  have a2 := abs_lt_two_zpow q
  have b1 : (2 : ℚ) ^ e < 2 ^ (Int.log 2 |q| + 1) := lt_of_le_of_lt h1 a2
  have b2 : (2 : ℚ) ^ Int.log 2 |q| < 2 ^ (e + 1) := lt_of_le_of_lt a1 h2
  have c1 := (zpow_lt_zpow_iff_right₀ (by norm_num : (1 : ℚ) < 2)).mp b1
  have c2 := (zpow_lt_zpow_iff_right₀ (by norm_num : (1 : ℚ) < 2)).mp b2
  omega

/-- Evaluation of a rounding from the binade of q. -/
theorem roundQ_eval (prec : ℕ) (kmin : ℤ) (q : ℚ) (e k n : ℤ)
    (h1 : (2 : ℚ) ^ e ≤ |q|) (h2 : |q| < 2 ^ (e + 1))
    (hk : max (e - ((prec : ℤ) - 1)) kmin = k)
    (hn : roundHalfEven (q / 2 ^ k) = n) :
    roundQ prec kmin q = (n : ℚ) * 2 ^ k := by
  have hq : q ≠ 0 := by
    intro h
    rw [h, abs_zero] at h1
    exact absurd h1 (not_le.mpr (two_zpow_pos e))
  have hu : ulpExp prec kmin q = k := by
    unfold ulpExp
    rw [log_two_eq q e h1 h2, hk]
  unfold roundQ
  rw [if_neg hq, hu, hn]

theorem roundHalfEven_of_near (s : ℚ) (n : ℤ) (h : |s - (n : ℚ)| < 1 / 2) :
    roundHalfEven s = n := by
  have h1 := roundHalfEven_nearest s n
  have h3 : |(roundHalfEven s : ℚ) - (n : ℚ)| < 1 := by
    have := abs_sub_le (roundHalfEven s : ℚ) s (n : ℚ)
    rw [abs_sub_comm (n : ℚ) s] at h1
    linarith
  have h4 : |roundHalfEven s - n| < 1 := by
    have : ((|roundHalfEven s - n| : ℤ) : ℚ) < ((1 : ℤ) : ℚ) := by
      push_cast
      exact h3
    exact_mod_cast this
  have := Int.abs_lt_one_iff.mp h4
  omega

theorem roundHalfEven_tie_even (n : ℤ) (hn : n % 2 = 0) :
    roundHalfEven ((n : ℚ) + 1 / 2) = n := by
  have hf : ⌊(n : ℚ) + 1 / 2⌋ = n := by
    rw [Int.floor_eq_iff]
    constructor <;> linarith
  unfold roundHalfEven
  rw [hf]
  have e : (n : ℚ) + 1 / 2 - (n : ℚ) = 1 / 2 := by ring
  rw [e]
  simp [hn]

theorem roundHalfEven_tie_odd (n : ℤ) (hn : n % 2 = 1) :
    roundHalfEven ((n : ℚ) + 1 / 2) = n + 1 := by
  have hf : ⌊(n : ℚ) + 1 / 2⌋ = n := by
    rw [Int.floor_eq_iff]
    constructor <;> linarith
  unfold roundHalfEven
  rw [hf]
  have e : (n : ℚ) + 1 / 2 - (n : ℚ) = 1 / 2 := by ring
  rw [e]
  simp [hn]

/-! ### Doubles: lemmas -/

theorem add_fin (a b : ℚ) : Fp.fin a + Fp.fin b = roundDbl (a + b) := rfl

theorem sub_fin (a b : ℚ) : Fp.fin a - Fp.fin b = roundDbl (a - b) := by
  show Fp.add (Fp.fin a) (Fp.neg (Fp.fin b)) = _
  simp only [Fp.neg, Fp.add, sub_eq_add_neg]

theorem mul_fin (a b : ℚ) : Fp.fin a * Fp.fin b = roundDbl (a * b) := rfl

theorem div_fin (a b : ℚ) (hb : b ≠ 0) : Fp.fin a / Fp.fin b = roundDbl (a / b) := by
  show Fp.div (Fp.fin a) (Fp.fin b) = _
  simp only [Fp.div, if_neg hb]

theorem roundDbl_ne_nan (q : ℚ) : roundDbl q ≠ Fp.nan := by
  unfold roundDbl
  split_ifs <;> simp

theorem roundF32_ne_nan (q : ℚ) : roundF32 q ≠ Fp.nan := by
  unfold roundF32
  split_ifs <;> simp

theorem roundDbl_of_roundQ (q : ℚ) (h1 : -2 ^ 1024 < roundQ 53 (-1074) q)
    (h2 : roundQ 53 (-1074) q < 2 ^ 1024) : roundDbl q = Fp.fin (roundQ 53 (-1074) q) := by
  unfold roundDbl
  rw [if_neg (not_le.mpr h2), if_neg (not_le.mpr h1)]

theorem roundF32_of_roundQ (q : ℚ) (h1 : -2 ^ 128 < roundQ 24 (-149) q)
    (h2 : roundQ 24 (-149) q < 2 ^ 128) : roundF32 q = Fp.fin (roundQ 24 (-149) q) := by
  unfold roundF32
  rw [if_neg (not_le.mpr h2), if_neg (not_le.mpr h1)]

/-- An integer below 2 ^ 53 in magnitude is a double. -/
theorem roundDbl_intCast (z : ℤ) (hz : |z| < 2 ^ 53) : roundDbl (z : ℚ) = Fp.fin (z : ℚ) := by
  have h := roundQ_intCast 53 (-1074) (by norm_num) (by norm_num) z hz
  have hq : |(z : ℚ)| < 2 ^ 53 := by
    have : ((|z| : ℤ) : ℚ) < ((2 ^ 53 : ℤ) : ℚ) := by exact_mod_cast hz
    simpa using this
  have hb := abs_lt.mp hq
  rw [roundDbl_of_roundQ _ (by rw [h]; linarith [hb.1]) (by rw [h]; linarith [hb.2]), h]

/-- A multiple n × 2 ^ j with |n| < 2 ^ 53, -1074 ≤ j and magnitude below
2 ^ 1024 is a double. -/
theorem roundDbl_multiple (n j : ℤ) (hn : |n| < 2 ^ 53) (hj : -1074 ≤ j)
    (hlt : |(n : ℚ) * 2 ^ j| < 2 ^ 1024) :
    roundDbl ((n : ℚ) * 2 ^ j) = Fp.fin ((n : ℚ) * 2 ^ j) := by
  have h := roundQ_multiple 53 (-1074) (by norm_num) n j hn hj
  have hb := abs_lt.mp hlt
  rw [roundDbl_of_roundQ _ (by rw [h]; linarith [hb.1]) (by rw [h]; linarith [hb.2]), h]

theorem roundDbl_natCast (n : ℕ) (hn : n < 2 ^ 53) : roundDbl (n : ℚ) = Fp.fin (n : ℚ) := by
  have := roundDbl_intCast (n : ℤ) (by rw [abs_of_nonneg (by positivity)]; exact_mod_cast hn)
  simpa using this

theorem roundDbl_zero : roundDbl 0 = Fp.fin 0 := by
  simpa using roundDbl_natCast 0 (by norm_num)

/-- An integer of magnitude at most 2 ^ 24 is a 32-bit float. -/
theorem roundF32_intCast (z : ℤ) (hz : |z| ≤ 2 ^ 24) : roundF32 (z : ℚ) = Fp.fin (z : ℚ) := by
  have h : roundQ 24 (-149) (z : ℚ) = (z : ℚ) := by
    rcases lt_or_eq_of_le hz with hlt | heq
    · exact roundQ_intCast 24 (-149) (by norm_num) (by norm_num) z hlt
    · rcases abs_eq (by norm_num : (0 : ℤ) ≤ 2 ^ 24) |>.mp heq with h1 | h1
      · have := roundQ_multiple 24 (-149) (by norm_num) (2 ^ 23) 1 (by norm_num) (by norm_num)
        rw [h1]
        norm_num at this ⊢
        exact this
      · have := roundQ_multiple 24 (-149) (by norm_num) (-(2 ^ 23)) 1 (by norm_num) (by norm_num)
        rw [h1]
        norm_num at this ⊢
        exact this
  have hq : |(z : ℚ)| ≤ 2 ^ 24 := by
    have : ((|z| : ℤ) : ℚ) ≤ ((2 ^ 24 : ℤ) : ℚ) := by exact_mod_cast hz
    simpa using this
  have hb := abs_le.mp hq
  rw [roundF32_of_roundQ _ (by rw [h]; linarith [hb.1]) (by rw [h]; linarith [hb.2]), h]

theorem roundF32_zero : roundF32 0 = Fp.fin 0 := by
  simpa using roundF32_intCast 0 (by norm_num)

/-- Evaluation of a rounding to double from the binade of q, when the scaled
value is nearer than 1/2 to the integer n. -/
theorem roundDbl_eval_near (q : ℚ) (e k n : ℤ)
    (h1 : (2 : ℚ) ^ e ≤ |q|) (h2 : |q| < 2 ^ (e + 1))
    (hk : max (e - (((53 : ℕ) : ℤ) - 1)) (-1074) = k)
    (hn : |q / 2 ^ k - (n : ℚ)| < 1 / 2)
    (hlt : |(n : ℚ) * 2 ^ k| < 2 ^ 1024) :
    roundDbl q = Fp.fin ((n : ℚ) * 2 ^ k) := by
  have h := roundQ_eval 53 (-1074) q e k n h1 h2 hk (roundHalfEven_of_near _ _ hn)
  have hb := abs_lt.mp hlt
  rw [roundDbl_of_roundQ _ (by rw [h]; linarith [hb.1]) (by rw [h]; linarith [hb.2]), h]

/-! ### Evaluating a rounding -/

theorem roundDbl_eq_of_int (q : ℚ) (z : ℤ) (hq : q = (z : ℚ)) (hz : |z| < 2 ^ 53) :
    roundDbl q = Fp.fin q := by
  rw [hq]
  exact roundDbl_intCast z hz

theorem roundDbl_eq_of_multiple (q : ℚ) (n j : ℤ) (hq : q = (n : ℚ) * 2 ^ j)
    (hn : |n| < 2 ^ 53) (hj : -1074 ≤ j) (hlt : |(n : ℚ) * 2 ^ j| < 2 ^ 1024) :
    roundDbl q = Fp.fin q := by
  rw [hq]
  exact roundDbl_multiple n j hn hj hlt

/-- Evaluation of a rounding to double at a tie whose even neighbour is
n × 2 ^ k. -/
theorem roundDbl_eval_tie_even (q : ℚ) (e k n : ℤ)
    (h1 : (2 : ℚ) ^ e ≤ |q|) (h2 : |q| < 2 ^ (e + 1))
    (hk : max (e - (((53 : ℕ) : ℤ) - 1)) (-1074) = k)
    (hs : q / 2 ^ k = (n : ℚ) + 1 / 2) (hn : n % 2 = 0)
    (hlt : |(n : ℚ) * 2 ^ k| < 2 ^ 1024) :
    roundDbl q = Fp.fin ((n : ℚ) * 2 ^ k) := by
  have h := roundQ_eval 53 (-1074) q e k n h1 h2 hk (by rw [hs]; exact roundHalfEven_tie_even n hn)
  have hb := abs_lt.mp hlt
  rw [roundDbl_of_roundQ _ (by rw [h]; linarith [hb.1]) (by rw [h]; linarith [hb.2]), h]

theorem ofNat_small (n : ℕ) (hn : n < 2 ^ 53) : Fp.ofNat n = Fp.fin (n : ℚ) :=
  roundDbl_natCast n hn

theorem round_fin (a : ℚ) : Fp.round (Fp.fin a) = Fp.fin (cround a) := rfl

/-! ### computeBounds in double arithmetic: lemmas -/

/-- One step of the loop keeps a lower and an upper accumulator ordered
whenever both are finite, whatever the sample value is (NaN and the
infinities included). -/
theorem minmax_step_ordered (lo hi x : Fp)
    (h : ∀ a b : ℚ, lo = Fp.fin a → hi = Fp.fin b → a ≤ b) :
    ∀ a b : ℚ, stdMin lo x = Fp.fin a → stdMax hi x = Fp.fin b → a ≤ b := by
  intro a b h1 h2
  cases x with
  | nan =>
    have e1 : stdMin lo Fp.nan = lo := by cases lo <;> simp [stdMin, Fp.lt]
    have e2 : stdMax hi Fp.nan = hi := by cases hi <;> simp [stdMax, Fp.lt]
    rw [e1] at h1
    rw [e2] at h2
    exact h a b h1 h2
  | posInf =>
    exfalso
    cases hi <;> simp [stdMax, Fp.lt] at h2
  | negInf =>
    exfalso
    cases lo <;> simp [stdMin, Fp.lt] at h1
  | fin v =>
    have g1 : a ≤ v := by
      cases lo with
      | fin l =>
        simp only [stdMin, Fp.lt] at h1
        split_ifs at h1 with c
        · simp only [Fp.fin.injEq] at h1
          exact le_of_eq h1.symm
        · simp only [Fp.fin.injEq] at h1
          simp only [decide_eq_true_eq, not_lt] at c
          rw [← h1]
          exact c
      | nan => simp [stdMin, Fp.lt] at h1
      | posInf =>
        simp only [stdMin, Fp.lt, if_true, Fp.fin.injEq] at h1
        exact le_of_eq h1.symm
      | negInf => simp [stdMin, Fp.lt] at h1
    have g2 : v ≤ b := by
      cases hi with
      | fin u =>
        simp only [stdMax, Fp.lt] at h2
        split_ifs at h2 with c
        · simp only [Fp.fin.injEq] at h2
          exact le_of_eq h2
        · simp only [Fp.fin.injEq] at h2
          simp only [decide_eq_true_eq, not_lt] at c
          rw [← h2]
          exact c
      | nan => simp [stdMax, Fp.lt] at h2
      | negInf =>
        simp only [stdMax, Fp.lt, if_true, Fp.fin.injEq] at h2
        exact le_of_eq h2
      | posInf => simp [stdMax, Fp.lt] at h2
    exact le_trans g1 g2

/-- The loop keeps both pairs of accumulators ordered whenever finite. -/
theorem foldl_boundsStep_ordered (l : List SpectrumPoint) :
    ∀ s : Bounds,
      (∀ a b : ℚ, s.freqMin = Fp.fin a → s.freqMax = Fp.fin b → a ≤ b) →
      (∀ a b : ℚ, s.ampMin = Fp.fin a → s.ampMax = Fp.fin b → a ≤ b) →
      (∀ a b : ℚ, (l.foldl boundsStep s).freqMin = Fp.fin a →
        (l.foldl boundsStep s).freqMax = Fp.fin b → a ≤ b) ∧
      (∀ a b : ℚ, (l.foldl boundsStep s).ampMin = Fp.fin a →
        (l.foldl boundsStep s).ampMax = Fp.fin b → a ≤ b) := by
  induction l with
  | nil =>
    intro s hf ha
    exact ⟨hf, ha⟩
  | cons p l ih =>
    intro s hf ha
    rw [List.foldl_cons]
    exact ih (boundsStep s p)
      (minmax_step_ordered s.freqMin s.freqMax p.frequency hf)
      (minmax_step_ordered s.ampMin s.ampMax p.amplitude ha)

/-- The fallbacks turn ordered-when-finite accumulators into finite ordered
bounds. -/
theorem boundsFallback_ordered (s : Bounds)
    (hf : ∀ a b : ℚ, s.freqMin = Fp.fin a → s.freqMax = Fp.fin b → a ≤ b)
    (ha : ∀ a b : ℚ, s.ampMin = Fp.fin a → s.ampMax = Fp.fin b → a ≤ b) :
    ∃ a b c d : ℚ, boundsFallback s =
        { freqMin := Fp.fin a, freqMax := Fp.fin b, ampMin := Fp.fin c, ampMax := Fp.fin d } ∧
      a ≤ b ∧ c ≤ d := by
  obtain ⟨lo, hi, lo2, hi2⟩ := s
  have F : ∃ a b : ℚ,
      (if (!lo.isFinite || !hi.isFinite) = true then Fp.fin 0 else lo) = Fp.fin a ∧
      (if (!lo.isFinite || !hi.isFinite) = true then Fp.fin 1 else hi) = Fp.fin b ∧ a ≤ b := by
    cases lo <;> cases hi <;> simp [Fp.isFinite]
    exact hf _ _ rfl rfl
  have A : ∃ c d : ℚ,
      (if (!lo2.isFinite || !hi2.isFinite) = true then Fp.fin (-200) else lo2) = Fp.fin c ∧
      (if (!lo2.isFinite || !hi2.isFinite) = true then Fp.fin 0 else hi2) = Fp.fin d ∧ c ≤ d := by
    cases lo2 <;> cases hi2 <;> simp [Fp.isFinite]
    exact ha _ _ rfl rfl
  obtain ⟨a, b, e1, e2, hab⟩ := F
  obtain ⟨c, d, e3, e4, hcd⟩ := A
  exact ⟨a, b, c, d, by simp only [boundsFallback, e1, e2, e3, e4], hab, hcd⟩

/-! ### Claim C14 -/

/-- Claim C14: for every sample sequence, empty or not, and whatever its
values are (NaN and infinite values included), the bounds returned by
computeBounds are finite and satisfy freqMin ≤ freqMax and ampMin ≤ ampMax. -/
theorem computeBounds_ordered (points : List SpectrumPoint) :
    ∃ a b c d : ℚ, computeBounds points =
        { freqMin := Fp.fin a, freqMax := Fp.fin b, ampMin := Fp.fin c, ampMax := Fp.fin d } ∧
      a ≤ b ∧ c ≤ d := by
  cases points with
  | nil =>
    exact ⟨0, 1, -200, 0, rfl, by norm_num, by norm_num⟩
  | cons q l =>
    have h := foldl_boundsStep_ordered (q :: l)
      { freqMin := Fp.posInf, freqMax := Fp.negInf, ampMin := Fp.posInf, ampMax := Fp.negInf }
      (by intro a b h1; simp at h1) (by intro a b h1; simp at h1)
    simp only [computeBounds, List.isEmpty_cons, Bool.false_eq_true, if_false]
    exact boundsFallback_ordered _ h.1 h.2

/-! ### generateSpectrumTrace in double arithmetic: lemmas -/

/-- A double divided by the double 0.0 and then multiplied by 0.0 is NaN. -/
theorem div_zero_mul_zero (x : Fp) : (x / Fp.fin 0) * Fp.fin 0 = Fp.nan := by
  show Fp.mul (Fp.div x (Fp.fin 0)) (Fp.fin 0) = Fp.nan
  cases x with
  | nan => rfl
  | posInf => simp [Fp.div, Fp.mul, Fp.infTimes]
  | negInf => simp [Fp.div, Fp.mul, Fp.infTimes]
  | fin a =>
    by_cases h0 : a = 0
    · simp [Fp.div, Fp.mul, h0]
    · by_cases hp : 0 < a
      · simp [Fp.div, Fp.mul, Fp.infTimes, h0, hp]
      · simp [Fp.div, Fp.mul, Fp.infTimes, h0, hp]

theorem add_nan (x : Fp) : x + Fp.nan = Fp.nan := by
  show Fp.add x Fp.nan = Fp.nan
  cases x <;> rfl

theorem nan_mul (x : Fp) : Fp.nan * x = Fp.nan := by
  show Fp.mul Fp.nan x = Fp.nan
  cases x <;> rfl

theorem traceLoop_length_dbl (exp : Fp → Fp) (startFreq step : Fp) (numPoints : ℤ) :
    ∀ (remaining i : ℕ) (rng : SeededRandom),
      (traceLoop exp startFreq step numPoints remaining i rng).length = remaining
  | 0, _, _ => rfl
  | remaining + 1, i, rng => by
    simp [traceLoop, traceLoop_length_dbl exp startFreq step numPoints remaining]

theorem tracePoint_frequency (exp : Fp → Fp) (startFreq step : Fp) (numPoints i : ℤ) (u : Fp) :
    (tracePoint exp startFreq step numPoints i u).frequency =
      (startFreq + step * Fp.ofInt i) * Fp.fin 1000000000 := rfl

/-- With numPoints = 1 the call returns one sample, and its frequency is NaN. -/
theorem generateSpectrumTrace_one (exp : Fp → Fp) (centerFreqGHz spanGHz : Fp) (seed : ℕ) :
    ∃ p : SpectrumPoint,
      generateSpectrumTrace exp centerFreqGHz spanGHz 1 seed = some [p] ∧
      p.frequency = Fp.nan := by
  refine ⟨tracePoint exp (centerFreqGHz - spanGHz / Fp.fin 2) (spanGHz / Fp.ofInt (1 - 1)) 1
    ((0 : ℕ) : ℤ) (next { state := seed }).1, ?_, ?_⟩
  · simp [generateSpectrumTrace, traceLoop]
  · rw [tracePoint_frequency]
    have h0 : Fp.ofInt (1 - 1) = Fp.fin 0 := by simp [Fp.ofInt]
    have h1 : Fp.ofInt ((0 : ℕ) : ℤ) = Fp.fin 0 := by simp [Fp.ofInt]
    rw [h0, h1, div_zero_mul_zero, add_nan, nan_mul]

/-! ### Claim C6 -/

/-- Claim C6 as stated is false: with numPoints = 0 the call returns the
empty trace, and with numPoints = 1 it returns a one-sample trace whose
frequency, computed with the division by numPoints - 1 = 0, is NaN; neither
is an error. -/
theorem generateSpectrumTrace_accepts_zero_and_one :
    ((0 : ℤ) ≤ 1 ∧ generateSpectrumTrace expOne (Fp.fin 1) (Fp.fin 1) 0 0 = some []) ∧
    ((1 : ℤ) ≤ 1 ∧ ∃ p : SpectrumPoint,
      generateSpectrumTrace expOne (Fp.fin 1) (Fp.fin 1) 1 0 = some [p] ∧
      p.frequency = Fp.nan) := by
  refine ⟨⟨by decide, ?_⟩, by decide, generateSpectrumTrace_one _ _ _ _⟩
  simp [generateSpectrumTrace, traceLoop]

/-- Claim C6, amended: generateSpectrumTrace does not reject numPoints ≤ 1 by
a check of its own. For every centerFreqGHz, spanGHz (NaN and infinities
included) and seed: numPoints = 0 returns the empty trace; numPoints = 1
returns a trace of one sample computed with the division by
numPoints - 1 = 0, whose frequency is NaN; only a negative numPoints ends in
an error, the length error of the storage reservation. -/
theorem generateSpectrumTrace_small_numPoints (exp : Fp → Fp) (centerFreqGHz spanGHz : Fp)
    (numPoints : ℤ) (seed : ℕ) (h : numPoints ≤ 1) :
    (numPoints < 0 ∧ generateSpectrumTrace exp centerFreqGHz spanGHz numPoints seed = none) ∨
    (numPoints = 0 ∧ generateSpectrumTrace exp centerFreqGHz spanGHz numPoints seed = some []) ∨
    (numPoints = 1 ∧ ∃ p : SpectrumPoint,
      generateSpectrumTrace exp centerFreqGHz spanGHz numPoints seed = some [p] ∧
      p.frequency = Fp.nan) := by
  rcases lt_trichotomy numPoints 0 with hneg | h0 | hpos
  · exact Or.inl ⟨hneg, by simp [generateSpectrumTrace, hneg]⟩
  · subst h0
    exact Or.inr (Or.inl ⟨rfl, by simp [generateSpectrumTrace, traceLoop]⟩)
  · have h1 : numPoints = 1 := by omega
    subst h1
    exact Or.inr (Or.inr ⟨rfl, generateSpectrumTrace_one exp centerFreqGHz spanGHz seed⟩)

/-- The amended claim C6 at numPoints = 1, centre 2.4 GHz as the double 12/5
rounds to, span 1 GHz, seed 7. -/
theorem generateSpectrumTrace_small_numPoints_witness :
    (1 : ℤ) ≤ 1 ∧
    (((1 : ℤ) < 0 ∧ generateSpectrumTrace expOne (Fp.lit (12 / 5)) (Fp.fin 1) 1 7 = none) ∨
    ((1 : ℤ) = 0 ∧ generateSpectrumTrace expOne (Fp.lit (12 / 5)) (Fp.fin 1) 1 7 = some []) ∨
    ((1 : ℤ) = 1 ∧ ∃ p : SpectrumPoint,
      generateSpectrumTrace expOne (Fp.lit (12 / 5)) (Fp.fin 1) 1 7 = some [p] ∧
      p.frequency = Fp.nan)) :=
  ⟨by decide, generateSpectrumTrace_small_numPoints expOne (Fp.lit (12 / 5)) (Fp.fin 1) 1 7
    (by decide)⟩

/-! ### buildCoords in double arithmetic: lemmas -/

theorem coordLoop_length_dbl (w h : ℤ) (b : Bounds) (fs as : Fp) :
    ∀ l : List SpectrumPoint, (coordLoop w h b fs as l).length = 2 * l.length
  | [] => rfl
  | p :: l => by
    simp only [coordLoop, List.length_cons, coordLoop_length_dbl w h b fs as l]
    omega

theorem coordLoop_getElem_dbl (w h : ℤ) (b : Bounds) (fs as : Fp) :
    ∀ (l : List SpectrumPoint) (i : ℕ) (p : SpectrumPoint), l[i]? = some p →
      (coordLoop w h b fs as l)[2 * i]? =
        some (toFloat32 (((p.frequency - b.freqMin) / fs) * Fp.ofInt w)) ∧
      (coordLoop w h b fs as l)[2 * i + 1]? =
        some (toFloat32 (Fp.ofInt h - ((p.amplitude - b.ampMin) / as) * Fp.ofInt h))
  | [], i, p, hp => by simp at hp
  | q :: l, 0, p, hp => by
    simp only [List.getElem?_cons_zero, Option.some.injEq] at hp
    subst hp
    simp [coordLoop]
  | q :: l, i + 1, p, hp => by
    simp only [List.getElem?_cons_succ] at hp
    have ih := coordLoop_getElem_dbl w h b fs as l i p hp
    have e1 : 2 * (i + 1) = (2 * i + 1) + 1 := by omega
    rw [e1]
    simp only [coordLoop, List.getElem?_cons_succ]
    exact ih

/-- The guarded span is never zero: it is 1, positive, infinite or NaN. -/
theorem guardSpan_ne_zero (s : Fp) : guardSpan s ≠ Fp.fin 0 := by
  unfold guardSpan
  cases s with
  | nan => simp [Fp.le]
  | posInf => simp [Fp.le]
  | negInf => simp [Fp.le]
  | fin q =>
    by_cases hq : q ≤ 0
    · simp [Fp.le, hq]
    · simp only [Fp.le, hq, decide_False, Bool.false_eq_true, if_false, ne_eq, Fp.fin.injEq]
      intro h0
      exact hq (le_of_eq h0)

/-- Zero divided by a guarded span that is not NaN is zero. -/
theorem zero_div_guardSpan (s : Fp) (hs : s ≠ Fp.nan) : Fp.fin 0 / guardSpan s = Fp.fin 0 := by
  show Fp.div (Fp.fin 0) (guardSpan s) = Fp.fin 0
  unfold guardSpan
  cases s with
  | nan => exact absurd rfl hs
  | posInf => simp [Fp.le, Fp.div]
  | negInf => simp [Fp.le, Fp.div, roundDbl_zero]
  | fin q =>
    by_cases hq : q ≤ 0
    · simp [Fp.le, hq, Fp.div, roundDbl_zero]
    · have hq0 : q ≠ 0 := fun h0 => hq (le_of_eq h0)
      simp [Fp.le, hq, Fp.div, hq0, roundDbl_zero]

theorem sub_fin_ne_nan (a b : ℚ) : Fp.fin a - Fp.fin b ≠ Fp.nan := by
  rw [sub_fin]
  exact roundDbl_ne_nan _

/-- A double is an integer multiple of the smallest positive double. -/
theorem isDouble_multiple (a : ℚ) (h : IsDouble a) :
    ∃ m : ℤ, a = (m : ℚ) * 2 ^ (-1074 : ℤ) := by
  have hr : roundQ 53 (-1074) a = a := by
    unfold IsDouble roundDbl at h
    split_ifs at h
    simpa using h
  obtain ⟨n, j, _, hj, hn⟩ := isRep_roundQ 53 (-1074) (by norm_num) a
  rw [hr] at hn
  obtain ⟨m, hm⟩ := multiple_of_coarser n j (-1074) hj
  exact ⟨m, by rw [hn, hm]⟩

/-- The difference of two distinct doubles does not round to zero. -/
theorem roundQ_sub_pos (a b : ℚ) (ha : IsDouble a) (hb : IsDouble b) (hab : a < b) :
    0 < roundQ 53 (-1074) (b - a) := by
  obtain ⟨m, hm⟩ := isDouble_multiple a ha
  obtain ⟨n, hn⟩ := isDouble_multiple b hb
  have hu : (0 : ℚ) < 2 ^ (-1074 : ℤ) := two_zpow_pos _
  have hmn : m < n := by
    rw [hm, hn] at hab
    have := lt_of_mul_lt_mul_right hab (le_of_lt hu)
    exact_mod_cast this
  have h1 : (2 : ℚ) ^ (-1074 : ℤ) ≤ b - a := by
    have e : b - a = ((n - m : ℤ) : ℚ) * 2 ^ (-1074 : ℤ) := by
      rw [hm, hn]
      push_cast
      ring
    rw [e]
    have : (1 : ℚ) ≤ ((n - m : ℤ) : ℚ) := by
      have : (1 : ℤ) ≤ n - m := by omega
      exact_mod_cast this
    calc (2 : ℚ) ^ (-1074 : ℤ) = 1 * 2 ^ (-1074 : ℤ) := by ring
      _ ≤ ((n - m : ℤ) : ℚ) * 2 ^ (-1074 : ℤ) := mul_le_mul_of_nonneg_right this (le_of_lt hu)
  have h2 := roundQ_mono 53 (-1074) (by norm_num) _ _ h1
  have h3 := roundQ_multiple 53 (-1074) (by norm_num) 1 (-1074) (by norm_num) (le_refl _)
  simp only [Int.cast_one, one_mul] at h3
  rw [h3] at h2
  linarith

/-- The float nearest to 2 ^ 24 + 1 is 2 ^ 24: the tie goes to the even
significand. -/
theorem roundF32_16777217 : roundF32 16777217 = Fp.fin 16777216 := by
  have h := roundQ_eval 24 (-149) 16777217 24 1 8388608 (by norm_num) (by norm_num) (by norm_num)
    (by
      have := roundHalfEven_tie_even 8388608 (by norm_num)
      norm_num at this ⊢
      exact this)
  rw [roundF32_of_roundQ _ (by rw [h]; norm_num) (by rw [h]; norm_num), h]
  norm_num

theorem sub_self_fin (a : ℚ) : Fp.fin a - Fp.fin a = Fp.fin 0 := by
  rw [sub_fin, sub_self, roundDbl_zero]

theorem zero_mul_ofInt (w : ℤ) : Fp.fin 0 * Fp.ofInt w = Fp.fin 0 := by
  show Fp.fin 0 * Fp.fin (w : ℚ) = Fp.fin 0
  rw [mul_fin, zero_mul, roundDbl_zero]

theorem ofInt_sub_zero (h : ℤ) (hh : |h| < 2 ^ 53) : Fp.ofInt h - Fp.fin 0 = Fp.ofInt h := by
  show Fp.fin (h : ℚ) - Fp.fin 0 = Fp.fin (h : ℚ)
  rw [sub_fin, sub_zero, roundDbl_intCast h hh]

theorem one_mul_ofInt (w : ℤ) (hw : |w| < 2 ^ 53) : Fp.fin 1 * Fp.ofInt w = Fp.ofInt w := by
  show Fp.fin 1 * Fp.fin (w : ℚ) = Fp.fin (w : ℚ)
  rw [mul_fin, one_mul, roundDbl_intCast w hw]

theorem ofInt_sub_self (h : ℤ) : Fp.ofInt h - Fp.ofInt h = Fp.fin 0 := sub_self_fin _

theorem toFloat32_zero : toFloat32 (Fp.fin 0) = Fp.fin 0 := roundF32_zero

theorem toFloat32_ofInt (z : ℤ) (hz : |z| ≤ 2 ^ 24) : toFloat32 (Fp.ofInt z) = Fp.fin (z : ℚ) :=
  roundF32_intCast z hz

/-- The sample at (freqMin, ampMin) of finite bounds maps to 0 and to the
float nearest to the height. -/
theorem buildCoords_min_corner_aux (fmin fmax amin amax : ℚ) (w h : ℤ) (hh : |h| < 2 ^ 53) :
    buildCoords [{ frequency := Fp.fin fmin, amplitude := Fp.fin amin }] w h
        { freqMin := Fp.fin fmin, freqMax := Fp.fin fmax,
          ampMin := Fp.fin amin, ampMax := Fp.fin amax } =
      [Fp.fin 0, toFloat32 (Fp.ofInt h)] := by
  simp only [buildCoords, coordLoop, sub_self_fin,
    zero_div_guardSpan _ (sub_fin_ne_nan _ _), zero_mul_ofInt, ofInt_sub_zero h hh,
    toFloat32_zero]

/-- The sample at (freqMax, ampMax) of strictly ordered double bounds whose
spans are finite maps to the float nearest to the width and to 0. -/
theorem buildCoords_max_corner_aux (fmin fmax amin amax : ℚ) (w h : ℤ)
    (d1 : IsDouble fmin) (d2 : IsDouble fmax) (d3 : IsDouble amin) (d4 : IsDouble amax)
    (hf : fmin < fmax) (ha : amin < amax)
    (sf : (Fp.fin fmax - Fp.fin fmin).isFinite = true)
    (sa : (Fp.fin amax - Fp.fin amin).isFinite = true)
    (hw : |w| < 2 ^ 53) (hh : |h| < 2 ^ 53) :
    buildCoords [{ frequency := Fp.fin fmax, amplitude := Fp.fin amax }] w h
        { freqMin := Fp.fin fmin, freqMax := Fp.fin fmax,
          ampMin := Fp.fin amin, ampMax := Fp.fin amax } =
      [toFloat32 (Fp.ofInt w), Fp.fin 0] := by
  have key : ∀ a b : ℚ, IsDouble a → IsDouble b → a < b →
      (Fp.fin b - Fp.fin a).isFinite = true →
      (Fp.fin b - Fp.fin a) / guardSpan (Fp.fin b - Fp.fin a) = Fp.fin 1 := by
    intro a b da db hab hfin
    have hpos := roundQ_sub_pos a b da db hab
    have hs : Fp.fin b - Fp.fin a = Fp.fin (roundQ 53 (-1074) (b - a)) := by
      rw [sub_fin] at hfin ⊢
      unfold roundDbl at hfin ⊢
      split_ifs at hfin ⊢ <;> simp_all [Fp.isFinite]
    rw [hs]
    have hg : guardSpan (Fp.fin (roundQ 53 (-1074) (b - a))) =
        Fp.fin (roundQ 53 (-1074) (b - a)) := by
      simp [guardSpan, Fp.le, not_le.mpr hpos]
    rw [hg, div_fin _ _ (ne_of_gt hpos), div_self (ne_of_gt hpos)]
    simpa using roundDbl_natCast 1 (by norm_num)
  simp only [buildCoords, coordLoop, key fmin fmax d1 d2 hf sf, key amin amax d3 d4 ha sa,
    one_mul_ofInt w hw, one_mul_ofInt h hh, ofInt_sub_self, toFloat32_zero]

theorem isDouble_natCast (n : ℕ) (hn : n < 2 ^ 53) : IsDouble (n : ℚ) := roundDbl_natCast n hn

theorem isDouble_one : IsDouble 1 := by simpa using isDouble_natCast 1 (by norm_num)

theorem isDouble_three : IsDouble 3 := by simpa using isDouble_natCast 3 (by norm_num)

theorem sub_three_one_finite : (Fp.fin 3 - Fp.fin 1).isFinite = true := by
  rw [sub_fin]
  have : roundDbl (3 - 1) = Fp.fin 2 := by
    have := roundDbl_natCast 2 (by norm_num)
    norm_num at this ⊢
    exact this
  rw [this]
  rfl

theorem toFloat32_ofInt_16777217 : toFloat32 (Fp.ofInt 16777217) = Fp.fin 16777216 := by
  show roundF32 ((16777217 : ℤ) : ℚ) = Fp.fin 16777216
  have := roundF32_16777217
  norm_num at this ⊢
  exact this

/-- The sum 2 ^ 1023 + 2 ^ 1023 overflows to +infinity. -/
theorem sub_overflow : Fp.fin (2 ^ 1023) - Fp.fin (-2 ^ 1023) = Fp.posInf := by
  rw [sub_fin]
  have e : (2 : ℚ) ^ 1023 - -2 ^ 1023 = ((1 : ℤ) : ℚ) * 2 ^ (1024 : ℤ) := by norm_num
  have h := roundQ_multiple 53 (-1074) (by norm_num) 1 1024 (by norm_num) (by norm_num)
  unfold roundDbl
  rw [e, h]
  norm_num

/-! ### Claim C13 -/

/-- Claim C13 as stated (the formulas read as exact values) is false: for the
sample (3, 3) with bounds {1, 3, 1, 3}, width 2^24 + 1 and height 600 the
formula gives x_0 = 16777217, and the code returns the 32-bit float
16777216. -/
theorem buildCoords_narrows_to_float :
    buildCoords [{ frequency := Fp.fin 3, amplitude := Fp.fin 3 }] 16777217 600
        { freqMin := Fp.fin 1, freqMax := Fp.fin 3, ampMin := Fp.fin 1, ampMax := Fp.fin 3 } =
      [Fp.fin 16777216, Fp.fin 0] ∧
    nr5g.buildCoords [{ frequency := 3, amplitude := 3 }] 16777217 600
        { freqMin := 1, freqMax := 3, ampMin := 1, ampMax := 3 } = [16777217, 0] ∧
    (16777216 : ℚ) ≠ 16777217 := by
  refine ⟨?_, ?_, by norm_num⟩
  · rw [buildCoords_max_corner_aux 1 3 1 3 16777217 600 isDouble_one isDouble_three isDouble_one
      isDouble_three (by norm_num) (by norm_num) sub_three_one_finite sub_three_one_finite
      (by norm_num) (by norm_num), toFloat32_ofInt_16777217]
  · norm_num [nr5g.buildCoords, nr5g.coordLoop]

/-- Claim C13, amended: for every sample sequence of length n, every width,
height and bounds, buildCoords returns a list of length 2 × n whose entries
2i and 2i + 1 are, for the sample at index i,
x_i = ((frequency_i - freqMin) / freqSpan) × width and
y_i = height - ((amplitude_i - ampMin) / ampSpan) × height, each evaluated in
double arithmetic and then narrowed to a 32-bit float, where
freqSpan = freqMax - freqMin and ampSpan = ampMax - ampMin are each replaced
by 1 when they compare ≤ 0; neither divisor is zero and nothing is clamped. -/
theorem buildCoords_interleaved_floats (points : List SpectrumPoint) (w h : ℤ) (b : Bounds) :
    (buildCoords points w h b).length = 2 * points.length ∧
    guardSpan (b.freqMax - b.freqMin) ≠ Fp.fin 0 ∧
    guardSpan (b.ampMax - b.ampMin) ≠ Fp.fin 0 ∧
    (∀ s : Fp, guardSpan s = if Fp.le s (Fp.fin 0) = true then Fp.fin 1 else s) ∧
    ∀ (i : ℕ) (p : SpectrumPoint), points[i]? = some p →
      (buildCoords points w h b)[2 * i]? =
        some (toFloat32 (((p.frequency - b.freqMin) / guardSpan (b.freqMax - b.freqMin))
          * Fp.ofInt w)) ∧
      (buildCoords points w h b)[2 * i + 1]? =
        some (toFloat32 (Fp.ofInt h
          - ((p.amplitude - b.ampMin) / guardSpan (b.ampMax - b.ampMin)) * Fp.ofInt h)) :=
  ⟨coordLoop_length_dbl _ _ _ _ _ _, guardSpan_ne_zero _, guardSpan_ne_zero _, fun _ => rfl,
    fun i p hp => coordLoop_getElem_dbl _ _ _ _ _ _ i p hp⟩

/-! ### Claim C5 -/

/-- Claim C5 as stated is false: with height 2^24 + 1 the sample at
(freqMin, ampMin) maps to (0, 16777216), not to (0, h); and with the bounds
{0, NaN, 0, 1}, which the binding can pass, the x coordinate of the sample
(0, 0) is NaN. -/
theorem buildCoords_min_corner_not_exact :
    buildCoords [{ frequency := Fp.fin 1, amplitude := Fp.fin 1 }] 800 16777217
        { freqMin := Fp.fin 1, freqMax := Fp.fin 3, ampMin := Fp.fin 1, ampMax := Fp.fin 3 } =
      [Fp.fin 0, Fp.fin 16777216] ∧
    (16777216 : ℚ) ≠ ((16777217 : ℤ) : ℚ) ∧
    (buildCoords [{ frequency := Fp.fin 0, amplitude := Fp.fin 0 }] 800 600
        { freqMin := Fp.fin 0, freqMax := Fp.nan, ampMin := Fp.fin 0, ampMax := Fp.fin 1 }).head? =
      some Fp.nan := by
  refine ⟨?_, by norm_num, ?_⟩
  · rw [buildCoords_min_corner_aux 1 3 1 3 800 16777217 (by norm_num), toFloat32_ofInt_16777217]
  · simp only [buildCoords, coordLoop, List.head?_cons, sub_self_fin, Option.some.injEq]
    rfl

/-- Claim C5, amended: for every finite bounds (zero-span and inverted ones
included), every width w and every int height h, buildCoords maps a sample
at (freqMin, ampMin) to the pair (0, h as a 32-bit float), which is (0, h)
whenever |h| ≤ 2^24. -/
theorem buildCoords_min_corner_finite (fmin fmax amin amax : ℚ) (w h : ℤ)
    (h1 : -2 ^ 31 ≤ h) (h2 : h < 2 ^ 31) :
    buildCoords [{ frequency := Fp.fin fmin, amplitude := Fp.fin amin }] w h
        { freqMin := Fp.fin fmin, freqMax := Fp.fin fmax,
          ampMin := Fp.fin amin, ampMax := Fp.fin amax } =
      [Fp.fin 0, toFloat32 (Fp.ofInt h)] ∧
    (|h| ≤ 2 ^ 24 → toFloat32 (Fp.ofInt h) = Fp.fin (h : ℚ)) :=
  ⟨buildCoords_min_corner_aux fmin fmax amin amax w h (by rw [abs_lt]; constructor <;> omega),
    fun hz => toFloat32_ofInt h hz⟩

/-- The amended claim C5 at zero-span bounds, width 800 and height 600: the
pair is (0, 600). -/
theorem buildCoords_min_corner_finite_witness :
    ((-2 ^ 31 : ℤ) ≤ 600 ∧ (600 : ℤ) < 2 ^ 31) ∧
    (buildCoords [{ frequency := Fp.fin 5, amplitude := Fp.fin (-10) }] 800 600
        { freqMin := Fp.fin 5, freqMax := Fp.fin 5,
          ampMin := Fp.fin (-10), ampMax := Fp.fin (-10) } =
      [Fp.fin 0, toFloat32 (Fp.ofInt 600)] ∧
    (|(600 : ℤ)| ≤ 2 ^ 24 → toFloat32 (Fp.ofInt 600) = Fp.fin ((600 : ℤ) : ℚ))) :=
  ⟨⟨by norm_num, by norm_num⟩,
    buildCoords_min_corner_finite 5 5 (-10) (-10) 800 600 (by norm_num) (by norm_num)⟩

/-! ### Claim C4 -/

/-- Claim C4 as stated is false. With the zero-span bounds {5, 5, -10, -10},
which satisfy freqMin ≤ freqMax and ampMin ≤ ampMax, the sample (5, -10) maps
to (0, 600) for width 800 and height 600, not to (800, 0). With the bounds
{-2^1023, 2^1023, 1, 3} the frequency span overflows and x is NaN. With the
bounds {1, 3, 1, 3} and width 2^24 + 1 the sample (3, 3) maps to
(16777216, 0), not to (w, 0). -/
theorem buildCoords_max_corner_fails :
    ((5 : ℚ) ≤ 5 ∧ (-10 : ℚ) ≤ -10 ∧
      buildCoords [{ frequency := Fp.fin 5, amplitude := Fp.fin (-10) }] 800 600
        { freqMin := Fp.fin 5, freqMax := Fp.fin 5,
          ampMin := Fp.fin (-10), ampMax := Fp.fin (-10) } = [Fp.fin 0, Fp.fin 600]) ∧
    ((-2 : ℚ) ^ 1023 ≤ 2 ^ 1023 ∧
      (buildCoords [{ frequency := Fp.fin (2 ^ 1023), amplitude := Fp.fin 3 }] 800 600
        { freqMin := Fp.fin (-2 ^ 1023), freqMax := Fp.fin (2 ^ 1023),
          ampMin := Fp.fin 1, ampMax := Fp.fin 3 }).head? = some Fp.nan) ∧
    (buildCoords [{ frequency := Fp.fin 3, amplitude := Fp.fin 3 }] 16777217 600
        { freqMin := Fp.fin 1, freqMax := Fp.fin 3, ampMin := Fp.fin 1, ampMax := Fp.fin 3 } =
      [Fp.fin 16777216, Fp.fin 0] ∧ (16777216 : ℚ) ≠ ((16777217 : ℤ) : ℚ)) := by
  refine ⟨⟨le_refl _, le_refl _, ?_⟩, ⟨by norm_num, ?_⟩, ?_, by norm_num⟩
  · rw [buildCoords_min_corner_aux 5 5 (-10) (-10) 800 600 (by norm_num)]
    have := toFloat32_ofInt 600 (by norm_num)
    rw [this]
    norm_num
  · simp only [buildCoords, coordLoop, List.head?_cons, sub_overflow, Option.some.injEq]
    rfl
  · rw [buildCoords_max_corner_aux 1 3 1 3 16777217 600 isDouble_one isDouble_three isDouble_one
      isDouble_three (by norm_num) (by norm_num) sub_three_one_finite sub_three_one_finite
      (by norm_num) (by norm_num), toFloat32_ofInt_16777217]

/-- Claim C4, amended: for every bounds of doubles with freqMin < freqMax and
ampMin < ampMax whose two spans are finite (they do not overflow), every int
width w and height h, buildCoords maps a sample at (freqMax, ampMax) to the
pair (w as a 32-bit float, 0), which is (w, 0) whenever |w| ≤ 2^24. -/
theorem buildCoords_max_corner_strict (fmin fmax amin amax : ℚ) (w h : ℤ)
    (d1 : IsDouble fmin) (d2 : IsDouble fmax) (d3 : IsDouble amin) (d4 : IsDouble amax)
    (hf : fmin < fmax) (ha : amin < amax)
    (sf : (Fp.fin fmax - Fp.fin fmin).isFinite = true)
    (sa : (Fp.fin amax - Fp.fin amin).isFinite = true)
    (hw : -2 ^ 31 ≤ w ∧ w < 2 ^ 31) (hh : -2 ^ 31 ≤ h ∧ h < 2 ^ 31) :
    buildCoords [{ frequency := Fp.fin fmax, amplitude := Fp.fin amax }] w h
        { freqMin := Fp.fin fmin, freqMax := Fp.fin fmax,
          ampMin := Fp.fin amin, ampMax := Fp.fin amax } =
      [toFloat32 (Fp.ofInt w), Fp.fin 0] ∧
    (|w| ≤ 2 ^ 24 → toFloat32 (Fp.ofInt w) = Fp.fin (w : ℚ)) :=
  ⟨buildCoords_max_corner_aux fmin fmax amin amax w h d1 d2 d3 d4 hf ha sf sa
      (by rw [abs_lt]; constructor <;> omega) (by rw [abs_lt]; constructor <;> omega),
    fun hz => toFloat32_ofInt w hz⟩

/-- The amended claim C4 at the bounds {1, 3, 1, 3}, width 800 and height
600. -/
theorem buildCoords_max_corner_strict_witness :
    (IsDouble 1 ∧ IsDouble 3 ∧ (1 : ℚ) < 3 ∧ (Fp.fin 3 - Fp.fin 1).isFinite = true ∧
      ((-2 ^ 31 : ℤ) ≤ 800 ∧ (800 : ℤ) < 2 ^ 31) ∧ ((-2 ^ 31 : ℤ) ≤ 600 ∧ (600 : ℤ) < 2 ^ 31)) ∧
    (buildCoords [{ frequency := Fp.fin 3, amplitude := Fp.fin 3 }] 800 600
        { freqMin := Fp.fin 1, freqMax := Fp.fin 3, ampMin := Fp.fin 1, ampMax := Fp.fin 3 } =
      [toFloat32 (Fp.ofInt 800), Fp.fin 0] ∧
    (|(800 : ℤ)| ≤ 2 ^ 24 → toFloat32 (Fp.ofInt 800) = Fp.fin ((800 : ℤ) : ℚ))) :=
  ⟨⟨isDouble_one, isDouble_three, by norm_num, sub_three_one_finite,
      ⟨by norm_num, by norm_num⟩, ⟨by norm_num, by norm_num⟩⟩,
    buildCoords_max_corner_strict 1 3 1 3 800 600 isDouble_one isDouble_three isDouble_one
      isDouble_three (by norm_num) (by norm_num) sub_three_one_finite sub_three_one_finite
      ⟨by norm_num, by norm_num⟩ ⟨by norm_num, by norm_num⟩⟩

/-! ### nearestPoint in double arithmetic: lemmas -/

theorem Fp.lt_trans_dbl (a b c : Fp) (h1 : Fp.lt a b = true) (h2 : Fp.lt b c = true) :
    Fp.lt a c = true := by
  cases a <;> cases b <;> cases c <;> simp [Fp.lt] at h1 h2 ⊢
  exact lt_trans h1 h2

/-- From a < b and not (c < b), with c not NaN, follows a < c. -/
theorem Fp.lt_of_lt_of_not_lt (a b c : Fp) (hc : c ≠ Fp.nan) (h1 : Fp.lt a b = true)
    (h2 : Fp.lt c b = false) : Fp.lt a c = true := by
  cases a <;> cases b <;> cases c <;> simp [Fp.lt] at h1 h2 hc ⊢
  exact lt_of_lt_of_le h1 h2

/-- The distance of a finite sample to a finite target is not NaN. -/
theorem distanceTo_ne_nan (t : ℚ) (p : nr5g.SpectrumPoint) :
    distanceTo (Fp.fin t) (ofExact p) ≠ Fp.nan := by
  unfold distanceTo ofExact
  simp only [sub_fin]
  unfold roundDbl
  split_ifs <;> simp [Fp.abs]

/-- The scan keeps this invariant: the computed distance of the nearest point
so far is strictly below that of every point before it, and no point visited
after it has a strictly smaller computed distance. -/
theorem nearestLoop_split_dbl (f : Fp) (rest : List SpectrumPoint) :
    ∀ (pre : List SpectrumPoint) (cur : SpectrumPoint) (mid : List SpectrumPoint),
      (∀ p ∈ pre ++ cur :: (mid ++ rest), distanceTo f p ≠ Fp.nan) →
      (∀ p ∈ pre, Fp.lt (distanceTo f cur) (distanceTo f p) = true) →
      (∀ p ∈ mid, Fp.lt (distanceTo f p) (distanceTo f cur) = false) →
      ∃ before after : List SpectrumPoint,
        pre ++ cur :: (mid ++ rest) =
          before ++ nearestLoop f cur (distanceTo f cur) rest :: after ∧
        (∀ p ∈ before,
          Fp.lt (distanceTo f (nearestLoop f cur (distanceTo f cur) rest)) (distanceTo f p)
            = true) ∧
        (∀ p ∈ after,
          Fp.lt (distanceTo f p) (distanceTo f (nearestLoop f cur (distanceTo f cur) rest))
            = false) := by
  induction rest with
  | nil =>
    intro pre cur mid _ hpre hmid
    exact ⟨pre, mid, by simp [nearestLoop], by simpa [nearestLoop] using hpre,
      by simpa [nearestLoop] using hmid⟩
  | cons q rest ih =>
    intro pre cur mid hnan hpre hmid
    by_cases hq : Fp.lt (distanceTo f q) (distanceTo f cur) = true
    · have hstep : nearestLoop f cur (distanceTo f cur) (q :: rest) =
          nearestLoop f q (distanceTo f q) rest := by
        simp [nearestLoop, hq]
      rw [hstep]
      obtain ⟨before, after, heq, hb, ha⟩ := ih (pre ++ cur :: mid) q []
        (by
          intro p hp
          apply hnan p
          simpa using hp)
        (by
          intro p hp
          rcases List.mem_append.mp hp with h1 | h1
          · exact Fp.lt_trans_dbl _ _ _ hq (hpre p h1)
          · rcases List.mem_cons.mp h1 with rfl | h2
            · exact hq
            · exact Fp.lt_of_lt_of_not_lt _ _ _
                (hnan p (by simp [h2])) hq (hmid p h2))
        (by simp)
      refine ⟨before, after, ?_, hb, ha⟩
      rw [← heq]
      simp
    · have hq2 : Fp.lt (distanceTo f q) (distanceTo f cur) = false := by
        simpa using hq
      have hstep : nearestLoop f cur (distanceTo f cur) (q :: rest) =
          nearestLoop f cur (distanceTo f cur) rest := by
        simp [nearestLoop, hq2]
      rw [hstep]
      obtain ⟨before, after, heq, hb, ha⟩ := ih pre cur (mid ++ [q])
        (by
          intro p hp
          apply hnan p
          simpa using hp)
        hpre
        (by
          intro p hp
          rcases List.mem_append.mp hp with h1 | h1
          · exact hmid p h1
          · rw [List.mem_singleton] at h1
            subst h1
            exact hq2)
      refine ⟨before, after, ?_, hb, ha⟩
      rw [← heq]
      simp

theorem Fp.lt_irrefl_dbl (a : Fp) : Fp.lt a a = false := by
  cases a <;> simp [Fp.lt]

/-- The double nearest to 1 - 2^59 is -2^59. -/
theorem roundDbl_one_sub_two_pow_59 : roundDbl (1 - 2 ^ 59) = Fp.fin (-2 ^ 59) := by
  have h := roundQ_eval 53 (-1074) (1 - 2 ^ 59) 58 6 (-2 ^ 53)
    (by norm_num [abs_of_neg]) (by norm_num [abs_of_neg]) (by norm_num)
    (roundHalfEven_of_near _ _ (by norm_num [abs_of_pos]))
  rw [roundDbl_of_roundQ _ (by rw [h]; norm_num) (by rw [h]; norm_num), h]
  norm_num

/-- The nearest point of the three-sample trace to the target 2.4e9 in double
arithmetic: the distances 1.4e9, 0.4e9 and 0.6e9 are exact. -/
theorem nearestPoint_trace3_dbl :
    nearestPoint (trace3.map ofExact) (Fp.fin 2400000000) =
      { frequency := Fp.fin 2000000000, amplitude := Fp.fin (-10) } := by
  have d0 : distanceTo (Fp.fin 2400000000)
      { frequency := Fp.fin 1000000000, amplitude := Fp.fin (-80) } = Fp.fin 1400000000 := by
    unfold distanceTo
    simp only [sub_fin]
    rw [roundDbl_eq_of_int _ (-1400000000) (by norm_num) (by norm_num)]
    norm_num [Fp.abs, abs_of_neg]
  have d1 : distanceTo (Fp.fin 2400000000)
      { frequency := Fp.fin 2000000000, amplitude := Fp.fin (-10) } = Fp.fin 400000000 := by
    unfold distanceTo
    simp only [sub_fin]
    rw [roundDbl_eq_of_int _ (-400000000) (by norm_num) (by norm_num)]
    norm_num [Fp.abs, abs_of_neg]
  have d2 : distanceTo (Fp.fin 2400000000)
      { frequency := Fp.fin 3000000000, amplitude := Fp.fin (-90) } = Fp.fin 600000000 := by
    unfold distanceTo
    simp only [sub_fin]
    rw [roundDbl_eq_of_int _ 600000000 (by norm_num) (by norm_num)]
    norm_num [Fp.abs, abs_of_pos]
  simp only [trace3, List.map, ofExact, nearestPoint, nearestLoop, d0, d1, d2]
  norm_num [Fp.lt]

/-! ### Claim C11 -/

/-- Claim C11 as stated is false: for the samples at 2^60 and at 1 and the
target 2^59, the sample at 1 is strictly closer (2^59 - 1 against 2^59), yet
nearestPoint returns the sample at 2^60: both computed distances are the
double 2^59, and the tie keeps the earlier sample. -/
theorem nearestPoint_rounded_tie :
    farPair ≠ [] ∧
    nearestPoint (farPair.map ofExact) (Fp.fin (2 ^ 59)) =
      { frequency := Fp.fin (2 ^ 60), amplitude := Fp.fin 0 } ∧
    |(1 : ℚ) - 2 ^ 59| < |(2 : ℚ) ^ 60 - 2 ^ 59| := by
  refine ⟨by decide, ?_, by norm_num [abs_of_neg, abs_of_pos]⟩
  have d0 : distanceTo (Fp.fin (2 ^ 59)) { frequency := Fp.fin (2 ^ 60), amplitude := Fp.fin 0 }
      = Fp.fin (2 ^ 59) := by
    unfold distanceTo
    simp only [sub_fin]
    have : roundDbl (2 ^ 60 - 2 ^ 59) = Fp.fin (2 ^ 59) := by
      have := roundDbl_multiple 1 59 (by norm_num) (by norm_num) (by norm_num [abs_of_pos])
      norm_num at this ⊢
      exact this
    rw [this]
    simp [Fp.abs]
  have d1 : distanceTo (Fp.fin (2 ^ 59)) { frequency := Fp.fin 1, amplitude := Fp.fin 1 }
      = Fp.fin (2 ^ 59) := by
    unfold distanceTo
    simp only [sub_fin, roundDbl_one_sub_two_pow_59]
    simp [Fp.abs]
  simp only [farPair, List.map, ofExact, nearestPoint, nearestLoop, d0, d1, Fp.lt_irrefl_dbl]
  simp

/-- Claim C11, amended: for every non-empty sequence of finite samples and
every finite target frequency, nearestPoint returns the input sample at the
smallest index at which the computed distance, |frequency - target|
evaluated in double arithmetic, is minimal: every sample before it has a
strictly larger computed distance, and no sample has a strictly smaller
one. -/
theorem nearestPoint_first_of_least_computed_distance (points : List nr5g.SpectrumPoint)
    (target : ℚ) (h : points ≠ []) :
    ∃ before after : List SpectrumPoint,
      points.map ofExact =
        before ++ nearestPoint (points.map ofExact) (Fp.fin target) :: after ∧
      (∀ p ∈ before,
        Fp.lt (distanceTo (Fp.fin target) (nearestPoint (points.map ofExact) (Fp.fin target)))
          (distanceTo (Fp.fin target) p) = true) ∧
      (∀ p ∈ points.map ofExact,
        Fp.lt (distanceTo (Fp.fin target) p)
          (distanceTo (Fp.fin target) (nearestPoint (points.map ofExact) (Fp.fin target)))
          = false) := by
  cases points with
  | nil => exact absurd rfl h
  | cons first rest =>
    have hnan : ∀ p ∈ (first :: rest).map ofExact, distanceTo (Fp.fin target) p ≠ Fp.nan := by
      intro p hp
      obtain ⟨p0, _, rfl⟩ := List.mem_map.mp hp
      exact distanceTo_ne_nan target p0
    obtain ⟨before, after, heq, hb, ha⟩ :=
      nearestLoop_split_dbl (Fp.fin target) (rest.map ofExact) [] (ofExact first) []
        (by simpa using hnan) (by simp) (by simp)
    have heq2 : (first :: rest).map ofExact =
        before ++ nearestPoint ((first :: rest).map ofExact) (Fp.fin target) :: after := by
      simpa [nearestPoint] using heq
    refine ⟨before, after, heq2, ?_, ?_⟩
    · simpa [nearestPoint] using hb
    · intro p hp
      rw [heq2] at hp
      rcases List.mem_append.mp hp with h1 | h1
      · have h2 : Fp.lt
            (distanceTo (Fp.fin target)
              (nearestPoint ((first :: rest).map ofExact) (Fp.fin target)))
            (distanceTo (Fp.fin target) p) = true := by
          simpa [nearestPoint] using hb p h1
        generalize distanceTo (Fp.fin target)
          (nearestPoint ((first :: rest).map ofExact) (Fp.fin target)) = x at h2 ⊢
        generalize distanceTo (Fp.fin target) p = y at h2 ⊢
        cases x <;> cases y <;> simp [Fp.lt] at h2 ⊢
        exact le_of_lt h2
      · rcases List.mem_cons.mp h1 with h2 | h2
        · rw [h2]
          exact Fp.lt_irrefl_dbl _
        · simpa [nearestPoint] using ha p h2

/-- The amended claim C11 at the three-sample trace and the target 2.4e9,
where the result is the sample {2e9, -10} of the specification example. -/
theorem nearestPoint_first_of_least_computed_distance_witness :
    trace3 ≠ [] ∧
    (∃ before after : List SpectrumPoint,
      trace3.map ofExact =
        before ++ nearestPoint (trace3.map ofExact) (Fp.fin 2400000000) :: after ∧
      (∀ p ∈ before,
        Fp.lt (distanceTo (Fp.fin 2400000000)
            (nearestPoint (trace3.map ofExact) (Fp.fin 2400000000)))
          (distanceTo (Fp.fin 2400000000) p) = true) ∧
      (∀ p ∈ trace3.map ofExact,
        Fp.lt (distanceTo (Fp.fin 2400000000) p)
          (distanceTo (Fp.fin 2400000000)
            (nearestPoint (trace3.map ofExact) (Fp.fin 2400000000)))
          = false)) ∧
    nearestPoint (trace3.map ofExact) (Fp.fin 2400000000) =
      { frequency := Fp.fin 2000000000, amplitude := Fp.fin (-10) } :=
  ⟨by decide, nearestPoint_first_of_least_computed_distance trace3 2400000000 (by decide),
    nearestPoint_trace3_dbl⟩

/-! ### Monotonicity of double arithmetic -/

/-- Rounding to double keeps the order. -/
theorem roundDbl_le (a b : ℚ) (hab : a ≤ b) : Fp.le (roundDbl a) (roundDbl b) = true := by
  have h := roundQ_mono 53 (-1074) (by norm_num) a b hab
  unfold roundDbl
  split_ifs <;> simp [Fp.le] <;> linarith

/-- Adding a finite double on the left keeps the order of doubles that are
not NaN. -/
theorem add_le_add_left_dbl (s : ℚ) (x y : Fp) (h : Fp.le x y = true) :
    Fp.le (Fp.fin s + x) (Fp.fin s + y) = true := by
  cases x <;> cases y <;> simp [Fp.le] at h
  · show Fp.le Fp.negInf Fp.negInf = true
    rfl
  · show Fp.le Fp.negInf Fp.posInf = true
    rfl
  · show Fp.le Fp.negInf (roundDbl _) = true
    unfold roundDbl
    split_ifs <;> rfl
  · show Fp.le Fp.posInf Fp.posInf = true
    rfl
  · show Fp.le (roundDbl _) Fp.posInf = true
    unfold roundDbl
    split_ifs <;> rfl
  · rw [add_fin, add_fin]
    exact roundDbl_le _ _ (by linarith)

/-- Multiplying by a positive finite double on the right keeps the order of
doubles that are not NaN. -/
theorem mul_le_mul_right_dbl (c : ℚ) (hc : 0 < c) (x y : Fp) (h : Fp.le x y = true) :
    Fp.le (x * Fp.fin c) (y * Fp.fin c) = true := by
  have hc0 : c ≠ 0 := ne_of_gt hc
  cases x <;> cases y <;> simp [Fp.le] at h
  · show Fp.le (Fp.infTimes false c) (Fp.infTimes false c) = true
    simp [Fp.infTimes, hc0, hc, Fp.le]
  · show Fp.le (Fp.infTimes false c) (Fp.infTimes true c) = true
    simp [Fp.infTimes, hc0, hc, Fp.le]
  · show Fp.le (Fp.infTimes false c) (roundDbl _) = true
    simp only [Fp.infTimes, hc0, hc, if_false, decide_True, Bool.true_eq_false]
    unfold roundDbl
    split_ifs <;> rfl
  · show Fp.le (Fp.infTimes true c) (Fp.infTimes true c) = true
    simp [Fp.infTimes, hc0, hc, Fp.le]
  · show Fp.le (roundDbl _) (Fp.infTimes true c) = true
    simp only [Fp.infTimes, hc0, hc, if_false, decide_True, if_true]
    unfold roundDbl
    split_ifs <;> rfl
  · rw [mul_fin, mul_fin]
    exact roundDbl_le _ _ (mul_le_mul_of_nonneg_right h (le_of_lt hc))

/-- A double is finite, below 2 ^ 1024 in magnitude, and its own rounding. -/
theorem isDouble_bounds (a : ℚ) (h : IsDouble a) :
    roundQ 53 (-1074) a = a ∧ -2 ^ 1024 < a ∧ a < 2 ^ 1024 := by
  unfold IsDouble roundDbl at h
  split_ifs at h with c1 c2
  simp only [Fp.fin.injEq] at h
  rw [h] at c1 c2
  exact ⟨h, not_le.mp c2, not_le.mp c1⟩

/-- A non-negative double divided by a positive integer is a finite
non-negative double. -/
theorem div_ofInt_finite (span : ℚ) (hs : IsDouble span) (hpos : 0 ≤ span) (m : ℤ)
    (hm : 1 ≤ m) :
    ∃ st : ℚ, 0 ≤ st ∧ Fp.fin span / Fp.ofInt m = Fp.fin st := by
  obtain ⟨hr, _, hlt⟩ := isDouble_bounds span hs
  have hm' : (1 : ℚ) ≤ (m : ℚ) := by exact_mod_cast hm
  have hm0 : (m : ℚ) ≠ 0 := by linarith
  have h0 : 0 ≤ span / (m : ℚ) := div_nonneg hpos (by linarith)
  have hle : span / (m : ℚ) ≤ span := div_le_self hpos hm'
  have r0 := roundQ_mono 53 (-1074) (by norm_num) _ _ h0
  rw [roundQ_zero] at r0
  have r1 := roundQ_mono 53 (-1074) (by norm_num) _ _ hle
  rw [hr] at r1
  refine ⟨roundQ 53 (-1074) (span / (m : ℚ)), r0, ?_⟩
  show Fp.fin span / Fp.fin (m : ℚ) = _
  rw [div_fin _ _ hm0]
  exact roundDbl_of_roundQ _ (by linarith) (by linarith)

/-! ### generateSpectrumTrace in double arithmetic: the frequencies -/

theorem traceLoop_frequency_dbl (exp : Fp → Fp) (startFreq step : Fp) (numPoints : ℤ) :
    ∀ (remaining i : ℕ) (rng : SeededRandom),
      (traceLoop exp startFreq step numPoints remaining i rng).map (fun p => p.frequency) =
        (List.range' i remaining).map
          (fun k : ℕ => (startFreq + step * Fp.ofInt (k : ℤ)) * Fp.fin 1000000000)
  | 0, _, _ => rfl
  | remaining + 1, i, rng => by
    simp [traceLoop, tracePoint_frequency, List.range'_succ,
      traceLoop_frequency_dbl exp startFreq step numPoints remaining]

/-- With a finite start and a finite non-negative step the frequency does not
decrease with the index. -/
theorem frequency_mono (s0 st : ℚ) (hst : 0 ≤ st) (i j : ℕ) (hij : i ≤ j) :
    Fp.le ((Fp.fin s0 + Fp.fin st * Fp.ofInt (i : ℤ)) * Fp.fin 1000000000)
      ((Fp.fin s0 + Fp.fin st * Fp.ofInt (j : ℤ)) * Fp.fin 1000000000) = true := by
  apply mul_le_mul_right_dbl _ (by norm_num)
  apply add_le_add_left_dbl
  show Fp.le (Fp.fin st * Fp.fin ((i : ℤ) : ℚ)) (Fp.fin st * Fp.fin ((j : ℤ) : ℚ)) = true
  rw [mul_fin, mul_fin]
  apply roundDbl_le
  have : ((i : ℤ) : ℚ) ≤ ((j : ℤ) : ℚ) := by exact_mod_cast hij
  exact mul_le_mul_of_nonneg_left this hst

/-! ### Claim C7 -/

theorem roundDbl_one : roundDbl 1 = Fp.fin 1 := by
  simpa using roundDbl_natCast 1 (by norm_num)

/-- The frequencies of the trace with centre 1, span 0 and two points. -/
theorem frequencies_zero_span :
    (generateSpectrumTrace expOne (Fp.fin 1) (Fp.fin 0) 2 0).map
      (fun out => out.map (fun p => p.frequency)) =
      some [Fp.fin 1000000000, Fp.fin 1000000000] := by
  have e1 : Fp.fin 0 / Fp.fin 2 = Fp.fin 0 := by
    rw [div_fin _ _ (by norm_num), zero_div, roundDbl_zero]
  have e2 : Fp.fin 1 - Fp.fin 0 = Fp.fin 1 := by
    rw [sub_fin, sub_zero, roundDbl_one]
  have e3 : Fp.fin 0 / Fp.ofInt (2 - 1) = Fp.fin 0 := by
    show Fp.fin 0 / Fp.fin (((2 - 1 : ℤ)) : ℚ) = Fp.fin 0
    rw [div_fin _ _ (by norm_num), zero_div, roundDbl_zero]
  have e4 : ∀ k : ℤ, (Fp.fin 1 + Fp.fin 0 * Fp.ofInt k) * Fp.fin 1000000000 =
      Fp.fin 1000000000 := by
    intro k
    show (Fp.fin 1 + Fp.fin 0 * Fp.fin (k : ℚ)) * Fp.fin 1000000000 = _
    rw [mul_fin, zero_mul, roundDbl_zero, add_fin, add_zero, roundDbl_one, mul_fin, one_mul]
    have := roundDbl_natCast 1000000000 (by norm_num)
    norm_num at this ⊢
    exact this
  simp only [generateSpectrumTrace, show ¬ ((2 : ℤ) < 0) by norm_num, if_false, Option.map_some',
    traceLoop_frequency_dbl, e1, e2, e3, e4]
  rfl

/-- The frequencies of the trace with centre 2^40, span 2^-20 and three
points: the span is below the rounding step at 2^40. -/
theorem frequencies_lost_span :
    (generateSpectrumTrace expOne (Fp.fin (2 ^ 40)) (Fp.fin (1 / 2 ^ 20)) 3 0).map
      (fun out => out.map (fun p => p.frequency)) =
      some [Fp.fin 1099511627776000000000, Fp.fin 1099511627776000000000,
        Fp.fin 1099511627776000000000] := by
  have e1 : Fp.fin (1 / 2 ^ 20) / Fp.fin 2 = Fp.fin (1 / 2 ^ 21) := by
    rw [div_fin _ _ (by norm_num)]
    have := roundDbl_multiple 1 (-21) (by norm_num) (by norm_num) (by norm_num [abs_of_pos])
    norm_num at this ⊢
    exact this
  have e2 : Fp.fin (2 ^ 40) - Fp.fin (1 / 2 ^ 21) = Fp.fin (2 ^ 40) := by
    rw [sub_fin]
    have := roundDbl_eval_near (2 ^ 40 - 1 / 2 ^ 21) 39 (-13) (2 ^ 53)
      (by norm_num [abs_of_pos]) (by norm_num [abs_of_pos]) (by norm_num)
      (by norm_num [abs_of_neg]) (by norm_num [abs_of_pos])
    norm_num at this ⊢
    exact this
  have e3 : Fp.fin (1 / 2 ^ 20) / Fp.ofInt (3 - 1) = Fp.fin (1 / 2 ^ 21) := by
    show Fp.fin (1 / 2 ^ 20) / Fp.fin (((3 - 1 : ℤ)) : ℚ) = _
    rw [div_fin _ _ (by norm_num)]
    have := roundDbl_multiple 1 (-21) (by norm_num) (by norm_num) (by norm_num [abs_of_pos])
    norm_num at this ⊢
    exact this
  have m0 : Fp.fin (1 / 2 ^ 21) * Fp.ofInt ((0 : ℕ) : ℤ) = Fp.fin 0 := by
    show Fp.fin (1 / 2 ^ 21) * Fp.fin ((((0 : ℕ) : ℤ)) : ℚ) = _
    rw [mul_fin]
    norm_num [roundDbl_zero]
  have m1 : Fp.fin (1 / 2 ^ 21) * Fp.ofInt ((1 : ℕ) : ℤ) = Fp.fin (1 / 2 ^ 21) := by
    show Fp.fin (1 / 2 ^ 21) * Fp.fin ((((1 : ℕ) : ℤ)) : ℚ) = _
    rw [mul_fin]
    have := roundDbl_multiple 1 (-21) (by norm_num) (by norm_num) (by norm_num [abs_of_pos])
    norm_num at this ⊢
    exact this
  have m2 : Fp.fin (1 / 2 ^ 21) * Fp.ofInt ((2 : ℕ) : ℤ) = Fp.fin (1 / 2 ^ 20) := by
    show Fp.fin (1 / 2 ^ 21) * Fp.fin ((((2 : ℕ) : ℤ)) : ℚ) = _
    rw [mul_fin]
    have := roundDbl_multiple 1 (-20) (by norm_num) (by norm_num) (by norm_num [abs_of_pos])
    norm_num at this ⊢
    exact this
  have a0 : Fp.fin (2 ^ 40) + Fp.fin 0 = Fp.fin (2 ^ 40) := by
    rw [add_fin, add_zero]
    have := roundDbl_natCast (2 ^ 40) (by norm_num)
    norm_num at this ⊢
    exact this
  have a1 : Fp.fin (2 ^ 40) + Fp.fin (1 / 2 ^ 21) = Fp.fin (2 ^ 40) := by
    rw [add_fin]
    have := roundDbl_eval_near (2 ^ 40 + 1 / 2 ^ 21) 40 (-12) (2 ^ 52)
      (by norm_num [abs_of_pos]) (by norm_num [abs_of_pos]) (by norm_num)
      (by norm_num [abs_of_pos]) (by norm_num [abs_of_pos])
    norm_num at this ⊢
    exact this
  have a2 : Fp.fin (2 ^ 40) + Fp.fin (1 / 2 ^ 20) = Fp.fin (2 ^ 40) := by
    rw [add_fin]
    have := roundDbl_eval_near (2 ^ 40 + 1 / 2 ^ 20) 40 (-12) (2 ^ 52)
      (by norm_num [abs_of_pos]) (by norm_num [abs_of_pos]) (by norm_num)
      (by norm_num [abs_of_pos]) (by norm_num [abs_of_pos])
    norm_num at this ⊢
    exact this
  have g : Fp.fin (2 ^ 40) * Fp.fin 1000000000 = Fp.fin 1099511627776000000000 := by
    rw [mul_fin]
    have := roundDbl_multiple 1953125 49 (by norm_num) (by norm_num) (by norm_num [abs_of_pos])
    norm_num at this ⊢
    exact this
  simp only [generateSpectrumTrace, show ¬ ((3 : ℤ) < 0) by norm_num, if_false, Option.map_some',
    traceLoop_frequency_dbl, e1, e2, e3]
  have r : List.range' 0 (3 : ℤ).toNat = [0, 1, 2] := by decide
  rw [r]
  simp only [List.map, m0, m1, m2, a0, a1, a2, g]

/-- The frequencies of the trace with centre 2, span -1 and two points. -/
theorem frequencies_negative_span :
    (generateSpectrumTrace expOne (Fp.fin 2) (Fp.fin (-1)) 2 0).map
      (fun out => out.map (fun p => p.frequency)) =
      some [Fp.fin 2500000000, Fp.fin 1500000000] := by
  have e1 : Fp.fin (-1) / Fp.fin 2 = Fp.fin (-1 / 2) := by
    rw [div_fin _ _ (by norm_num)]
    have := roundDbl_multiple (-1) (-1) (by norm_num) (by norm_num) (by norm_num [abs_of_neg])
    norm_num at this ⊢
    exact this
  have e2 : Fp.fin 2 - Fp.fin (-1 / 2) = Fp.fin (5 / 2) := by
    rw [sub_fin]
    have := roundDbl_multiple 5 (-1) (by norm_num) (by norm_num) (by norm_num [abs_of_pos])
    norm_num at this ⊢
    exact this
  have e3 : Fp.fin (-1) / Fp.ofInt (2 - 1) = Fp.fin (-1) := by
    show Fp.fin (-1) / Fp.fin (((2 - 1 : ℤ)) : ℚ) = Fp.fin (-1)
    rw [div_fin _ _ (by norm_num)]
    have := roundDbl_intCast (-1) (by norm_num)
    norm_num at this ⊢
    exact this
  have m0 : Fp.fin (-1) * Fp.ofInt ((0 : ℕ) : ℤ) = Fp.fin 0 := by
    show Fp.fin (-1) * Fp.fin ((((0 : ℕ) : ℤ)) : ℚ) = _
    rw [mul_fin]
    norm_num [roundDbl_zero]
  have m1 : Fp.fin (-1) * Fp.ofInt ((1 : ℕ) : ℤ) = Fp.fin (-1) := by
    show Fp.fin (-1) * Fp.fin ((((1 : ℕ) : ℤ)) : ℚ) = _
    rw [mul_fin]
    have := roundDbl_intCast (-1) (by norm_num)
    norm_num at this ⊢
    exact this
  have a0 : Fp.fin (5 / 2) + Fp.fin 0 = Fp.fin (5 / 2) := by
    rw [add_fin, add_zero]
    have := roundDbl_multiple 5 (-1) (by norm_num) (by norm_num) (by norm_num [abs_of_pos])
    norm_num at this ⊢
    exact this
  have a1 : Fp.fin (5 / 2) + Fp.fin (-1) = Fp.fin (3 / 2) := by
    rw [add_fin]
    have := roundDbl_multiple 3 (-1) (by norm_num) (by norm_num) (by norm_num [abs_of_pos])
    norm_num at this ⊢
    exact this
  have g0 : Fp.fin (5 / 2) * Fp.fin 1000000000 = Fp.fin 2500000000 := by
    rw [mul_fin]
    have := roundDbl_natCast 2500000000 (by norm_num)
    norm_num at this ⊢
    exact this
  have g1 : Fp.fin (3 / 2) * Fp.fin 1000000000 = Fp.fin 1500000000 := by
    rw [mul_fin]
    have := roundDbl_natCast 1500000000 (by norm_num)
    norm_num at this ⊢
    exact this
  simp only [generateSpectrumTrace, show ¬ ((2 : ℤ) < 0) by norm_num, if_false, Option.map_some',
    traceLoop_frequency_dbl, e1, e2, e3]
  have r : List.range' 0 (2 : ℤ).toNat = [0, 1] := by decide
  rw [r]
  simp only [List.map, m0, m1, a0, a1, g0, g1]

/-- The start frequency 2 - 1 / 2 of the trace with centre 2 and span 1 is
finite. -/
theorem start_two_one_finite : (Fp.fin 2 - Fp.fin 1 / Fp.fin 2).isFinite = true := by
  have e1 : Fp.fin 1 / Fp.fin 2 = Fp.fin (1 / 2) := by
    rw [div_fin _ _ (by norm_num)]
    have := roundDbl_multiple 1 (-1) (by norm_num) (by norm_num) (by norm_num [abs_of_pos])
    norm_num at this ⊢
    exact this
  have e2 : Fp.fin 2 - Fp.fin (1 / 2) = Fp.fin (3 / 2) := by
    rw [sub_fin]
    have := roundDbl_multiple 3 (-1) (by norm_num) (by norm_num) (by norm_num [abs_of_pos])
    norm_num at this ⊢
    exact this
  rw [e1, e2]
  rfl

/-- Claim C7 as stated is false: with spanGHz = 0 and numPoints = 2 both
frequencies are 1e9; with the positive span 2^-20 at the centre 2^40 and
numPoints = 3 the three frequencies are equal as well, the span being lost
to rounding; and with the negative span -1 at the centre 2 the two
frequencies 2.5e9 and 1.5e9 descend. -/
theorem generateSpectrumTrace_not_strictly_ascending :
    ((1 : ℤ) < 2 ∧
      (generateSpectrumTrace expOne (Fp.fin 1) (Fp.fin 0) 2 0).map
        (fun out => out.map (fun p => p.frequency)) =
        some [Fp.fin 1000000000, Fp.fin 1000000000] ∧
      Fp.lt (Fp.fin 1000000000) (Fp.fin 1000000000) = false) ∧
    ((1 : ℤ) < 3 ∧ (0 : ℚ) < 1 / 2 ^ 20 ∧
      (generateSpectrumTrace expOne (Fp.fin (2 ^ 40)) (Fp.fin (1 / 2 ^ 20)) 3 0).map
        (fun out => out.map (fun p => p.frequency)) =
        some [Fp.fin 1099511627776000000000, Fp.fin 1099511627776000000000,
          Fp.fin 1099511627776000000000] ∧
      Fp.lt (Fp.fin 1099511627776000000000) (Fp.fin 1099511627776000000000) = false) ∧
    ((1 : ℤ) < 2 ∧
      (generateSpectrumTrace expOne (Fp.fin 2) (Fp.fin (-1)) 2 0).map
        (fun out => out.map (fun p => p.frequency)) =
        some [Fp.fin 2500000000, Fp.fin 1500000000] ∧
      Fp.le (Fp.fin 2500000000) (Fp.fin 1500000000) = false) :=
  ⟨⟨by decide, frequencies_zero_span, Fp.lt_irrefl_dbl _⟩,
    ⟨by decide, by norm_num, frequencies_lost_span, Fp.lt_irrefl_dbl _⟩,
    ⟨by decide, frequencies_negative_span, by norm_num [Fp.le]⟩⟩

/-- Claim C7, amended: for every finite centerFreqGHz, every finite double
spanGHz ≥ 0 for which startFreq = centerFreqGHz - spanGHz / 2 does not
overflow, every seed and every numPoints > 1, generateSpectrumTrace returns
numPoints samples whose frequencies never decrease: the frequency of a
sample is ≤ the frequency of every later sample, so
frequency_i ≤ frequency_(i+1) for every consecutive pair. Neighbours can be
equal, when the span is zero or the step is lost to rounding. -/
theorem generateSpectrumTrace_nondecreasing (exp : Fp → Fp) (centerFreqGHz spanGHz : ℚ)
    (numPoints : ℤ) (seed : ℕ) (hd : IsDouble spanGHz) (hspan : 0 ≤ spanGHz)
    (hstart : (Fp.fin centerFreqGHz - Fp.fin spanGHz / Fp.fin 2).isFinite = true)
    (hn : 1 < numPoints) :
    ∃ out : List SpectrumPoint,
      generateSpectrumTrace exp (Fp.fin centerFreqGHz) (Fp.fin spanGHz) numPoints seed
        = some out ∧
      out.length = numPoints.toNat ∧
      List.Pairwise (fun a b => Fp.le a.frequency b.frequency = true) out := by
  have hneg : ¬ (numPoints < 0) := by omega
  obtain ⟨st, hst, hstep⟩ := div_ofInt_finite spanGHz hd hspan (numPoints - 1) (by omega)
  obtain ⟨s0, hs0⟩ : ∃ s0 : ℚ, Fp.fin centerFreqGHz - Fp.fin spanGHz / Fp.fin 2 = Fp.fin s0 := by
    generalize Fp.fin centerFreqGHz - Fp.fin spanGHz / Fp.fin 2 = x at hstart
    cases x <;> simp [Fp.isFinite] at hstart
    exact ⟨_, rfl⟩
  refine ⟨traceLoop exp (Fp.fin s0) (Fp.fin st) numPoints numPoints.toNat 0 { state := seed },
    ?_, traceLoop_length_dbl _ _ _ _ _ _ _, ?_⟩
  · simp only [generateSpectrumTrace, if_neg hneg, hs0, hstep]
  · have hmap := traceLoop_frequency_dbl exp (Fp.fin s0) (Fp.fin st) numPoints
      numPoints.toNat 0 { state := seed }
    have hp : List.Pairwise (fun a b : Fp => Fp.le a b = true)
        ((List.range' 0 numPoints.toNat).map
          (fun k : ℕ => (Fp.fin s0 + Fp.fin st * Fp.ofInt (k : ℤ)) * Fp.fin 1000000000)) := by
      rw [List.pairwise_map]
      refine List.Pairwise.imp ?_ (List.pairwise_lt_range' 0 numPoints.toNat)
      intro a b hab
      exact frequency_mono s0 st hst a b (le_of_lt hab)
    rw [← hmap, List.pairwise_map] at hp
    exact hp

/-- Witness for the amended C7: centre 2 GHz, span 1 GHz, three points. -/
theorem generateSpectrumTrace_nondecreasing_witness :
    (IsDouble 1 ∧ (0 : ℚ) ≤ 1 ∧ (Fp.fin 2 - Fp.fin 1 / Fp.fin 2).isFinite = true ∧
      (1 : ℤ) < 3) ∧
    ∃ out : List SpectrumPoint,
      generateSpectrumTrace expOne (Fp.fin 2) (Fp.fin 1) 3 5 = some out ∧
      out.length = (3 : ℤ).toNat ∧
      List.Pairwise (fun a b => Fp.le a.frequency b.frequency = true) out :=
  ⟨⟨isDouble_one, by norm_num, start_two_one_finite, by decide⟩,
    generateSpectrumTrace_nondecreasing expOne 2 1 3 5 isDouble_one (by norm_num)
      start_two_one_finite (by decide)⟩

/-! ### computeNoiseFloor in double arithmetic: lemmas -/

/-- The double that the literal 0.2 denotes. -/
theorem lit_two_tenths : Fp.lit (2 / 10) = Fp.fin (3602879701896397 / 18014398509481984) := by
  unfold Fp.lit
  have := roundDbl_eval_near (2 / 10) (-3) (-55) 7205759403792794
    (by norm_num [abs_of_pos]) (by norm_num [abs_of_pos]) (by norm_num)
    (by norm_num [abs_of_neg]) (by norm_num [abs_of_pos])
  rw [this]
  norm_num

/-- The double product (5 m + t) * 0.2 with t ≤ 4 truncates to m. -/
theorem truncToSize_fifth_aux (m t : ℕ) (ht : t ≤ 4) (hm : m < 2 ^ 50) (hn53 : 5 * m + t < 2 ^ 53) :
    truncToSize (Fp.ofNat (5 * m + t) * Fp.lit (2 / 10)) = m := by
  have hm' : m < 1125899906842624 := by
    norm_num at hm
    exact hm
  have hmq : (m : ℚ) < 1125899906842624 := by exact_mod_cast hm'
  have htq : (t : ℚ) ≤ 4 := by exact_mod_cast ht
  have ht0 : (0 : ℚ) ≤ (t : ℚ) := by positivity
  have hm0 : (0 : ℚ) ≤ (m : ℚ) := by positivity
  have hq : ((5 * m + t : ℕ) : ℚ) = 5 * (m : ℚ) + (t : ℚ) := by push_cast; ring
  -- the exact product lies between m and m + 7 / 8
  have lo : (m : ℚ) ≤ ((5 * m + t : ℕ) : ℚ) * (3602879701896397 / 18014398509481984) := by
    rw [hq]
    linarith
  have hi : ((5 * m + t : ℕ) : ℚ) * (3602879701896397 / 18014398509481984) ≤ (m : ℚ) + 7 / 8 := by
    rw [hq]
    linarith
  -- both ends are doubles
  have rlo : roundQ 53 (-1074) (m : ℚ) = (m : ℚ) := by
    have := roundQ_intCast 53 (-1074) (by norm_num) (by norm_num) (m : ℤ)
      (by
        rw [abs_of_nonneg (by positivity)]
        have : m < 2 ^ 53 := lt_trans hm (by norm_num)
        exact_mod_cast this)
    simpa using this
  have rhi : roundQ 53 (-1074) ((m : ℚ) + 7 / 8) = (m : ℚ) + 7 / 8 := by
    have := roundQ_multiple 53 (-1074) (by norm_num) ((8 * m + 7 : ℕ) : ℤ) (-3)
      (by
        rw [abs_of_nonneg (by positivity)]
        have h2 : 8 * m + 7 < 2 ^ 53 := by omega
        exact_mod_cast h2) (by norm_num)
    have e : (((8 * m + 7 : ℕ) : ℤ) : ℚ) * 2 ^ (-3 : ℤ) = (m : ℚ) + 7 / 8 := by
      push_cast
      norm_num
      ring
    rw [e] at this
    exact this
  have b1 := roundQ_mono 53 (-1074) (by norm_num) _ _ lo
  have b2 := roundQ_mono 53 (-1074) (by norm_num) _ _ hi
  rw [rlo] at b1
  rw [rhi] at b2
  have hr : Fp.ofNat (5 * m + t) * Fp.lit (2 / 10) =
      Fp.fin (roundQ 53 (-1074)
        (((5 * m + t : ℕ) : ℚ) * (3602879701896397 / 18014398509481984))) := by
    unfold Fp.ofNat
    rw [roundDbl_natCast _ hn53, lit_two_tenths, mul_fin]
    have hbig : (m : ℚ) + 7 / 8 < 2 ^ 1024 := by
      norm_num
      linarith
    exact roundDbl_of_roundQ _ (by linarith) (lt_of_le_of_lt b2 hbig)
  rw [hr]
  show Int.toNat ⌊roundQ 53 (-1074)
    (((5 * m + t : ℕ) : ℚ) * (3602879701896397 / 18014398509481984))⌋ = m
  have hf : ⌊roundQ 53 (-1074)
      (((5 * m + t : ℕ) : ℚ) * (3602879701896397 / 18014398509481984))⌋ = (m : ℤ) := by
    rw [Int.floor_eq_iff]
    constructor
    · exact_mod_cast b1
    · have : roundQ 53 (-1074)
          (((5 * m + t : ℕ) : ℚ) * (3602879701896397 / 18014398509481984)) < (m : ℚ) + 1 := by
        linarith
      exact_mod_cast this
  rw [hf]
  simp

/-- The truncated double product n * 0.2 is the integer quotient of n by 5. -/
theorem truncToSize_fifth_dbl (n : ℕ) (hn : n < 2 ^ 50) :
    truncToSize (Fp.ofNat n * Fp.lit (2 / 10)) = n / 5 := by
  have h := truncToSize_fifth_aux (n / 5) (n % 5) (by omega) (by omega) (by omega)
  rw [Nat.div_add_mod] at h
  exact h

theorem sampleSize_eq_dbl (n : ℕ) (hn : n < 2 ^ 50) :
    sampleSize n = min n (max 5 (n / 5)) := by
  unfold sampleSize
  rw [truncToSize_fifth_dbl n hn, min_comm]

/-- On finite doubles std::sort with operator< is the ascending sort of the
values. -/
theorem insertionSort_map_fin (l : List ℚ) :
    (l.map Fp.fin).insertionSort ascOrder = (l.insertionSort (fun a b => a ≤ b)).map Fp.fin := by
  symm
  apply List.map_insertionSort
  intro a _ b _
  simp [ascOrder, Fp.lt]

theorem map_amplitude_ofExact (points : List nr5g.SpectrumPoint) :
    (points.map ofExact).map (fun point => point.amplitude) =
      (points.map (fun point => point.amplitude)).map Fp.fin := by
  simp [ofExact, Function.comp_def]

/-- The value of computeNoiseFloor on finite samples: the rounded double mean
of the first sampleSize sorted amplitudes. -/
theorem computeNoiseFloor_eq_dbl (points : List nr5g.SpectrumPoint) (h : points ≠ []) :
    computeNoiseFloor (points.map ofExact) =
      Fp.round ((sumDbl (((points.map (fun point => point.amplitude)).insertionSort
          (fun a b => a ≤ b)).take (sampleSize points.length))
        / Fp.ofNat (sampleSize points.length)) * Fp.fin 10) / Fp.fin 10 := by
  unfold computeNoiseFloor sumDbl
  cases points with
  | nil => exact absurd rfl h
  | cons p ps =>
    simp only [List.map_cons, List.isEmpty_cons, Bool.false_eq_true, if_false]
    rw [← List.map_cons, ← List.map_cons, map_amplitude_ofExact, insertionSort_map_fin,
      List.length_map, List.length_insertionSort, List.length_map, ← List.map_take,
      List.foldl_map]
    rfl

/-- The sorted amplitudes split at the sample size into an ascending low part
and a rest that is nowhere below it. -/
theorem lowest_split (amps : List ℚ) (k : ℕ) (hk : k ≤ amps.length) :
    List.Perm ((amps.insertionSort (fun a b => a ≤ b)).take k
        ++ (amps.insertionSort (fun a b => a ≤ b)).drop k) amps ∧
    List.Pairwise (fun a b : ℚ => a ≤ b) ((amps.insertionSort (fun a b => a ≤ b)).take k) ∧
    ((amps.insertionSort (fun a b => a ≤ b)).take k).length = k ∧
    (∀ a ∈ (amps.insertionSort (fun a b => a ≤ b)).take k,
      ∀ b ∈ (amps.insertionSort (fun a b => a ≤ b)).drop k, a ≤ b) := by
  have hs : List.Pairwise (fun a b : ℚ => a ≤ b) (amps.insertionSort (fun a b => a ≤ b)) :=
    List.sorted_insertionSort (fun a b : ℚ => a ≤ b) amps
  refine ⟨?_, ?_, ?_, ?_⟩
  · rw [List.take_append_drop]
    exact List.perm_insertionSort _ _
  · exact List.Pairwise.sublist (List.take_sublist k _) hs
  · rw [List.length_take, List.length_insertionSort, min_eq_left hk]
  · intro a ha b hb
    rw [← List.take_append_drop k (amps.insertionSort (fun a b => a ≤ b)),
      List.pairwise_append] at hs
    exact hs.2.2 a ha b hb

/-! ### computeNoiseFloor in double arithmetic: evaluations -/

/-- The noise floor of the 28-sample trace in double arithmetic. -/
theorem computeNoiseFloor_trace28_dbl : computeNoiseFloor (trace28.map ofExact) = Fp.fin (-100) := by
  rw [computeNoiseFloor_eq_dbl _ (by decide)]
  have hl : trace28.length = 28 := by decide
  rw [hl, sampleSize_eq_dbl 28 (by norm_num)]
  have hk : min 28 (max 5 (28 / 5)) = 5 := by decide
  rw [hk]
  have h : ((List.map (fun point => point.amplitude) trace28).insertionSort
      (fun a b => a ≤ b)).take 5 = [-100, -100, -100, -100, -100] := by decide
  rw [h]
  simp only [sumDbl, List.foldl]
  rw [add_fin, roundDbl_eq_of_int _ (-100) (by norm_num) (by norm_num),
    add_fin, roundDbl_eq_of_int _ (-200) (by norm_num) (by norm_num),
    add_fin, roundDbl_eq_of_int _ (-300) (by norm_num) (by norm_num),
    add_fin, roundDbl_eq_of_int _ (-400) (by norm_num) (by norm_num),
    add_fin, roundDbl_eq_of_int _ (-500) (by norm_num) (by norm_num),
    ofNat_small 5 (by norm_num), div_fin _ _ (by norm_num),
    roundDbl_eq_of_int _ (-100) (by norm_num) (by norm_num),
    mul_fin, roundDbl_eq_of_int _ (-1000) (by norm_num) (by norm_num), round_fin]
  have hc : cround ((0 + -100 + -100 + -100 + -100 + -100) / ((5 : ℕ) : ℚ) * 10) = -1000 := by
    have := cround_intCast (-1000)
    norm_num at this ⊢
    exact this
  rw [hc, div_fin _ _ (by norm_num), roundDbl_eq_of_int _ (-100) (by norm_num) (by norm_num)]
  congr 1
  norm_num

/-- The noise floor of the six-sample trace in double arithmetic. -/
theorem computeNoiseFloor_trace6_dbl : computeNoiseFloor (trace6.map ofExact) = Fp.fin (-98) := by
  rw [computeNoiseFloor_eq_dbl _ (by decide)]
  have hl : trace6.length = 6 := by decide
  rw [hl, sampleSize_eq_dbl 6 (by norm_num)]
  have hk : min 6 (max 5 (6 / 5)) = 5 := by decide
  rw [hk]
  have h : ((List.map (fun point => point.amplitude) trace6).insertionSort
      (fun a b => a ≤ b)).take 5 = [-100, -99, -98, -97, -96] := by decide
  rw [h]
  simp only [sumDbl, List.foldl]
  rw [add_fin, roundDbl_eq_of_int _ (-100) (by norm_num) (by norm_num),
    add_fin, roundDbl_eq_of_int _ (-199) (by norm_num) (by norm_num),
    add_fin, roundDbl_eq_of_int _ (-297) (by norm_num) (by norm_num),
    add_fin, roundDbl_eq_of_int _ (-394) (by norm_num) (by norm_num),
    add_fin, roundDbl_eq_of_int _ (-490) (by norm_num) (by norm_num),
    ofNat_small 5 (by norm_num), div_fin _ _ (by norm_num),
    roundDbl_eq_of_int _ (-98) (by norm_num) (by norm_num),
    mul_fin, roundDbl_eq_of_int _ (-980) (by norm_num) (by norm_num), round_fin]
  have hc : cround ((0 + -100 + -99 + -98 + -97 + -96) / ((5 : ℕ) : ℚ) * 10) = -980 := by
    have := cround_intCast (-980)
    norm_num at this ⊢
    exact this
  rw [hc, div_fin _ _ (by norm_num), roundDbl_eq_of_int _ (-98) (by norm_num) (by norm_num)]
  congr 1
  norm_num

theorem sumDbl_one (a : ℚ) : sumDbl [a] = Fp.fin 0 + Fp.fin a := rfl

theorem sumDbl_three (a b c : ℚ) :
    sumDbl [a, b, c] = Fp.fin 0 + Fp.fin a + Fp.fin b + Fp.fin c := rfl

theorem add_neg_1e16 : Fp.fin 0 + Fp.fin (-10000000000000000) = Fp.fin (-10000000000000000) := by
  rw [add_fin, roundDbl_eq_of_multiple _ (-152587890625) 16 (by norm_num) (by norm_num)
    (by norm_num) (by norm_num [abs_of_neg])]
  congr 1
  norm_num

/-- The double sum -1e16 + 1 is a tie between -1e16 and -1e16 + 2, which goes
to -1e16: the 1 is absorbed. -/
theorem add_one_absorbed :
    Fp.fin (-10000000000000000) + Fp.fin 1 = Fp.fin (-10000000000000000) := by
  rw [add_fin, roundDbl_eval_tie_even (-10000000000000000 + 1) 53 1 (-5000000000000000)
    (by norm_num [abs_of_neg]) (by norm_num [abs_of_neg]) (by norm_num) (by norm_num)
    (by norm_num) (by norm_num [abs_of_neg])]
  congr 1
  norm_num

theorem add_1e16_cancels : Fp.fin (-10000000000000000) + Fp.fin 10000000000000000 = Fp.fin 0 := by
  rw [add_fin]
  have : (-10000000000000000 : ℚ) + 10000000000000000 = 0 := by norm_num
  rw [this, roundDbl_zero]

theorem sumDbl_cancel : sumDbl [-10000000000000000, 1, 10000000000000000] = Fp.fin 0 := by
  rw [sumDbl_three, add_neg_1e16, add_one_absorbed, add_1e16_cancels]

theorem amplitudes_cancelTrace :
    ((List.map (fun point => point.amplitude) cancelTrace).insertionSort
      (fun a b => a ≤ b)).take 3 = [-10000000000000000, 1, 10000000000000000] := by
  norm_num [cancelTrace, List.insertionSort, List.orderedInsert]

/-- In double arithmetic the noise floor of the trace -1e16, 1, 1e16 is 0. -/
theorem computeNoiseFloor_cancelTrace_dbl :
    computeNoiseFloor (cancelTrace.map ofExact) = Fp.fin 0 := by
  rw [computeNoiseFloor_eq_dbl _ (by simp [cancelTrace])]
  have hl : cancelTrace.length = 3 := rfl
  rw [hl, sampleSize_eq_dbl 3 (by norm_num)]
  have hk : min 3 (max 5 (3 / 5)) = 3 := by decide
  rw [hk, amplitudes_cancelTrace, sumDbl_cancel, ofNat_small 3 (by norm_num),
    div_fin _ _ (by norm_num), zero_div, roundDbl_zero,
    mul_fin, zero_mul, roundDbl_zero, round_fin]
  have hc : cround 0 = 0 := by
    have := cround_intCast 0
    simpa using this
  rw [hc, div_fin _ _ (by norm_num)]
  norm_num [roundDbl_zero]

/-- In double arithmetic the noise floor of the one-sample trace below 0.15
is the double 0.2. -/
theorem computeNoiseFloor_tenthTrace_dbl :
    computeNoiseFloor (tenthTrace.map ofExact) =
      Fp.fin (3602879701896397 / 18014398509481984) := by
  rw [computeNoiseFloor_eq_dbl _ (by simp [tenthTrace])]
  have hl : tenthTrace.length = 1 := rfl
  rw [hl, sampleSize_eq_dbl 1 (by norm_num)]
  have hk : min 1 (max 5 (1 / 5)) = 1 := by decide
  rw [hk]
  have h : ((List.map (fun point => point.amplitude) tenthTrace).insertionSort
      (fun a b => a ≤ b)).take 1 = [5404319552844595 / 36028797018963968] := by
    simp [tenthTrace]
  rw [h, sumDbl_one]
  have s1 : Fp.fin 0 + Fp.fin (5404319552844595 / 36028797018963968) =
      Fp.fin (5404319552844595 / 36028797018963968) := by
    rw [add_fin, roundDbl_eq_of_multiple _ 5404319552844595 (-55) (by norm_num) (by norm_num)
      (by norm_num) (by norm_num [abs_of_pos])]
    congr 1
    norm_num
  have s2 : Fp.fin (5404319552844595 / 36028797018963968) / Fp.fin ((1 : ℕ) : ℚ) =
      Fp.fin (5404319552844595 / 36028797018963968) := by
    rw [div_fin _ _ (by norm_num), roundDbl_eq_of_multiple _ 5404319552844595 (-55)
      (by norm_num) (by norm_num) (by norm_num) (by norm_num [abs_of_pos])]
    congr 1
    norm_num
  have s3 : Fp.fin (5404319552844595 / 36028797018963968) * Fp.fin 10 = Fp.fin (3 / 2) := by
    rw [mul_fin, roundDbl_eval_near (5404319552844595 / 36028797018963968 * 10) 0 (-52)
      6755399441055744 (by norm_num [abs_of_pos]) (by norm_num [abs_of_pos]) (by norm_num)
      (by norm_num [abs_of_neg]) (by norm_num [abs_of_pos])]
    congr 1
    norm_num
  have hc : cround (3 / 2) = 2 := by
    unfold cround
    rw [if_pos (by norm_num), Int.floor_eq_iff]
    norm_num
  rw [s1, ofNat_small 1 (by norm_num), s2, s3, round_fin, hc, div_fin _ _ (by norm_num)]
  have := lit_two_tenths
  unfold Fp.lit at this
  norm_num at this ⊢
  exact this

/-! ### computeNoiseFloor in double arithmetic: the averaged amplitudes -/

theorem sampleSizeRounded_3 : sampleSizeRounded 3 = 3 := by
  have h : cround (((3 : ℕ) : ℚ) * (2 / 10)) = 1 := by
    unfold cround
    rw [if_pos (by norm_num), Int.floor_eq_iff]
    norm_num
  unfold sampleSizeRounded
  rw [h]
  decide

theorem sampleSizeRounded_1 : sampleSizeRounded 1 = 1 := by
  have h : cround (((1 : ℕ) : ℚ) * (2 / 10)) = 0 := by
    unfold cround
    rw [if_pos (by norm_num), Int.floor_eq_iff]
    norm_num
  unfold sampleSizeRounded
  rw [h]
  decide

/-- In the words of the specification the noise floor of the trace -1e16, 1,
1e16 is the mean 1/3 rounded to the tenth 0.3. -/
theorem noiseFloorRounded_cancelTrace : noiseFloorRounded cancelTrace = 3 / 10 := by
  unfold noiseFloorRounded
  have hl : cancelTrace.length = 3 := rfl
  rw [hl, sampleSizeRounded_3]
  dsimp only
  rw [amplitudes_cancelTrace]
  have hc : cround (([-10000000000000000, 1, 10000000000000000] : List ℚ).sum
      / ((([-10000000000000000, 1, 10000000000000000] : List ℚ).length : ℕ) : ℚ) * 10) = 3 := by
    unfold cround
    rw [if_pos (by norm_num), Int.floor_eq_iff]
    norm_num
  rw [hc]
  norm_num

/-- In the words of the specification the noise floor of the one-sample
trace below 0.15 is the tenth 0.1. -/
theorem noiseFloorRounded_tenthTrace : noiseFloorRounded tenthTrace = 1 / 10 := by
  unfold noiseFloorRounded
  have hl : tenthTrace.length = 1 := rfl
  rw [hl, sampleSizeRounded_1]
  dsimp only
  have h : ((List.map (fun point => point.amplitude) tenthTrace).insertionSort
      (fun a b => a ≤ b)).take 1 = [5404319552844595 / 36028797018963968] := by
    simp [tenthTrace]
  rw [h]
  have hc : cround (([5404319552844595 / 36028797018963968] : List ℚ).sum
      / ((([5404319552844595 / 36028797018963968] : List ℚ).length : ℕ) : ℚ) * 10) = 1 := by
    unfold cround
    rw [if_pos (by norm_num), Int.floor_eq_iff]
    norm_num
  rw [hc]
  norm_num

/-- The value of computeNoiseFloor on finite samples, with the averaged
amplitudes named: an ascending list low of min(n, max(5, n / 5)) amplitudes
that, with the rest, makes up the input and is nowhere above the rest. -/
theorem computeNoiseFloor_low_split_dbl (points : List nr5g.SpectrumPoint) (h : points ≠ [])
    (hn : points.length < 2 ^ 50) :
    ∃ low rest : List ℚ,
      List.Perm (low ++ rest) (points.map (fun point => point.amplitude)) ∧
      List.Pairwise (fun a b : ℚ => a ≤ b) low ∧
      low.length = min points.length (max 5 (points.length / 5)) ∧
      (∀ a ∈ low, ∀ b ∈ rest, a ≤ b) ∧
      computeNoiseFloor (points.map ofExact) =
        Fp.round (sumDbl low / Fp.ofNat low.length * Fp.fin 10) / Fp.fin 10 := by
  have hk : min points.length (max 5 (points.length / 5))
      ≤ (points.map (fun point => point.amplitude)).length := by
    rw [List.length_map]
    exact min_le_left _ _
  obtain ⟨hperm, hsorted, hlen, hcross⟩ :=
    lowest_split (points.map (fun point => point.amplitude)) _ hk
  refine ⟨_, _, hperm, hsorted, hlen, hcross, ?_⟩
  rw [computeNoiseFloor_eq_dbl points h, sampleSize_eq_dbl _ hn, hlen]

/-! ### Claim C2 -/

/-- Claim C2 as stated is false, on two counts. The sample size is truncated,
not rounded: the 28 samples of trace28 (five at -100, twenty-three at -40)
have n × 0.2 = 5.6, and computeNoiseFloor averages the five lowest and
returns -100, where the six lowest that the claim names have the mean -90.
And the mean is taken in double arithmetic: on the amplitudes -1e16, 1, 1e16
the sum -1e16 + 1 rounds to -1e16 and computeNoiseFloor returns 0, where the
mean 1/3 rounded to the nearest tenth is 0.3. -/
theorem computeNoiseFloor_not_rounded_mean :
    (trace28 ≠ [] ∧ trace28.length = 28 ∧ sampleSizeRounded 28 = 6 ∧
      computeNoiseFloor (trace28.map ofExact) = Fp.fin (-100) ∧
      noiseFloorRounded trace28 = -90) ∧
    (cancelTrace ≠ [] ∧
      cancelTrace.map (fun point => point.amplitude) = [-10000000000000000, 1, 10000000000000000] ∧
      computeNoiseFloor (cancelTrace.map ofExact) = Fp.fin 0 ∧
      noiseFloorRounded cancelTrace = 3 / 10) :=
  ⟨⟨by decide, by decide, sampleSizeRounded_28, computeNoiseFloor_trace28_dbl,
      noiseFloorRounded_trace28⟩,
    ⟨by simp [cancelTrace], rfl, computeNoiseFloor_cancelTrace_dbl,
      noiseFloorRounded_cancelTrace⟩⟩

/-- Claim C2, amended: for every non-empty sequence of n finite samples,
n < 2^50, computeNoiseFloor averages the k = min(n, max(5, ⌊n / 5⌋)) lowest
amplitudes (the product n × 0.2 is truncated, not rounded) in double
arithmetic: low is the ascending list of k amplitudes, which with the rest
makes up the input and is nowhere above the rest, and the result is
round(fl(fl(S / k) × 10)) / 10 in doubles, where S is the double sum of low
accumulated in ascending order from 0.0 and round is std::round. -/
theorem computeNoiseFloor_double_mean_of_lowest (points : List nr5g.SpectrumPoint)
    (h : points ≠ []) (hn : points.length < 2 ^ 50) :
    ∃ low rest : List ℚ,
      List.Perm (low ++ rest) (points.map (fun point => point.amplitude)) ∧
      List.Pairwise (fun a b : ℚ => a ≤ b) low ∧
      low.length = min points.length (max 5 (points.length / 5)) ∧
      (∀ a ∈ low, ∀ b ∈ rest, a ≤ b) ∧
      computeNoiseFloor (points.map ofExact) =
        Fp.round (sumDbl low / Fp.ofNat low.length * Fp.fin 10) / Fp.fin 10 :=
  computeNoiseFloor_low_split_dbl points h hn

/-- Witness for the amended C2 on trace28, where truncation and rounding of
n × 0.2 = 5.6 differ: five amplitudes are averaged and the result is -100. -/
theorem computeNoiseFloor_double_mean_of_lowest_witness :
    (trace28 ≠ [] ∧ trace28.length < 2 ^ 50) ∧
    (∃ low rest : List ℚ,
      List.Perm (low ++ rest) (trace28.map (fun point => point.amplitude)) ∧
      List.Pairwise (fun a b : ℚ => a ≤ b) low ∧
      low.length = min trace28.length (max 5 (trace28.length / 5)) ∧
      (∀ a ∈ low, ∀ b ∈ rest, a ≤ b) ∧
      computeNoiseFloor (trace28.map ofExact) =
        Fp.round (sumDbl low / Fp.ofNat low.length * Fp.fin 10) / Fp.fin 10) ∧
    min trace28.length (max 5 (trace28.length / 5)) = 5 ∧
    computeNoiseFloor (trace28.map ofExact) = Fp.fin (-100) :=
  ⟨⟨by decide, by decide⟩,
    computeNoiseFloor_double_mean_of_lowest trace28 (by decide) (by decide),
    by decide, computeNoiseFloor_trace28_dbl⟩

/-! ### Claim C17 -/

/-- Claim C17 as stated is false: the one sample of tenthTrace has the
amplitude 0.1499999999999999944 (the double nearest to 0.15), so the mean is
that amplitude and the nearest tenth is 0.1; computeNoiseFloor multiplies by
10 in double arithmetic, which gives exactly 1.5, rounds it to 2 and returns
the double 0.2. -/
theorem computeNoiseFloor_small_input_not_nearest_tenth :
    tenthTrace.length = 1 ∧
    tenthTrace.map (fun point => point.amplitude) = [5404319552844595 / 36028797018963968] ∧
    |(5404319552844595 / 36028797018963968 : ℚ) - 1 / 10| < 1 / 20 ∧
    noiseFloorRounded tenthTrace = 1 / 10 ∧
    computeNoiseFloor (tenthTrace.map ofExact) =
      Fp.fin (3602879701896397 / 18014398509481984) ∧
    (1 / 10 : ℚ) + 1 / 20 < 3602879701896397 / 18014398509481984 :=
  ⟨rfl, rfl, by norm_num [abs_of_pos], noiseFloorRounded_tenthTrace,
    computeNoiseFloor_tenthTrace_dbl, by norm_num⟩

/-- Claim C17, amended: for every sequence of n finite samples, 1 ≤ n ≤ 27,
computeNoiseFloor averages the min(n, 5) lowest amplitudes (all of them when
n ≤ 5) in double arithmetic: the result is round(v) / 10 in doubles, where
v = fl(fl(S / k) × 10), S is the double sum of the k lowest amplitudes
accumulated in ascending order from 0.0, and, when v is finite, round(v) is
an integer nearest to v, the one farther from zero when v is halfway. -/
theorem computeNoiseFloor_small_input_double (points : List nr5g.SpectrumPoint)
    (h1 : 1 ≤ points.length) (h27 : points.length ≤ 27) :
    ∃ low rest : List ℚ,
      List.Perm (low ++ rest) (points.map (fun point => point.amplitude)) ∧
      List.Pairwise (fun a b : ℚ => a ≤ b) low ∧
      low.length = min points.length 5 ∧
      (∀ a ∈ low, ∀ b ∈ rest, a ≤ b) ∧
      (points.length ≤ 5 → rest = []) ∧
      computeNoiseFloor (points.map ofExact) =
        Fp.round (sumDbl low / Fp.ofNat low.length * Fp.fin 10) / Fp.fin 10 ∧
      ∀ x : ℚ, sumDbl low / Fp.ofNat low.length * Fp.fin 10 = Fp.fin x →
        ∃ z : ℤ, Fp.round (Fp.fin x) = Fp.fin (z : ℚ) ∧ |(z : ℚ) - x| ≤ 1 / 2 ∧
          (|(z : ℚ) - x| = 1 / 2 → |x| < |(z : ℚ)|) := by
  have hne : points ≠ [] := by
    intro h
    rw [h] at h1
    exact absurd h1 (by decide)
  obtain ⟨low, rest, hperm, hsorted, hlen, hcross, hval⟩ :=
    computeNoiseFloor_low_split_dbl points hne
      (lt_of_le_of_lt h27 (by norm_num))
  have hk : min points.length (max 5 (points.length / 5)) = min points.length 5 := by
    have : points.length / 5 ≤ 5 := by omega
    rw [max_eq_left this]
  rw [hk] at hlen
  refine ⟨low, rest, hperm, hsorted, hlen, hcross, ?_, hval, ?_⟩
  · intro h5
    have hl := hperm.length_eq
    rw [List.length_append, List.length_map, hlen, min_eq_left h5] at hl
    exact List.length_eq_zero.mp (by omega)
  · intro x _
    exact ⟨cround x, rfl, cround_near x, cround_half_away x⟩

/-- Witness for the amended C17 on the six samples of the specification
example, where the result is -98. -/
theorem computeNoiseFloor_small_input_double_witness :
    (1 ≤ trace6.length ∧ trace6.length ≤ 27) ∧
    (∃ low rest : List ℚ,
      List.Perm (low ++ rest) (trace6.map (fun point => point.amplitude)) ∧
      List.Pairwise (fun a b : ℚ => a ≤ b) low ∧
      low.length = min trace6.length 5 ∧
      (∀ a ∈ low, ∀ b ∈ rest, a ≤ b) ∧
      (trace6.length ≤ 5 → rest = []) ∧
      computeNoiseFloor (trace6.map ofExact) =
        Fp.round (sumDbl low / Fp.ofNat low.length * Fp.fin 10) / Fp.fin 10 ∧
      ∀ x : ℚ, sumDbl low / Fp.ofNat low.length * Fp.fin 10 = Fp.fin x →
        ∃ z : ℤ, Fp.round (Fp.fin x) = Fp.fin (z : ℚ) ∧ |(z : ℚ) - x| ≤ 1 / 2 ∧
          (|(z : ℚ) - x| = 1 / 2 → |x| < |(z : ℚ)|)) ∧
    computeNoiseFloor (trace6.map ofExact) = Fp.fin (-98) :=
  ⟨⟨by decide, by decide⟩,
    computeNoiseFloor_small_input_double trace6 (by decide) (by decide),
    computeNoiseFloor_trace6_dbl⟩

end ieee

end nr5g
